import Mathlib

/-!
# The BUGS encrypted archive driver (`src/crypto/rgssad.cpp`)

A shallow embedding of the keystream engine (`advanceMagic`, `advanceMagicN`,
`LCG_TABLE`), of the entry stream (`BUGS_ioRead`, `BUGS_ioSeek`, `BUGS_ioDuplicate`),
of the header parser (`BUGS_openMetaArchive`, `processDirectories`) and of the mount
driver (`BUGS_openArchive`, `BUGS_openRead`, `BUGS_stat`, `BUGS_enumerateFiles`,
`BUGS_closeArchive`), with the properties of the driver's specification stated over
it.

Conventions of the embedding:

* `uint32_t` / `uint64_t` values are natural numbers; every operation that can
  wrap in C carries its explicit `% 2^32` or `% 2^64`;
* the host is little-endian (the source reinterprets byte buffers as
  `uint32_t`), so a word in memory is the list of its four bytes, lowest first;
* an out-of-bounds read of `LCG_TABLE` has no defined result: the functions
  that can reach one return `Option`, and `none` stands for that case;
* the container stream serves every read in full (the source never looks at the
  count `io->read` returns);
* an object on the heap that can be deleted while pointers to it remain is an
  `Option`: `none` once it has been deleted.
-/

namespace Rgssad

/-! ## Machine arithmetic -/

/-- Number of values of a `uint32_t`. -/
def UINT32_MOD : Nat := 4294967296

/-- Number of values of a `uint64_t`. -/
def UINT64_MOD : Nat := 18446744073709551616

/-- Conversion of a C `int` to `uint32_t` (reduction modulo 2^32). -/
def toUint32 (z : Int) : Nat := (z % 4294967296).toNat

/-- Conversion of a `uint64_t` to the signed `PHYSFS_sint64` return type. -/
def toSint64 (n : Nat) : Int :=
  if n % UINT64_MOD < 9223372036854775808 then ((n % UINT64_MOD : Nat) : Int)
  else ((n % UINT64_MOD : Nat) : Int) - 18446744073709551616

/-- Memory image of a `uint32_t` on the little-endian host: four bytes, lowest first. -/
def toBytesLE (w : Nat) : List Nat :=
  [w % 256, w / 256 % 256, w / 65536 % 256, w / 16777216 % 256]

/-- Value of a little-endian byte sequence read back as an unsigned integer. -/
def ofBytesLE : List Nat → Nat
  | [] => 0
  | b :: bs => b + 256 * ofBytesLE bs

/-- The call `memcpy(dst, src, src.length)` (also a read into the start of `dst`):
the first bytes of `dst` are replaced, the others are kept. -/
def memcpyInto (dst src : List Nat) : List Nat :=
  src ++ dst.drop src.length

/-- Byte number `j` (0 = lowest) of a 32-bit word. -/
def wordByte (w j : Nat) : Nat := w / 256 ^ j % 256

/-! ## Data model -/

/-- The struct `BUGS_entryData`: one indexed file. -/
structure BUGS_entryData where
  offset : Nat
  patchVersion : Nat
  checksum : Nat
  size : Nat
  startMagic : Nat

/-- A `std::string`, and a C string without its terminating NUL: the list of its bytes. -/
abbrev StdString := List Nat

/-- Modelled from the spec: `BoostSet<std::string>` (boost-hash.h is not among the
sources) is "the set of immediate child names": a list of names, none of them twice. -/
abbrev BoostSet := List StdString

/-- Modelled from the spec: `BoostSet::insert`, insertion into a set: a name already
in the set is not added again. -/
def BoostSet.insert (s : BoostSet) (name : StdString) : BoostSet :=
  if name ∈ s then s else s ++ [name]

/-- Modelled from the spec: `BoostHash<std::string, V>` (boost-hash.h is not among the
sources) is "a mapping from logical path to IndexEntry (keys unique)": a list of
key/value pairs in which no key occurs twice. -/
abbrev BoostHash (V : Type) := List (StdString × V)

/-- Modelled from the spec: `BoostHash::contains(key)`. -/
def BoostHash.contains {V : Type} (h : BoostHash V) (key : StdString) : Bool :=
  (List.lookup key h).isSome

/-- Modelled from the spec: `BoostHash::value(key)`, the value stored under `key`, or
`V()` when there is none. -/
def BoostHash.value {V : Type} [Inhabited V] (h : BoostHash V) (key : StdString) : V :=
  (List.lookup key h).getD default

/-- Modelled from the spec: `BoostHash::insert(key, value)`. Keys are unique and an
entry is "immutable once inserted": under a key already present nothing changes. -/
def BoostHash.insert {V : Type} (h : BoostHash V) (key : StdString) (value : V) : BoostHash V :=
  if h.contains key then h else h ++ [(key, value)]

/-- Modelled from the spec: the mapping after `hash[key]` has been evaluated: a key
that was absent is now present, with `V()`. -/
def BoostHash.touch {V : Type} [Inhabited V] (h : BoostHash V) (key : StdString) : BoostHash V :=
  if h.contains key then h else h ++ [(key, default)]

/-- Modelled from the spec: the mapping after `dirHash[dir].insert(entry)`: the child
set of `dir` (created empty if `dir` was absent) gets `entry`. -/
def BoostHash.insertChild (h : BoostHash BoostSet) (dir entry : StdString) : BoostHash BoostSet :=
  if h.contains dir
  then h.map (fun kv => if kv.1 = dir then (kv.1, BoostSet.insert kv.2 entry) else kv)
  else h ++ [(dir, [entry])]

/-- The child set of a directory (empty when the directory is not a key). -/
def BoostHash.children (h : BoostHash BoostSet) (dir : StdString) : BoostSet :=
  (List.lookup dir h).getD []

/-- A value-initialised `BUGS_entryData` (`V()`): every field zero. -/
instance : Inhabited BUGS_entryData :=
  ⟨{ offset := 0, patchVersion := 0, checksum := 0, size := 0, startMagic := 0 }⟩

/-- The struct `BUGS_archiveData` (the global `bugsMetaInformation`): the file index,
the directory index, the password (its bytes, and its length as a C `int`), the
configured key multiplier and additive (C `int`) and the running key index of the
header parser (an `unsigned int`). The keystream engine reads only the two keys. -/
structure BUGS_archiveData where
  entryHash : BoostHash BUGS_entryData := []
  dirHash : BoostHash BoostSet := []
  password : List Nat := []
  passwordLength : Int := 0
  keyMultiplier : Int
  keyAdditive : Int
  keyIndex : Nat := 0

/-- The container byte stream a handle owns (`PHYSFS_Io *io`): the archive's bytes by
physical position, and the current position of the stream. -/
structure PHYSFS_Io where
  bytes : Nat → Nat
  pos : Nat

/-- The struct `BUGS_entryHandle`: the cursor of one open entry. -/
structure BUGS_entryHandle where
  data : BUGS_entryData
  currentMagic : Nat
  currentOffset : Nat
  io : PHYSFS_Io
  patchVersion : Nat

/-- The call `io->seek(io, p)` on the container stream. -/
def PHYSFS_Io.seek (io : PHYSFS_Io) (p : Nat) : PHYSFS_Io :=
  { io with pos := p }

/-- The call `io->read(io, buf, n)` on the container stream: the `n` bytes at the
current position, and the stream moved past them. -/
def PHYSFS_Io.read (io : PHYSFS_Io) (n : Nat) : List Nat × PHYSFS_Io :=
  ((List.range n).map (fun j => io.bytes (io.pos + j)), { io with pos := io.pos + n })

/-- The constructor `BUGS_entryHandle(data, archIo)`: a freshly opened handle, with a
duplicate of the archive's stream. -/
def BUGS_entryHandle.ctor (data : BUGS_entryData) (archIo : PHYSFS_Io) : BUGS_entryHandle :=
  { data := data
    currentMagic := data.startMagic
    currentOffset := 0
    io := archIo
    patchVersion := data.patchVersion }

/-! ## Keystream engine -/

/-- The table `LCG_TABLE[30][2]`. -/
def LCG_TABLE : List (Nat × Nat) :=
  [ (0x00000007, 0x00000003), (0x00000031, 0x00000018),
    (0x00000961, 0x000004b0), (0x0057f6c1, 0x002bfb60),
    (0xa5057d81, 0xd282bec0), (0x6e913b01, 0x37489d80),
    (0xc0bb7601, 0x605dbb00), (0x1bdaec01, 0x8ded7600),
    (0x0145d801, 0x80a2ec00), (0x28cbb001, 0x1465d800),
    (0xea976001, 0x754bb000), (0x392ec001, 0x1c976000),
    (0x025d8001, 0x012ec000), (0x44bb0001, 0x225d8000),
    (0x89760001, 0xc4bb0000), (0x12ec0001, 0x89760000),
    (0x25d80001, 0x12ec0000), (0x4bb00001, 0x25d80000),
    (0x97600001, 0x4bb00000), (0x2ec00001, 0x97600000),
    (0x5d800001, 0x2ec00000), (0xbb000001, 0x5d800000),
    (0x76000001, 0xbb000000), (0xec000001, 0x76000000),
    (0xd8000001, 0xec000000), (0xb0000001, 0xd8000000),
    (0x60000001, 0xb0000000), (0xc0000001, 0x60000000),
    (0x80000001, 0xc0000000), (0x00000001, 0x80000000) ]

/-- The function `advanceMagic(magic)`: the returned word (the old state) and the new
state `magic * keyMultiplier + keyAdditive`, computed in `uint32_t` (the `int`
parameters are converted to unsigned first, as C does). -/
def advanceMagic (bugsMetaInformation : BUGS_archiveData) (magic : Nat) : Nat × Nat :=
  let old := magic
  let magic := ((magic * toUint32 bugsMetaInformation.keyMultiplier) % UINT32_MOD
                  + toUint32 bugsMetaInformation.keyAdditive) % UINT32_MOD
  (old, magic)

/-- The loop of `advanceMagicN`: `while (n != 0)`, one table row per bit of `n`.
`none` when a set bit needs a row the table does not have. -/
def advanceMagicN.loop (magic n table_index : Nat) : Option Nat :=
  if h : n = 0 then some magic
  else
    if n &&& 1 ≠ 0 then
      match LCG_TABLE[table_index]? with
      | none => none
      | some row =>
        advanceMagicN.loop ((magic * row.1 + row.2) % UINT32_MOD) (n >>> 1) (table_index + 1)
    else
      advanceMagicN.loop magic (n >>> 1) (table_index + 1)
termination_by n
decreasing_by
  all_goals simp_wf
  all_goals rw [Nat.shiftRight_eq_div_pow]
  all_goals omega

/-- The function `advanceMagicN(magic, n)`: the returned word (the old state) and the
state after the skip-ahead by `n` steps. -/
def advanceMagicN (magic n : Nat) : Option (Nat × Nat) :=
  let old := magic
  match advanceMagicN.loop magic n 0 with
  | none => none
  | some magic => some (old, magic)

/-- The positions at which the loop of `advanceMagicN` reads `LCG_TABLE`, in order:
`table_index` at every iteration whose bit `n & 1` is set. -/
def advanceMagicN.indices (n table_index : Nat) : List Nat :=
  if h : n = 0 then []
  else
    if n &&& 1 ≠ 0 then table_index :: advanceMagicN.indices (n >>> 1) (table_index + 1)
    else advanceMagicN.indices (n >>> 1) (table_index + 1)
termination_by n
decreasing_by
  all_goals simp_wf
  all_goals rw [Nat.shiftRight_eq_div_pow]
  all_goals omega

/-- The keystream word number `j` of a stream seeded with `seed`: `advanceMagic`
applied `j` times (K_0 = seed, K_{j+1} = K_j * M + A mod 2^32). -/
def keystream (bugsMetaInformation : BUGS_archiveData) (seed : Nat) (j : Nat) : Nat :=
  (fun s => (advanceMagic bugsMetaInformation s).2)^[j] seed

/-! ## Entry stream -/

/-- The loop `for (i = 0; i < align / 4; ++i) dwBufferP[i] ^= advanceMagic(currentMagic)`
over the bytes just read into the caller's buffer: each of the first `words` words is
XORed in place with the next keystream word; what follows them is left as read.
Returns the buffer and the keystream state after the loop. -/
def xorChain (bugsMetaInformation : BUGS_archiveData) :
    Nat → List Nat → Nat → List Nat × Nat
  | 0, buf, magic => (buf, magic)
  | words + 1, buf, magic =>
    let step := advanceMagic bugsMetaInformation magic
    let dword := ofBytesLE (buf.take 4) ^^^ step.1
    let rest := xorChain bugsMetaInformation words (buf.drop 4) step.2
    (toBytesLE dword ++ rest.1, rest.2)

/-- The value `preAlign` of `BUGS_ioRead` (a `uint8_t`). -/
def preAlignOf (offs len : Nat) : Nat :=
  let preAlign := 4 - (offs % 4)
  if preAlign = 4 then 0 else min preAlign len

/-- The value `postAlign` of `BUGS_ioRead` (a `uint8_t`). -/
def postAlignOf (offs len : Nat) : Nat :=
  if len > preAlignOf offs len then ((offs + len) % UINT64_MOD) % 4 else 0

/-- The value `align` of `BUGS_ioRead`: `len - (preAlign + postAlign)` in `uint64_t`. -/
def alignOf (offs len : Nat) : Nat :=
  (len + UINT64_MOD - (preAlignOf offs len + postAlignOf offs len)) % UINT64_MOD

/-- The value `toRead` of `BUGS_ioRead`: `min(size - currentOffset, len)`, the
subtraction in `uint64_t`. -/
def toReadOf (entry : BUGS_entryHandle) (len : Nat) : Nat :=
  min ((entry.data.size + UINT64_MOD - entry.currentOffset) % UINT64_MOD) len

/-- The result of one `BUGS_ioRead` call. -/
structure ReadResult where
  ret : Int
  buffer : List Nat
  entry : BUGS_entryHandle

/-- The block `if (preAlign > 0) { ... }` of `BUGS_ioRead`: the bytes copied to the
caller's buffer, the keystream state and the container stream after the block.
`dword` is the indeterminate initial value of the uninitialised local. -/
def readPreAlign (bugsMetaInformation : BUGS_archiveData) (io : PHYSFS_Io)
    (offs preAlign currentMagic dword : Nat) : List Nat × Nat × PHYSFS_Io :=
  if preAlign > 0 then
    -- io->read(io, &dword, preAlign)
    let r := io.read preAlign
    let dword := ofBytesLE (memcpyInto (toBytesLE dword) r.1)
    let dword := (dword <<< (8 * (offs % 4))) % UINT32_MOD
    let dword := dword ^^^ currentMagic
    let dword := dword >>> (8 * (offs % 4))
    -- memcpy(bBufferP, &dword, preAlign)
    let out := (toBytesLE dword).take preAlign
    let magic :=
      if (offs + preAlign) % UINT64_MOD % 4 = 0
      then (advanceMagic bugsMetaInformation currentMagic).2
      else currentMagic
    (out, magic, r.2)
  else ([], currentMagic, io)

/-- The block `if (align > 0) { ... }` of `BUGS_ioRead`. -/
def readAligned (bugsMetaInformation : BUGS_archiveData) (io : PHYSFS_Io)
    (align currentMagic : Nat) : List Nat × Nat × PHYSFS_Io :=
  if align > 0 then
    -- io->read(io, bBufferP, align)
    let r := io.read align
    let x := xorChain bugsMetaInformation (align / 4) r.1 currentMagic
    (x.1, x.2, r.2)
  else ([], currentMagic, io)

/-- The block `if (postAlign > 0) { ... }` of `BUGS_ioRead`; the keystream state is
not changed by it. -/
def readPostAlign (io : PHYSFS_Io) (postAlign currentMagic dword : Nat) :
    List Nat × PHYSFS_Io :=
  if postAlign > 0 then
    -- io->read(io, &dword, postAlign)
    let r := io.read postAlign
    let dword := ofBytesLE (memcpyInto (toBytesLE dword) r.1)
    let dword := dword ^^^ currentMagic
    -- memcpy(bBufferP, &dword, postAlign)
    ((toBytesLE dword).take postAlign, r.2)
  else ([], io)

/-- The function `BUGS_ioRead(self, buffer, len)`. `dwordPre` and `dwordPost` are the
indeterminate initial values of the two uninitialised locals `uint32_t dword`.
The result holds the returned count, the bytes stored at the start of the caller's
buffer, in order, and the handle after the call. -/
def BUGS_ioRead (bugsMetaInformation : BUGS_archiveData) (entry : BUGS_entryHandle)
    (len : Nat) (dwordPre dwordPost : Nat) : ReadResult :=
  let toRead := toReadOf entry len
  let offs := entry.currentOffset
  let io := entry.io.seek ((entry.data.offset + offs) % UINT64_MOD)
  let preAlign := preAlignOf offs len
  let postAlign := postAlignOf offs len
  let align := alignOf offs len
  let pre := readPreAlign bugsMetaInformation io offs preAlign entry.currentMagic dwordPre
  let mid := readAligned bugsMetaInformation pre.2.2 align pre.2.1
  let post := readPostAlign mid.2.2 postAlign mid.2.1 dwordPost
  { ret := toSint64 toRead
    buffer := pre.1 ++ mid.1 ++ post.1
    entry := { entry with
      currentMagic := mid.2.1
      currentOffset := (entry.currentOffset + toRead) % UINT64_MOD
      io := post.2 } }

/-- The function `BUGS_ioSeek(self, offset)`: the returned `int` and the handle after
the call; `none` when `advanceMagicN` reads outside `LCG_TABLE`. -/
def BUGS_ioSeek (entry : BUGS_entryHandle) (offset : Nat) : Option (Int × BUGS_entryHandle) :=
  if offset = entry.currentOffset then some (1, entry)
  else if offset > (entry.data.size + UINT64_MOD - 1) % UINT64_MOD then some (0, entry)
  else
    -- if (offset < entry->currentOffset): rewind to the beginning
    let entry :=
      if offset < entry.currentOffset
      then { entry with currentOffset := 0, currentMagic := entry.data.startMagic }
      else entry
    let currentDword := entry.currentOffset / 4
    let targetDword := offset / 4
    let dwordsSought := (targetDword + UINT64_MOD - currentDword) % UINT64_MOD
    match advanceMagicN entry.currentMagic (dwordsSought % UINT32_MOD) with
    | none => none
    | some r =>
      some (1, { entry with
        currentMagic := r.2
        currentOffset := offset
        io := entry.io.seek ((entry.data.offset + offset) % UINT64_MOD) })

/-- The function `BUGS_ioTell(self)`. -/
def BUGS_ioTell (entry : BUGS_entryHandle) : Int := toSint64 entry.currentOffset

/-- The function `BUGS_ioLength(self)`. -/
def BUGS_ioLength (entry : BUGS_entryHandle) : Int := toSint64 entry.data.size

/-- One call on an open handle. -/
inductive IoCall where
  | read (len dwordPre dwordPost : Nat)
  | seek (offset : Nat)

/-- The handle after one call (`none`: the call read outside `LCG_TABLE`). -/
def IoCall.apply (bugsMetaInformation : BUGS_archiveData) (entry : BUGS_entryHandle) :
    IoCall → Option BUGS_entryHandle
  | .read len dwordPre dwordPost =>
    some (BUGS_ioRead bugsMetaInformation entry len dwordPre dwordPost).entry
  | .seek offset => (BUGS_ioSeek entry offset).map (fun r => r.2)

/-- The handle after a finite sequence of calls, applied in order. -/
def runCalls (bugsMetaInformation : BUGS_archiveData) :
    BUGS_entryHandle → List IoCall → Option BUGS_entryHandle
  | entry, [] => some entry
  | entry, call :: calls =>
    match call.apply bugsMetaInformation entry with
    | none => none
    | some entry => runCalls bugsMetaInformation entry calls

/-- The reference single-pass decrypt of an entry: plain byte number `i` is the stored
byte XOR byte `i mod 4` of keystream word `i / 4`. -/
def refDecrypt (bugsMetaInformation : BUGS_archiveData) (data : BUGS_entryData)
    (bytes : Nat → Nat) (i : Nat) : Nat :=
  bytes (data.offset + i) ^^^ wordByte (keystream bugsMetaInformation data.startMagic (i / 4)) (i % 4)

/-- The stream invariant of the specification: `currentMagic` is the keystream word
for `floor(currentOffset / 4)`. -/
def StreamInvariant (bugsMetaInformation : BUGS_archiveData) (entry : BUGS_entryHandle) : Prop :=
  entry.currentMagic
    = keystream bugsMetaInformation entry.data.startMagic (entry.currentOffset / 4)

instance (bugsMetaInformation : BUGS_archiveData) (entry : BUGS_entryHandle) :
    Decidable (StreamInvariant bugsMetaInformation entry) := by
  unfold StreamInvariant
  infer_instance

/-! ## Header parser -/

/-- A C `char` holding the byte `b`, promoted to `int`; `char` is signed, so the bytes
from 0x80 are the negative values. -/
def charToInt (b : Nat) : Int :=
  if b % 256 < 128 then ((b % 256 : Nat) : Int) else ((b % 256 : Nat) : Int) - 256

/-- Conversion of a `uint32_t` to a C `int`. -/
def toInt32 (n : Nat) : Int :=
  if n % UINT32_MOD < 2147483648 then ((n % UINT32_MOD : Nat) : Int)
  else ((n % UINT32_MOD : Nat) : Int) - 4294967296

/-- The bytes of a C string stored at the start of `buf`: those before the first NUL. -/
def cString (buf : List Nat) : StdString := buf.takeWhile (fun b => b ≠ 0)

/-- The function `readUint32(io, result)`. `io` is the archive stream from its
current position to its end, `buff` the indeterminate initial content of the local
`char buff[4]`. Returns `count == 4`, the value assigned to `result` (whatever it held
before) and the stream after the read. The shifts and masks are those of the source,
on two's complement `int`s. -/
def readUint32 (io : List Nat) (buff : List Nat) (_result : Nat) : Bool × Nat × List Nat :=
  -- count = io->read(io, buff, 4)
  let count := (io.take 4).length
  let buff := memcpyInto buff (io.take 4)
  let result :=
    (toUint32 (charToInt (buff.getD 0 0) * 2 ^ 0) &&& 0x000000FF) |||
    (toUint32 (charToInt (buff.getD 1 0) * 2 ^ 8) &&& 0x0000FF00) |||
    (toUint32 (charToInt (buff.getD 2 0) * 2 ^ 16) &&& 0x00FF0000) |||
    (toUint32 (charToInt (buff.getD 3 0) * 2 ^ 24) &&& 0xFF000000)
  (count == 4, result, io.drop 4)

/-- The macro `PASSWORD_CHARACTER(i)`: `password[i % passwordLength]`, the remainder
taken in `unsigned int`. `none` when the length is 0 (division by zero) or the
position is outside the password. -/
def PASSWORD_CHARACTER (bugsMetaInformation : BUGS_archiveData) (i : Nat) : Option Nat :=
  if toUint32 bugsMetaInformation.passwordLength = 0 then none
  else bugsMetaInformation.password[i % toUint32 bugsMetaInformation.passwordLength]?

/-- The function `readUint32AndXor(io, result)`: success flag, the value left in
`result`, the archive data (its `keyIndex` moved on) and the stream after the call.
`none` when `PASSWORD_CHARACTER` has no defined value. -/
def readUint32AndXor (bugsMetaInformation : BUGS_archiveData) (io : List Nat)
    (buff : List Nat) (result : Nat) :
    Option (Bool × Nat × BUGS_archiveData × List Nat) :=
  -- result ^= bugsMetaInformation->password[0]
  let result := result ^^^ toUint32 (charToInt (bugsMetaInformation.password.getD 0 0))
  let r := readUint32 io buff result
  if r.1 = false then some (false, r.2.1, bugsMetaInformation, r.2.2)
  else
    -- result ^= PASSWORD_CHARACTER(bugsMetaInformation->keyIndex++)
    match PASSWORD_CHARACTER bugsMetaInformation bugsMetaInformation.keyIndex with
    | none => none
    | some c =>
      some (true, r.2.1 ^^^ toUint32 (charToInt c),
        { bugsMetaInformation with
          keyIndex := (bugsMetaInformation.keyIndex + 1) % UINT32_MOD },
        r.2.2)

/-- The loop `for (i = 0; i < stringLength; i++) buffer[i] ^= PASSWORD_CHARACTER(keyIndex++)`
over the first `stringLength` chars of the buffer. -/
def decryptChars (bugsMetaInformation : BUGS_archiveData) :
    List Nat → Option (List Nat × BUGS_archiveData)
  | [] => some ([], bugsMetaInformation)
  | b :: bs =>
    match PASSWORD_CHARACTER bugsMetaInformation bugsMetaInformation.keyIndex with
    | none => none
    | some c =>
      match decryptChars
          { bugsMetaInformation with
            keyIndex := (bugsMetaInformation.keyIndex + 1) % UINT32_MOD } bs with
      | none => none
      | some r => some ((b ^^^ c) % 256 :: r.1, r.2)

/-- The function `decryptAndReadString(io, buffer, stringLength)`: the returned flag
(always true), the buffer, the archive data and the stream after the call. `none`
when a write falls outside the buffer (`buffer[stringLength] = 0` does, for a
negative `stringLength` and for one that is not below the buffer's size) or
`PASSWORD_CHARACTER` has no defined value. -/
def decryptAndReadString (bugsMetaInformation : BUGS_archiveData) (io : List Nat)
    (buffer : List Nat) (stringLength : Int) :
    Option (Bool × List Nat × BUGS_archiveData × List Nat) :=
  if stringLength < 0 ∨ (buffer.length : Int) ≤ stringLength then none
  else
    let n := stringLength.toNat
    -- io->read(io, buffer, stringLength)
    let buffer := memcpyInto buffer (io.take n)
    match decryptChars bugsMetaInformation (buffer.take n) with
    | none => none
    | some r =>
      let buffer := memcpyInto buffer r.1
      -- buffer[stringLength] = 0
      let buffer := buffer.set n 0
      some (true, buffer, r.2, io.drop n)

/-- The first loop of `processDirectories` ("check for top level entries"), started at
position `i` with `left` iterations to go: the name inserted into the top-level set,
if the loop inserts one. -/
def processDirectories.topLevel (nameBuf : List Nat) (nameLen : Nat) :
    Nat → Nat → Option StdString
  | 0, _ => none
  | left + 1, i =>
    if nameBuf.getD i 0 ≠ 47 ∧ i + 1 < nameLen
    then processDirectories.topLevel nameBuf nameLen left (i + 1)
    else
      -- if (slash) nameBuf[i] = 0; topLevel.insert(nameBuf)
      some (cString (if nameBuf.getD i 0 = 47 then nameBuf.set i 0 else nameBuf))

/-- The second loop of `processDirectories` ("check for more entries"), from position
`i` down to 1: every slash found is overwritten with NUL, and the string after it is
inserted into the child set of the string before it. -/
def processDirectories.more :
    Nat → List Nat → BoostHash BoostSet → List Nat × BoostHash BoostSet
  | 0, nameBuf, dirHash => (nameBuf, dirHash)
  | i + 1, nameBuf, dirHash =>
    if nameBuf.getD (i + 1) 0 = 47 then
      let nameBuf := nameBuf.set (i + 1) 0
      let dir := cString nameBuf
      let entry := cString (nameBuf.drop (i + 1 + 1))
      processDirectories.more i nameBuf (dirHash.insertChild dir entry)
    else processDirectories.more i nameBuf dirHash

/-- The function `processDirectories(data, topLevel, nameBuf, nameLen)`, `topLevel`
being the child set of the root `""`: the archive data and the name buffer after the
call. -/
def processDirectories (data : BUGS_archiveData) (nameBuf : List Nat) (nameLen : Nat) :
    BUGS_archiveData × List Nat :=
  let dirHash :=
    match processDirectories.topLevel nameBuf nameLen nameLen 0 with
    | none => data.dirHash
    | some name => data.dirHash.insertChild [] name
  let r := processDirectories.more nameLen nameBuf dirHash
  ({ data with dirHash := r.2 }, r.1)

/-- The locals `offset, patchVersion, checksum, fileSize, magicKey, fileNameLen` of
`BUGS_openMetaArchive`. -/
structure HeaderLocals where
  offset : Nat
  patchVersion : Nat
  checksum : Nat
  fileSize : Nat
  magicKey : Nat
  fileNameLen : Nat

/-- What is indeterminate when `BUGS_openMetaArchive` starts: the content of the local
`char buff[4]` of `readUint32`, of the local `BUGS_entryData entry` and of the six
`uint32_t` locals. -/
structure Indeterminate where
  buff : List Nat
  entry : BUGS_entryData
  locals : HeaderLocals

/-- What `BUGS_openMetaArchive` leaves behind: the archive data and the stream when
the loop was left by `break`; nothing when it was left by `goto error`
(`delete bugsMetaInformation`); no defined state after an out-of-bounds write or a
division by zero. -/
inductive MetaArchive where
  | built (bugsMetaInformation : BUGS_archiveData) (io : List Nat)
  | deleted
  | undefined

/-- One guarded step of the parse loop: `if (!step) goto error;`. -/
def MetaArchive.guard {α : Type} (step : Option (Bool × α)) (next : α → MetaArchive) :
    MetaArchive :=
  match step with
  | none => .undefined
  | some (false, _) => .deleted
  | some (true, a) => next a

/-- The loop `while (true)` of `BUGS_openMetaArchive`, one record per iteration.
`fuel` bounds the number of iterations; every iteration that goes on consumes at
least 24 bytes of the stream. -/
def BUGS_openMetaArchive.loop (u : Indeterminate) :
    Nat → BUGS_archiveData → List Nat → List Nat → HeaderLocals → MetaArchive
  | 0, _, _, _, _ => .undefined
  | fuel + 1, d, io, fileName, v =>
    MetaArchive.guard (readUint32AndXor d io u.buff v.offset) fun r1 =>
    -- zero offset means entry list has ended
    if r1.1 ≤ 0 then .built r1.2.1 r1.2.2 else
    MetaArchive.guard (readUint32AndXor r1.2.1 r1.2.2 u.buff v.patchVersion) fun r2 =>
    MetaArchive.guard (readUint32AndXor r2.2.1 r2.2.2 u.buff v.checksum) fun r3 =>
    MetaArchive.guard (readUint32AndXor r3.2.1 r3.2.2 u.buff v.fileSize) fun r4 =>
    MetaArchive.guard (readUint32AndXor r4.2.1 r4.2.2 u.buff v.magicKey) fun r5 =>
    MetaArchive.guard (readUint32AndXor r5.2.1 r5.2.2 u.buff v.fileNameLen) fun r6 =>
    MetaArchive.guard (decryptAndReadString r6.2.1 r6.2.2 fileName (toInt32 r6.1)) fun r7 =>
    -- entry.checksum is not assigned
    let entry : BUGS_entryData :=
      { u.entry with
        offset := r1.1
        size := r4.1
        startMagic := r5.1
        patchVersion := r2.1 }
    let d : BUGS_archiveData :=
      { r7.2.1 with entryHash := r7.2.1.entryHash.insert (cString r7.1) entry }
    let p := processDirectories d r7.1 r6.1
    BUGS_openMetaArchive.loop u fuel p.1 r7.2.2 p.2
      { offset := r1.1, patchVersion := r2.1, checksum := r3.1, fileSize := r4.1,
        magicKey := r5.1, fileNameLen := r6.1 }

/-- The archive data `BUGS_openMetaArchive` starts the loop with: empty indices with
the root directory `""` present, the password and the keys, `keyIndex = -1`. -/
def BUGS_openMetaArchive.init (password : List Nat) (keyMultiplier keyAdditive : Int) :
    BUGS_archiveData :=
  { entryHash := []
    dirHash := BoostHash.touch [] []
    password := password
    passwordLength := (password.length : Int)
    keyMultiplier := keyMultiplier
    keyAdditive := keyAdditive
    keyIndex := toUint32 (-1) }

/-- The function `BUGS_openMetaArchive(io, password, keyMultiplier, keyAdditive)` on an
archive with the bytes `archive`. `fileName` is the content of the static buffer
`char fileName[512]` when the call starts. -/
def BUGS_openMetaArchive (archive : List Nat) (password : List Nat)
    (keyMultiplier keyAdditive : Int) (u : Indeterminate) (fileName : List Nat) : MetaArchive :=
  -- io->seek(io, 8)
  let io := archive.drop 8
  BUGS_openMetaArchive.loop u (io.length + 1)
    (BUGS_openMetaArchive.init password keyMultiplier keyAdditive) io fileName u.locals

/-- The struct `BUGS_patchData`: one mount. -/
structure BUGS_patchData where
  archiveIo : PHYSFS_Io
  patchVersion : Nat
  data : BUGS_archiveData

/-- The function `BUGS_openRead(patchData, filename)`, the first argument being the
mount the call is made on: the handle of the returned stream, `none` for the null
return. -/
def BUGS_openRead (patchData : BUGS_patchData) (filename : StdString) :
    Option BUGS_entryHandle :=
  let data := patchData.data
  let patchVersion := patchData.patchVersion
  if !data.entryHash.contains filename
      || (data.entryHash.value filename).patchVersion != patchVersion
  then none
  else
    -- new BUGS_entryHandle(data->entryHash[filename], patchData->archiveIo)
    some (BUGS_entryHandle.ctor (data.entryHash.value filename) patchData.archiveIo)

/-! ## Header wire format -/

/-- One record of the header, as the wire format lists it; `fileNameLength` is the
length of `fileName`. -/
structure HeaderRecord where
  offset : Nat
  patchVersion : Nat
  checksum : Nat
  fileSize : Nat
  startMagic : Nat
  fileName : StdString

/-- The running key index at decode operation number `j` of a parse (0 for the first). -/
def keyIndexAt (j : Nat) : Nat := (4294967295 + j) % 4294967296

/-- The password character used by decode operation number `j`. -/
def keyChar (password : List Nat) (j : Nat) : Nat :=
  password.getD (keyIndexAt j % password.length) 0

/-- A 32-bit field as stored for decode operation `j`: XORed as a whole with the
password character, little-endian. -/
def encodeUint32 (password : List Nat) (j : Nat) (value : Nat) : List Nat :=
  toBytesLE (value ^^^ toUint32 (charToInt (keyChar password j)))

/-- Name bytes as stored from decode operation `j` on: each byte XORed with its own
password character. -/
def encodeName (password : List Nat) : Nat → List Nat → List Nat
  | _, [] => []
  | j, b :: bs => (b ^^^ keyChar password j) % 256 :: encodeName password (j + 1) bs

/-- One record as stored from decode operation `j` on. -/
def encodeRecord (password : List Nat) (j : Nat) (r : HeaderRecord) : List Nat :=
  encodeUint32 password j r.offset
    ++ encodeUint32 password (j + 1) r.patchVersion
    ++ encodeUint32 password (j + 2) r.checksum
    ++ encodeUint32 password (j + 3) r.fileSize
    ++ encodeUint32 password (j + 4) r.startMagic
    ++ encodeUint32 password (j + 5) r.fileName.length
    ++ encodeName password (j + 6) r.fileName

/-- The index region from decode operation `j` on: the records, then a zero offset. -/
def encodeRecords (password : List Nat) : Nat → List HeaderRecord → List Nat
  | j, [] => encodeUint32 password j 0
  | j, r :: rs =>
    encodeRecord password j r ++ encodeRecords password (j + 6 + r.fileName.length) rs

/-- The index entry the parser builds for a record; `checksum` keeps what the
uninitialised local `entry` held. -/
def HeaderRecord.toEntry (u : Indeterminate) (r : HeaderRecord) : BUGS_entryData :=
  { u.entry with
    offset := r.offset
    size := r.fileSize
    startMagic := r.startMagic
    patchVersion := r.patchVersion }

/-- The file index after the records have been inserted in order. -/
def insertRecords (u : Indeterminate) :
    BoostHash BUGS_entryData → List HeaderRecord → BoostHash BUGS_entryData
  | h, [] => h
  | h, r :: rs => insertRecords u (h.insert r.fileName (r.toEntry u)) rs

/-- A record the wire format can hold and the parser can take in: 32-bit fields, a
non-zero offset, a name of at most 511 bytes, none of them NUL. -/
def HeaderRecord.WellFormed (r : HeaderRecord) : Prop :=
  0 < r.offset ∧ r.offset < 4294967296 ∧ r.patchVersion < 4294967296
    ∧ r.checksum < 4294967296 ∧ r.fileSize < 4294967296 ∧ r.startMagic < 4294967296
    ∧ r.fileName.length ≤ 511 ∧ ∀ b ∈ r.fileName, 0 < b ∧ b < 256

/-- The archive data and the name buffer after the iteration that takes in the record
`r`, stored for decode operation `j` on. -/
def afterRecord (u : Indeterminate) (d : BUGS_archiveData) (fileName : List Nat) (j : Nat)
    (r : HeaderRecord) : BUGS_archiveData × List Nat :=
  processDirectories
    { d with
      keyIndex := keyIndexAt (j + 6 + r.fileName.length)
      entryHash := d.entryHash.insert r.fileName (r.toEntry u) }
    ((r.fileName ++ fileName.drop r.fileName.length).set r.fileName.length 0)
    r.fileName.length

/-- The archive data after the iterations that take in the records `recs`, stored for
decode operation `j` on, and the one that decodes the zero offset after them. -/
def afterRecords (u : Indeterminate) :
    BUGS_archiveData → List Nat → Nat → List HeaderRecord → BUGS_archiveData
  | d, _, _, [] => { d with keyIndex := (d.keyIndex + 1) % UINT32_MOD }
  | d, fileName, j, r :: rs =>
    afterRecords u (afterRecord u d fileName j r).1 (afterRecord u d fileName j r).2
      (j + 6 + r.fileName.length) rs

/-! ## Paths -/

/-- The path made of the segments `segs`, separated by single slashes. -/
def joinPath : List StdString → StdString
  | [] => []
  | [s] => s
  | s :: t :: rest => s ++ 47 :: joinPath (t :: rest)

/-- Segments a path can be made of: non-empty, without slash and without NUL. -/
def ValidSegments (segs : List StdString) : Prop :=
  ∀ s ∈ segs, s ≠ [] ∧ ∀ b ∈ s, b ≠ 0 ∧ b ≠ 47

instance (segs : List StdString) : Decidable (ValidSegments segs) := by
  unfold ValidSegments
  infer_instance

/-- The (directory, child) pairs of a path, given by its segments in reverse order:
every proper directory prefix with the one segment that follows it, the longest
prefix first. -/
def dirPairsRev : List StdString → List (StdString × StdString)
  | [] => []
  | [_] => []
  | s :: t :: rest => (joinPath (t :: rest).reverse, s) :: dirPairsRev (t :: rest)

/-- The directory index after `processDirectories` has run on each of the paths, given
by their segments, in order; `tail` is what the name buffer holds behind the
terminating NUL of a path. -/
def processAllDirectories (tail : List Nat) :
    BUGS_archiveData → List (List StdString) → BUGS_archiveData
  | d, [] => d
  | d, segs :: rest =>
    processAllDirectories tail
      (processDirectories d (joinPath segs ++ 0 :: tail) (joinPath segs).length).1 rest

/-- The archive data holds the password `password` (non-empty, its length a positive
`int`, its characters bytes) and the running key index of decode operation `j`. -/
def KeyState (password : List Nat) (d : BUGS_archiveData) (j : Nat) : Prop :=
  d.password = password ∧ d.passwordLength = (password.length : Int)
    ∧ 0 < password.length ∧ password.length < 2147483648
    ∧ (∀ c ∈ password, c < 256)
    ∧ d.keyIndex = keyIndexAt j

/-! ## Mount driver -/

/-- The enum `PHYSFS_FileType` of the host's physfs.h. -/
inductive PHYSFS_FileType where
  | PHYSFS_FILETYPE_REGULAR
  | PHYSFS_FILETYPE_DIRECTORY
  | PHYSFS_FILETYPE_SYMLINK
  | PHYSFS_FILETYPE_OTHER
deriving DecidableEq

/-- The error codes of the host's physfs.h this driver sets, and `PHYSFS_ERR_OK`. -/
inductive PHYSFS_ErrorCode where
  | PHYSFS_ERR_OK
  | PHYSFS_ERR_NOT_FOUND
deriving DecidableEq

/-- The struct `PHYSFS_Stat` of the host's physfs.h. -/
structure PHYSFS_Stat where
  filesize : Int
  modtime : Int
  createtime : Int
  accesstime : Int
  filetype : PHYSFS_FileType
  readonly : Int
deriving DecidableEq

/-- The function `BUGS_stat(patchData, filename, stat)`: the returned `int`, the struct
`*stat` after the call and the error code of the thread after the call
(`PHYSFS_setErrorCode`). -/
def BUGS_stat (patchData : BUGS_patchData) (filename : StdString) (stat : PHYSFS_Stat)
    (errorCode : PHYSFS_ErrorCode) : Int × PHYSFS_Stat × PHYSFS_ErrorCode :=
  let data := patchData.data
  let hasFile := data.entryHash.contains filename
  let hasDir := data.dirHash.contains filename
  if !hasFile && !hasDir then (0, stat, .PHYSFS_ERR_NOT_FOUND)
  else
    let stat := { stat with modtime := 0, createtime := 0, accesstime := 0, readonly := 1 }
    let stat :=
      if hasFile then
        { stat with
          filesize := toSint64 (data.entryHash.value filename).size
          filetype := .PHYSFS_FILETYPE_REGULAR }
      else
        { stat with filesize := 0, filetype := .PHYSFS_FILETYPE_DIRECTORY }
    (1, stat, errorCode)

/-- The enum `PHYSFS_EnumerateCallbackResult` of the host's physfs.h. -/
inductive PHYSFS_EnumerateCallbackResult where
  | PHYSFS_ENUM_ERROR
  | PHYSFS_ENUM_STOP
  | PHYSFS_ENUM_OK
deriving DecidableEq

/-- The function `BUGS_enumerateFiles(patchData, dirname, cb, origdir, callbackdata)`.
The callback takes `callbackdata`, `origdir` and a name, and gives its result and the
state it leaves `callbackdata` in; the source drops the result of every call. Returns
the function's result and `callbackdata` after the call. -/
def BUGS_enumerateFiles {σ : Type} (patchData : BUGS_patchData) (dirname : StdString)
    (cb : σ → StdString → StdString → PHYSFS_EnumerateCallbackResult × σ)
    (origdir : StdString) (callbackdata : σ) : PHYSFS_EnumerateCallbackResult × σ :=
  let data := patchData.data
  if !data.dirHash.contains dirname then (.PHYSFS_ENUM_STOP, callbackdata)
  else
    let entries := data.dirHash.children dirname
    -- for (iter = entries.cbegin(); iter != entries.cend(); ++iter) cb(...)
    (.PHYSFS_ENUM_OK, entries.foldl (fun acc name => (cb acc origdir name).2) callbackdata)

/-- A callback that records the names it is called with, in order, and answers
`answer` (which the driver never looks at). -/
def recordingCallback (answer : PHYSFS_EnumerateCallbackResult) :
    List StdString → StdString → StdString → PHYSFS_EnumerateCallbackResult × List StdString :=
  fun acc _ name => (answer, acc ++ [name])

/-- The character class `\d` of the pattern `patchMatcher`: a decimal digit. -/
def isDigit (b : Nat) : Bool := 48 ≤ b && b ≤ 57

/-- The call `std::regex_search(patchName, sm, patchMatcher)` with the pattern `\d+`
that `BUGS_openMetaArchive` stores in `patchMatcher`: the match `sm[0]`, which is the
leftmost match, taken as long as the greedy `+` allows; `none` when nothing matches. -/
def regex_search (patchName : StdString) : Option StdString :=
  let rest := patchName.dropWhile (fun b => !isDigit b)
  if rest = [] then none else some (rest.takeWhile isDigit)

/-- The value `sm.size()` after the search: the number of sub-matches of the match,
the whole match included; the pattern `\d+` has no group, so it is 1 after a match
and 0 after none. -/
def smatch_size (sm : Option StdString) : Nat :=
  match sm with
  | none => 0
  | some _ => 1

/-- The value of a string of decimal digits. -/
def decimalValue (digits : StdString) : Nat :=
  digits.foldl (fun acc b => 10 * acc + (b - 48)) 0

/-- The call `std::stoi(sm[0])` on a string of decimal digits: its value, `none` when
the value does not fit an `int` (`std::out_of_range` is thrown). -/
def stoi (digits : StdString) : Option Int :=
  if decimalValue digits ≤ 2147483647 then some (decimalValue digits : Int) else none

/-- What a call of `BUGS_openArchive` ends with: the null return, a new mount, or the
exception of `std::stoi`. -/
inductive OpenArchive where
  | null
  | mount (patchData : BUGS_patchData)
  | out_of_range

/-- The function `BUGS_openArchive(io, path, forWrite, claimed)`, called while the
global `bugsMetaInformation` points to the given archive data: what the call ends
with, and `*claimed` after it. -/
def BUGS_openArchive (bugsMetaInformation : BUGS_archiveData) (io : PHYSFS_Io)
    (path : StdString) (forWrite : Int) (claimed : Int) : OpenArchive × Int :=
  if forWrite ≠ 0 then (.null, claimed)
  else
    let claimed := 1
    let sm := regex_search path
    if smatch_size sm ≠ 1 then (.null, claimed)
    else
      match stoi (sm.getD []) with
      | none => (.out_of_range, claimed)
      | some v =>
        (.mount { archiveIo := io, patchVersion := toUint32 v, data := bugsMetaInformation },
          claimed)

/-- The driver's memory: the object the global pointer `bugsMetaInformation` and the
`data` pointer of every mount point to (`none` once it has been deleted; no pointer is
reset when it is), and the mounts `BUGS_openArchive` has returned, each by its stream
and its tag. -/
structure Driver where
  bugsMetaInformation : Option BUGS_archiveData
  mounts : List (PHYSFS_Io × Nat)

/-- The struct `BUGS_patchData` of mount number `i` as a call on that mount sees it;
`none` when the mount does not exist or its `data` points to a deleted object. -/
def Driver.patchData (driver : Driver) (i : Nat) : Option BUGS_patchData :=
  match driver.mounts[i]?, driver.bugsMetaInformation with
  | some m, some data => some { archiveIo := m.1, patchVersion := m.2, data := data }
  | _, _ => none

/-- The function `BUGS_closeArchive(patchData)` on mount number `i`: `delete data`,
whatever other mounts exist. `none` when there is no such mount or the object has been
deleted before (a second `delete` of the same pointer). -/
def BUGS_closeArchive (driver : Driver) (i : Nat) : Option Driver :=
  match driver.patchData i with
  | none => none
  | some _ => some { bugsMetaInformation := none, mounts := driver.mounts.eraseIdx i }

/-- The function `BUGS_ioDuplicate(self)`: the handle `new BUGS_entryHandle(*entry)`,
built by the implicit copy constructor, which copies every member, the pointer `io`
included: the duplicate works on the container stream of the original. -/
def BUGS_ioDuplicate (entry : BUGS_entryHandle) : BUGS_entryHandle :=
  { data := entry.data
    currentMagic := entry.currentMagic
    currentOffset := entry.currentOffset
    io := entry.io
    patchVersion := entry.patchVersion }

/-- Two handles that hold the same pointer `io`: a handle and its duplicate. -/
structure HandlePair where
  self : BUGS_entryHandle
  dup : BUGS_entryHandle

/-- A call on the first handle of a pair: the handle after the call, and the second
handle, which finds the shared container stream where the call left it. -/
def HandlePair.onSelf (bugsMetaInformation : BUGS_archiveData) (pair : HandlePair)
    (call : IoCall) : Option HandlePair :=
  (call.apply bugsMetaInformation pair.self).map fun e =>
    { self := e, dup := { pair.dup with io := e.io } }

/-- A call on the second handle of a pair. -/
def HandlePair.onDup (bugsMetaInformation : BUGS_archiveData) (pair : HandlePair)
    (call : IoCall) : Option HandlePair :=
  (call.apply bugsMetaInformation pair.dup).map fun e =>
    { self := { pair.self with io := e.io }, dup := e }

/-! ## The skip-ahead in the words of the specification -/

/-- The base transition of the specification for the table's keys:
`x -> (7 * x + 3) mod 2^32`. -/
def baseTransition (x : Nat) : Nat := (7 * x + 3) % 4294967296

/-- An affine transform `x -> (x * m + a) mod 2^32`, given as the pair `(m, a)`,
applied to a state. -/
def applyTransform (t : Nat × Nat) (x : Nat) : Nat := (x * t.1 + t.2) % 4294967296

/-- The composition of two transforms: first `t`, then `row`. -/
def composeTransform (t row : Nat × Nat) : Nat × Nat :=
  ((t.1 * row.1) % 4294967296, (t.2 * row.1 + row.2) % 4294967296)

/-- The skip-ahead as the specification words it: "decompose n in binary and, for each
set bit k, compose the running transform with table entry k"; `running` is the
running transform, `k` the position of the lowest bit of `n`. `none` when a set bit
has no table entry. -/
def composedTransform (n k : Nat) (running : Nat × Nat) : Option (Nat × Nat) :=
  if h : n = 0 then some running
  else
    if n % 2 = 1 then
      match LCG_TABLE[k]? with
      | none => none
      | some row => composedTransform (n / 2) (k + 1) (composeTransform running row)
    else composedTransform (n / 2) (k + 1) running
termination_by n
decreasing_by
  all_goals simp_wf
  all_goals omega

/-- The state `advanceN(state, n)` of the specification: "applying the resulting
combined transform once to the state". -/
def advanceN (state n : Nat) : Option Nat :=
  (composedTransform n 0 (1, 0)).map (fun t => applyTransform t state)

/-! ## Calls of `advanceMagic` made by a read -/

/-- The number of times the block `if (preAlign > 0)` of `BUGS_ioRead` calls
`advanceMagic`: once when `(offs + preAlign) % 4 == 0`. -/
def readPreAlign.advances (offs preAlign : Nat) : Nat :=
  if preAlign > 0 then
    if (offs + preAlign) % UINT64_MOD % 4 = 0 then 1 else 0
  else 0

/-- The number of times the block `if (align > 0)` of `BUGS_ioRead` calls
`advanceMagic`: once per iteration of `for (i = 0; i < align / 4; ++i)`. -/
def readAligned.advances (align : Nat) : Nat :=
  if align > 0 then align / 4 else 0

/-- The number of times the block `if (postAlign > 0)` of `BUGS_ioRead` calls
`advanceMagic`: the block holds no call. -/
def readPostAlign.advances (_postAlign : Nat) : Nat := 0

/-- The number of times one call `BUGS_ioRead(self, buffer, len)` calls `advanceMagic`. -/
def BUGS_ioRead.advances (entry : BUGS_entryHandle) (len : Nat) : Nat :=
  let offs := entry.currentOffset
  readPreAlign.advances offs (preAlignOf offs len)
    + readAligned.advances (alignOf offs len)
    + readPostAlign.advances (postAlignOf offs len)

/-! ## Concrete data used by the closed statements -/

/-- The configuration the skip-ahead table is built for: multiplier 7, additive 3. -/
def rgssKeys : BUGS_archiveData := { keyMultiplier := 7, keyAdditive := 3 }

/-- A configuration with other keys: multiplier 5, additive 1. -/
def otherKeys : BUGS_archiveData := { keyMultiplier := 5, keyAdditive := 1 }

/-- A container whose byte at position `i` is `(37 * i + 11) mod 256`. -/
def sampleIo : PHYSFS_Io := { bytes := fun i => (37 * i + 11) % 256, pos := 0 }

/-- An entry of 20 bytes stored at physical offset 100. -/
def sampleData : BUGS_entryData :=
  { offset := 100, patchVersion := 1, checksum := 0, size := 20, startMagic := 3735928559 }

/-- An entry of 4 bytes stored at physical offset 100, seeded with 0. -/
def oneWordData : BUGS_entryData :=
  { offset := 100, patchVersion := 1, checksum := 0, size := 4, startMagic := 0 }

/-- An empty entry. -/
def emptyData : BUGS_entryData :=
  { offset := 100, patchVersion := 1, checksum := 0, size := 0, startMagic := 0 }

/-- A handle on `sampleData` at logical offset 5, inside the second word, holding the
keystream word number 1. -/
def sampleHandle : BUGS_entryHandle :=
  { data := sampleData
    currentMagic := keystream rgssKeys 3735928559 1
    currentOffset := 5
    io := sampleIo
    patchVersion := 1 }

instance (r : HeaderRecord) : Decidable r.WellFormed := by
  unfold HeaderRecord.WellFormed
  infer_instance

/-- The password `key`. -/
def samplePassword : List Nat := [107, 101, 121]

/-- The password `ab`. -/
def shortPassword : List Nat := [97, 98]

/-- Three records, with the paths `a/b/c.txt`, `a/d.txt` and `e.txt`. -/
def sampleRecords : List HeaderRecord :=
  [ { offset := 100, patchVersion := 1, checksum := 4660, fileSize := 20,
      startMagic := 3735928559, fileName := [97, 47, 98, 47, 99, 46, 116, 120, 116] },
    { offset := 120, patchVersion := 2, checksum := 22136, fileSize := 4,
      startMagic := 7, fileName := [97, 47, 100, 46, 116, 120, 116] },
    { offset := 124, patchVersion := 1, checksum := 9, fileSize := 0,
      startMagic := 9, fileName := [101, 46, 116, 120, 116] } ]

/-- Indeterminate stack content: the uninitialised `entry` holds checksum 77. -/
def sampleIndeterminate : Indeterminate :=
  { buff := [1, 2, 3, 4]
    entry := { offset := 9, patchVersion := 9, checksum := 77, size := 9, startMagic := 9 }
    locals := { offset := 5, patchVersion := 5, checksum := 5, fileSize := 5, magicKey := 5,
                fileNameLen := 5 } }

/-- The static name buffer as the program starts: 512 zero bytes. -/
def zeroFileName : List Nat := List.replicate 512 0

/-- An 8-byte fixed header. -/
def sampleHead : List Nat := [82, 71, 83, 83, 65, 68, 0, 1]

/-- A mount tagged 1 over the index built from `sampleRecords`. -/
def sampleMount : BUGS_patchData :=
  { archiveIo := sampleIo
    patchVersion := 1
    data := { rgssKeys with entryHash := insertRecords sampleIndeterminate [] sampleRecords } }

/-- The paths `a/b/c.txt`, `a/d.txt` and `e.txt`, by their segments. -/
def samplePaths : List (List StdString) :=
  [ [[97], [98], [99, 46, 116, 120, 116]],
    [[97], [100, 46, 116, 120, 116]],
    [[101, 46, 116, 120, 116]] ]

/-- The directory index built from `samplePaths`. -/
def sampleDirHash : BoostHash BoostSet :=
  (processAllDirectories [] (BUGS_openMetaArchive.init samplePassword 7 3) samplePaths).dirHash

/-- Two records with the one path `e.txt`: version 1 stored at 100, version 2 at 200. -/
def patchedRecords : List HeaderRecord :=
  [ { offset := 100, patchVersion := 1, checksum := 1, fileSize := 20,
      startMagic := 5, fileName := [101, 46, 116, 120, 116] },
    { offset := 200, patchVersion := 2, checksum := 2, fileSize := 30,
      startMagic := 6, fileName := [101, 46, 116, 120, 116] } ]

/-- One record whose name is empty: 20 bytes stored at 100. -/
def rootFileRecords : List HeaderRecord :=
  [ { offset := 100, patchVersion := 1, checksum := 1, fileSize := 20,
      startMagic := 5, fileName := [] } ]

/-- A `PHYSFS_Stat` as a caller hands it in, every field set to 9. -/
def sampleStat : PHYSFS_Stat :=
  { filesize := 9, modtime := 9, createtime := 9, accesstime := 9,
    filetype := .PHYSFS_FILETYPE_OTHER, readonly := 9 }

/-- The archive data the parse of the three sample records leaves. -/
def sampleArchiveData : BUGS_archiveData :=
  afterRecords sampleIndeterminate (BUGS_openMetaArchive.init samplePassword 7 3)
    zeroFileName 0 sampleRecords

/-- A digit put in front of the runs of the rest of a string: it extends the first run
when that run starts the rest, and is a run of its own otherwise. -/
def digitRuns.cons (b : Nat) (goesOn : Bool) (runs : List StdString) : List StdString :=
  match goesOn, runs with
  | true, run :: runs => (b :: run) :: runs
  | _, runs => [b] :: runs

/-- The maximal contiguous runs of decimal digits of a string, in order: the notion
the specification's mount rule is worded with. -/
def digitRuns : StdString → List StdString
  | [] => []
  | b :: rest =>
    if isDigit b then digitRuns.cons b ((rest.head?.map isDigit).getD false) (digitRuns rest)
    else digitRuns rest

/-- The mount path `p1v2.bugs`: two runs of digits, `1` and `2`. -/
def twoRunPath : StdString := [112, 49, 118, 50, 46, 98, 117, 103, 115]

/-- The driver with the index of the three sample records live and two mounts on it,
tagged 1 and 2. -/
def twoMounts : Driver :=
  { bugsMetaInformation := some sampleArchiveData
    mounts := [(sampleIo, 1), (sampleIo, 2)] }

/-! ## Values computed on the way -/

/-- Whether a call `BUGS_ioSeek(self, offset)` gets as far as `advanceMagicN`: it is
neither the no-op of a seek to `currentOffset` nor rejected by `offset > size - 1`. -/
def BUGS_ioSeek.reaches (entry : BUGS_entryHandle) (offset : Nat) : Bool :=
  !(offset = entry.currentOffset)
    && !(offset > (entry.data.size + UINT64_MOD - 1) % UINT64_MOD)

/-- The value `dwordsSought` of `BUGS_ioSeek`, computed in `uint64_t` after the rewind
block. -/
def BUGS_ioSeek.dwordsSought (entry : BUGS_entryHandle) (offset : Nat) : Nat :=
  let entry :=
    if offset < entry.currentOffset
    then { entry with currentOffset := 0, currentMagic := entry.data.startMagic }
    else entry
  let currentDword := entry.currentOffset / 4
  let targetDword := offset / 4
  (targetDword + UINT64_MOD - currentDword) % UINT64_MOD

/-- The positions of the name buffer that one call `decryptAndReadString(io, buffer,
stringLength)` writes to, in order: those the read fills (`io->read` takes the length
as a `PHYSFS_uint64` and stores the bytes the stream still has, at most that many),
those of the loop `for (i = 0; i < stringLength; i++)`, and `stringLength`, where the
NUL goes. -/
def decryptAndReadString.writes (io : List Nat) (stringLength : Int) : List Int :=
  let count := min io.length (stringLength % 18446744073709551616).toNat
  (List.range count).map Int.ofNat
    ++ (List.range stringLength.toNat).map Int.ofNat
    ++ [stringLength]

/-! ## Keystream engine: properties -/

theorem toUint32_lt (z : Int) : toUint32 z < UINT32_MOD := by
  unfold toUint32 UINT32_MOD
  have h := Int.emod_lt_of_pos z (show (0 : Int) < 4294967296 by norm_num)
  have h0 := Int.emod_nonneg z (show (4294967296 : Int) ≠ 0 by norm_num)
  omega

theorem toUint32_cast (z : Int) : ((toUint32 z : Nat) : Int) = z % 4294967296 := by
  unfold toUint32
  have h0 := Int.emod_nonneg z (show (4294967296 : Int) ≠ 0 by norm_num)
  omega

theorem advanceMagic_fst (g : BUGS_archiveData) (s : Nat) : (advanceMagic g s).1 = s := rfl

theorem advanceMagic_snd_lt (g : BUGS_archiveData) (s : Nat) :
    (advanceMagic g s).2 < UINT32_MOD := by
  unfold advanceMagic
  exact Nat.mod_lt _ (by decide)

theorem advanceMagic_snd_int (g : BUGS_archiveData) (s : Nat) :
    (((advanceMagic g s).2 : Nat) : Int)
      = ((s : Int) * g.keyMultiplier + g.keyAdditive) % 4294967296 := by
  unfold advanceMagic UINT32_MOD
  simp only
  push_cast
  rw [toUint32_cast, toUint32_cast]
  have h : ((s : Int) * (g.keyMultiplier % 4294967296) % 4294967296
        + g.keyAdditive % 4294967296)
      ≡ (s : Int) * g.keyMultiplier + g.keyAdditive [ZMOD 4294967296] := by
    apply Int.ModEq.add
    · exact (Int.mod_modEq _ _).trans (Int.ModEq.mul_left _ (Int.mod_modEq _ _))
    · exact Int.mod_modEq _ _
  exact h

theorem keystream_zero (g : BUGS_archiveData) (s : Nat) : keystream g s 0 = s := rfl

theorem keystream_succ (g : BUGS_archiveData) (s j : Nat) :
    keystream g s (j + 1) = (advanceMagic g (keystream g s j)).2 := by
  unfold keystream
  rw [Function.iterate_succ_apply']

theorem keystream_add (g : BUGS_archiveData) (s a b : Nat) :
    keystream g (keystream g s a) b = keystream g s (a + b) := by
  unfold keystream
  rw [Nat.add_comm, Function.iterate_add_apply]

/-! ### The skip-ahead table against the one-step engine, for the keys 7 and 3 -/

theorem advanceMagic_rgss (g : BUGS_archiveData) (hM : g.keyMultiplier = 7)
    (hA : g.keyAdditive = 3) (s : Nat) :
    (advanceMagic g s).2 = (s * 7 + 3) % 4294967296 := by
  have h7 : toUint32 7 = 7 := by decide
  have h3 : toUint32 3 = 3 := by decide
  unfold advanceMagic UINT32_MOD
  rw [hM, hA, h7, h3]
  simp only
  omega

/-- Every row after the first is its predecessor composed with itself. -/
theorem LCG_TABLE_doubling :
    ∀ k : Fin 29,
      (LCG_TABLE.getD (k.val + 1) (0, 0)).1
          = ((LCG_TABLE.getD k.val (0, 0)).1 * (LCG_TABLE.getD k.val (0, 0)).1) % 4294967296
      ∧ (LCG_TABLE.getD (k.val + 1) (0, 0)).2
          = ((LCG_TABLE.getD k.val (0, 0)).2 * ((LCG_TABLE.getD k.val (0, 0)).1 + 1))
              % 4294967296 := by
  decide

theorem LCG_TABLE_length : LCG_TABLE.length = 30 := rfl

theorem affine_twice (m a m2 a2 x : Nat)
    (hm : m2 = (m * m) % 4294967296) (ha : a2 = (a * (m + 1)) % 4294967296) :
    (((x * m + a) % 4294967296) * m + a) % 4294967296 = (x * m2 + a2) % 4294967296 := by
  subst hm ha
  apply (ZMod.natCast_eq_natCast_iff' _ _ 4294967296).1
  push_cast
  simp only [ZMod.natCast_mod]
  push_cast
  ring

/-- Row `k` of the table is `2^k` steps of the one-step engine with keys 7 and 3. -/
theorem LCG_TABLE_row (g : BUGS_archiveData) (hM : g.keyMultiplier = 7)
    (hA : g.keyAdditive = 3) :
    ∀ k : Nat, k < 30 → ∀ x : Nat,
      keystream g x (2 ^ k)
        = (x * (LCG_TABLE.getD k (0, 0)).1 + (LCG_TABLE.getD k (0, 0)).2) % 4294967296 := by
  intro k
  induction k with
  | zero =>
    intro _ x
    show keystream g x 1 = _
    rw [keystream_succ, keystream_zero, advanceMagic_rgss g hM hA]
    rfl
  | succ k ih =>
    intro hk x
    have hd := LCG_TABLE_doubling ⟨k, by omega⟩
    have h2 : 2 ^ (k + 1) = 2 ^ k + 2 ^ k := by ring
    rw [h2, ← keystream_add, ih (by omega), ih (by omega)]
    exact affine_twice _ _ _ _ x hd.1 hd.2

theorem advanceMagicN_loop_zero (magic k : Nat) : advanceMagicN.loop magic 0 k = some magic := by
  rw [advanceMagicN.loop]
  simp

theorem advanceMagicN_loop_odd (magic n k : Nat) (hn : n % 2 = 1) :
    advanceMagicN.loop magic n k
      = match LCG_TABLE[k]? with
        | none => none
        | some row =>
          advanceMagicN.loop ((magic * row.1 + row.2) % UINT32_MOD) (n / 2) (k + 1) := by
  rw [advanceMagicN.loop]
  have h0 : n ≠ 0 := by omega
  have h1 : n &&& 1 ≠ 0 := by rw [Nat.and_one_is_mod]; omega
  have h2 : n >>> 1 = n / 2 := by rw [Nat.shiftRight_eq_div_pow, pow_one]
  simp only [h0, h1, h2, dite_false, ne_eq, not_false_eq_true, ite_true]

theorem advanceMagicN_loop_even (magic n k : Nat) (h0 : n ≠ 0) (hn : n % 2 = 0) :
    advanceMagicN.loop magic n k = advanceMagicN.loop magic (n / 2) (k + 1) := by
  rw [advanceMagicN.loop]
  have h1 : ¬ (n &&& 1 ≠ 0) := by rw [Nat.and_one_is_mod]; omega
  have h2 : n >>> 1 = n / 2 := by rw [Nat.shiftRight_eq_div_pow, pow_one]
  simp only [h0, h1, h2, dite_false, ite_false]

/-- The loop of `advanceMagicN`, started at row `k` with a count that needs only rows
below 30, performs `n * 2^k` steps of the one-step engine with keys 7 and 3. -/
theorem advanceMagicN_loop_spec (g : BUGS_archiveData) (hM : g.keyMultiplier = 7)
    (hA : g.keyAdditive = 3) :
    ∀ n k magic : Nat, k ≤ 30 → n < 2 ^ (30 - k) →
      advanceMagicN.loop magic n k = some (keystream g magic (n * 2 ^ k)) := by
  intro n
  induction n using Nat.strong_induction_on with
  | _ n ih =>
    intro k magic hk hn
    by_cases h0 : n = 0
    · subst h0
      rw [advanceMagicN_loop_zero, Nat.zero_mul, keystream_zero]
    · have hk30 : k < 30 := by
        by_contra hc
        have : 30 - k = 0 := by omega
        rw [this] at hn
        simp at hn
        exact h0 hn
      have hhalf : n / 2 < 2 ^ (30 - (k + 1)) := by
        have hp : 2 ^ (30 - k) = 2 * 2 ^ (30 - (k + 1)) := by
          rw [← pow_succ']
          congr 1
          omega
        omega
      have hpow : 2 ^ (k + 1) = 2 * 2 ^ k := by rw [pow_succ']
      rcases Nat.mod_two_eq_zero_or_one n with he | ho
      · rw [advanceMagicN_loop_even magic n k h0 he, ih (n / 2) (by omega) (k + 1) magic
          (by omega) hhalf]
        congr 2
        rw [hpow]
        have : n = 2 * (n / 2) := by omega
        nth_rewrite 2 [this]
        ring
      · rw [advanceMagicN_loop_odd magic n k ho]
        have hget : LCG_TABLE[k]? = some (LCG_TABLE.getD k (0, 0)) := by
          rw [List.getD_eq_getElem?_getD]
          have hlen : k < LCG_TABLE.length := by rw [LCG_TABLE_length]; exact hk30
          rw [List.getElem?_eq_getElem hlen]
          rfl
        rw [hget]
        simp only
        rw [ih (n / 2) (by omega) (k + 1) _ (by omega) hhalf]
        have hrow := LCG_TABLE_row g hM hA k hk30 magic
        unfold UINT32_MOD
        rw [← hrow, keystream_add]
        congr 2
        rw [hpow]
        have : n = 2 * (n / 2) + 1 := by omega
        nth_rewrite 2 [this]
        ring

/-- With the keys 7 and 3, a skip-ahead by fewer than 2^30 steps stays inside the table
and equals that many single steps. -/
theorem advanceMagicN_eq_keystream (g : BUGS_archiveData) (hM : g.keyMultiplier = 7)
    (hA : g.keyAdditive = 3) (magic n : Nat) (hn : n < 2 ^ 30) :
    advanceMagicN magic n = some (magic, keystream g magic n) := by
  unfold advanceMagicN
  rw [advanceMagicN_loop_spec g hM hA n 0 magic (by omega) (by simpa using hn)]
  simp

/-! ## Seek: properties -/

/-- A seek to the current offset succeeds and changes nothing. -/
theorem BUGS_ioSeek_same (entry : BUGS_entryHandle) :
    BUGS_ioSeek entry entry.currentOffset = some (1, entry) := by
  unfold BUGS_ioSeek
  simp

/-- On a non-empty entry, a seek to `size` or beyond (other than to the current offset)
is rejected and changes nothing. -/
theorem BUGS_ioSeek_reject (entry : BUGS_entryHandle) (offset : Nat)
    (hsize : 1 ≤ entry.data.size) (hsize64 : entry.data.size < 2 ^ 64)
    (hne : offset ≠ entry.currentOffset) (hge : entry.data.size ≤ offset) :
    BUGS_ioSeek entry offset = some (0, entry) := by
  unfold BUGS_ioSeek UINT64_MOD
  have h : offset > (entry.data.size + 18446744073709551616 - 1) % 18446744073709551616 := by
    omega
  rw [if_neg hne, if_pos h]

/-- Seek postcondition for the keys 7 and 3: a seek to another offset inside an entry of
at most 2^32 bytes succeeds, and leaves the handle at the target with the keystream
word of the target. -/
theorem BUGS_ioSeek_inside (g : BUGS_archiveData) (hM : g.keyMultiplier = 7)
    (hA : g.keyAdditive = 3) (entry : BUGS_entryHandle) (offset : Nat)
    (hinv : StreamInvariant g entry)
    (hlt : offset < entry.data.size) (hsize : entry.data.size ≤ 2 ^ 32)
    (hne : offset ≠ entry.currentOffset) :
    BUGS_ioSeek entry offset
      = some (1, { data := entry.data
                   currentMagic := keystream g entry.data.startMagic (offset / 4)
                   currentOffset := offset
                   io := entry.io.seek ((entry.data.offset + offset) % UINT64_MOD)
                   patchVersion := entry.patchVersion }) := by
  unfold BUGS_ioSeek
  have h1 : ¬ offset > (entry.data.size + UINT64_MOD - 1) % UINT64_MOD := by
    unfold UINT64_MOD
    omega
  rw [if_neg hne, if_neg h1]
  by_cases hrew : offset < entry.currentOffset
  · have hn : (offset / 4 + UINT64_MOD - 0 / 4) % UINT64_MOD % UINT32_MOD = offset / 4 := by
      unfold UINT64_MOD UINT32_MOD
      omega
    simp only [hrew, if_true, hn]
    rw [advanceMagicN_eq_keystream g hM hA _ _ (by omega)]
  · have hfw : entry.currentOffset < offset := by omega
    have hn : (offset / 4 + UINT64_MOD - entry.currentOffset / 4) % UINT64_MOD % UINT32_MOD
        = offset / 4 - entry.currentOffset / 4 := by
      unfold UINT64_MOD UINT32_MOD
      omega
    simp only [hrew, if_false, hn]
    rw [advanceMagicN_eq_keystream g hM hA _ _ (by omega)]
    simp only
    rw [hinv, keystream_add]
    have : entry.currentOffset / 4 + (offset / 4 - entry.currentOffset / 4) = offset / 4 := by
      omega
    rw [this]

/-! ## Bytes of words -/

theorem xor_shiftRight (a b k : Nat) : (a ^^^ b) >>> k = (a >>> k) ^^^ (b >>> k) := by
  apply Nat.eq_of_testBit_eq
  intro i
  simp [Nat.testBit_shiftRight, Nat.testBit_xor]

theorem xor_mod_two_pow (a b k : Nat) : (a ^^^ b) % 2 ^ k = (a % 2 ^ k) ^^^ (b % 2 ^ k) := by
  apply Nat.eq_of_testBit_eq
  intro i
  simp only [Nat.testBit_mod_two_pow, Nat.testBit_xor]
  by_cases h : i < k <;> simp [h]

theorem wordByte_eq_shift (w j : Nat) : wordByte w j = (w >>> (8 * j)) % 2 ^ 8 := by
  unfold wordByte
  rw [Nat.shiftRight_eq_div_pow, pow_mul]
  norm_num

/-- XOR of words is XOR of their bytes. -/
theorem wordByte_xor (a b j : Nat) :
    wordByte (a ^^^ b) j = wordByte a j ^^^ wordByte b j := by
  simp only [wordByte_eq_shift, xor_shiftRight, xor_mod_two_pow]

theorem wordByte_lt (w j : Nat) : wordByte w j < 256 := by
  unfold wordByte
  exact Nat.mod_lt _ (by decide)

theorem wordByte_shiftRight (w s j : Nat) :
    wordByte (w >>> (8 * s)) j = wordByte w (s + j) := by
  unfold wordByte
  rw [Nat.shiftRight_eq_div_pow, Nat.div_div_eq_div_mul, pow_mul, pow_add]
  norm_num

theorem toBytesLE_eq_map (w : Nat) : toBytesLE w = (List.range 4).map (wordByte w) := by
  simp [toBytesLE, wordByte, List.range_succ]

theorem wordByte_ofBytesLE :
    ∀ (l : List Nat), (∀ b ∈ l, b < 256) → ∀ j : Nat, wordByte (ofBytesLE l) j = l.getD j 0 := by
  intro l
  induction l with
  | nil =>
    intro _ j
    simp [ofBytesLE, wordByte]
  | cons b bs ih =>
    intro hb j
    have hb0 : b < 256 := hb b (List.mem_cons_self _ _)
    cases j with
    | zero =>
      simp only [ofBytesLE, wordByte, pow_zero, Nat.div_one, List.getD_cons_zero]
      omega
    | succ j =>
      have ih2 := ih (fun x hx => hb x (List.mem_cons_of_mem _ hx)) j
      simp only [List.getD_cons_succ]
      rw [← ih2]
      unfold wordByte
      simp only [ofBytesLE]
      rw [pow_succ', ← Nat.div_div_eq_div_mul]
      congr 2
      omega

theorem wordByte_shiftLeft (d s j : Nat) (h : s + j < 4) :
    wordByte ((d <<< (8 * s)) % UINT32_MOD) (s + j) = wordByte d j := by
  unfold wordByte UINT32_MOD
  rw [Nat.shiftLeft_eq]
  have hs : s = 0 ∨ s = 1 ∨ s = 2 ∨ s = 3 := by omega
  have hj : j = 0 ∨ j = 1 ∨ j = 2 ∨ j = 3 := by omega
  rcases hs with rfl | rfl | rfl | rfl <;> rcases hj with rfl | rfl | rfl | rfl <;> omega

theorem getD_map_range (f : Nat → Nat) (n j : Nat) (h : j < n) :
    ((List.range n).map f).getD j 0 = f j := by
  rw [List.getD_eq_getElem?_getD, List.getElem?_map, List.getElem?_range h]
  rfl

theorem take_toBytesLE (w p : Nat) (hp : p ≤ 4) :
    (toBytesLE w).take p = (List.range p).map (wordByte w) := by
  rw [toBytesLE_eq_map, ← List.map_take, List.take_range, Nat.min_eq_left hp]

/-- The word assembled from bytes read over the start of a local `dword` has those
bytes as its lowest bytes, whatever the local held before. -/
theorem wordByte_read_into (c : Nat → Nat) (hc : ∀ i, c i < 256) (d p j : Nat) (hj : j < p) :
    wordByte (ofBytesLE (memcpyInto (toBytesLE d) ((List.range p).map c))) j = c j := by
  rw [wordByte_ofBytesLE]
  · unfold memcpyInto
    rw [List.getD_append _ _ _ _ (by simpa using hj), getD_map_range c p j hj]
  · intro b hb
    unfold memcpyInto at hb
    rcases List.mem_append.1 hb with h | h
    · rcases List.mem_map.1 h with ⟨i, _, rfl⟩
      exact hc i
    · have h2 := List.mem_of_mem_drop h
      rw [toBytesLE_eq_map] at h2
      rcases List.mem_map.1 h2 with ⟨i, _, rfl⟩
      exact wordByte_lt _ _

theorem io_pos_add_zero (io : PHYSFS_Io) : ({ io with pos := io.pos + 0 } : PHYSFS_Io) = io := by
  cases io
  rfl

/-! ## Read: the three zones -/

/-- The pre-alignment block stores, for each of its bytes, the stored byte XOR the
keystream byte at the same position in the word, and steps the keystream exactly when
the block ends on a word boundary. -/
theorem readPreAlign_spec (g : BUGS_archiveData) (io : PHYSFS_Io) (hb : ∀ i, io.bytes i < 256)
    (offs p magic d : Nat) (hp : p ≤ 4 - offs % 4) :
    readPreAlign g io offs p magic d
      = ((List.range p).map (fun j => io.bytes (io.pos + j) ^^^ wordByte magic (offs % 4 + j)),
         (if 0 < p ∧ (offs + p) % 4 = 0 then (advanceMagic g magic).2 else magic),
         { io with pos := io.pos + p }) := by
  unfold readPreAlign
  by_cases h0 : p > 0
  · have hmod : (offs + p) % UINT64_MOD % 4 = (offs + p) % 4 := by
      unfold UINT64_MOD
      omega
    simp only [h0, if_true, PHYSFS_Io.read, hmod, true_and]
    congr 1
    rw [take_toBytesLE _ _ (by omega)]
    apply List.map_congr_left
    intro j hj
    have hj2 : j < p := List.mem_range.1 hj
    rw [wordByte_shiftRight, wordByte_xor, wordByte_shiftLeft _ _ _ (by omega),
      wordByte_read_into (fun j => io.bytes (io.pos + j)) (fun i => hb _) d p j hj2]
  · have hp0 : p = 0 := by omega
    subst hp0
    simp [io_pos_add_zero]

/-- The post-alignment block stores each of its bytes XOR the low bytes of the current
keystream word, and leaves the keystream as it is. -/
theorem readPostAlign_spec (io : PHYSFS_Io) (hb : ∀ i, io.bytes i < 256)
    (q magic d : Nat) (hq : q ≤ 4) :
    readPostAlign io q magic d
      = ((List.range q).map (fun j => io.bytes (io.pos + j) ^^^ wordByte magic j),
         { io with pos := io.pos + q }) := by
  unfold readPostAlign
  by_cases h0 : q > 0
  · simp only [h0, if_true, PHYSFS_Io.read]
    congr 1
    rw [take_toBytesLE _ _ hq]
    apply List.map_congr_left
    intro j hj
    have hj2 : j < q := List.mem_range.1 hj
    rw [wordByte_xor,
      wordByte_read_into (fun j => io.bytes (io.pos + j)) (fun i => hb _) d q j hj2]
  · have hq0 : q = 0 := by omega
    subst hq0
    simp [io_pos_add_zero]

theorem ofBytesLE_word (c : Nat → Nat) (hc : ∀ i, c i < 256) (j : Nat) :
    wordByte (ofBytesLE ((List.range 4).map c)) j = if j < 4 then c j else 0 := by
  rw [wordByte_ofBytesLE]
  · by_cases hj : j < 4
    · rw [getD_map_range c 4 j hj, if_pos hj]
    · rw [if_neg hj, List.getD_eq_default]
      simpa using hj
  · intro b hb
    rcases List.mem_map.1 hb with ⟨i, _, rfl⟩
    exact hc i

/-- The XOR loop over `words` whole words: byte `j` of the run is XORed with byte
`j mod 4` of the keystream word `j / 4` steps ahead, and the keystream ends `words`
steps ahead. -/
theorem xorChain_spec (g : BUGS_archiveData) :
    ∀ (words : Nat) (c : Nat → Nat), (∀ i, c i < 256) → ∀ magic : Nat,
      xorChain g words ((List.range (4 * words)).map c) magic
        = ((List.range (4 * words)).map
              (fun j => c j ^^^ wordByte (keystream g magic (j / 4)) (j % 4)),
           keystream g magic words) := by
  intro words
  induction words with
  | zero =>
    intro c _ magic
    simp [xorChain, keystream_zero]
  | succ n ih =>
    intro c hc magic
    have hsplit : 4 * (n + 1) = 4 + 4 * n := by ring
    have hlen4 : (List.map c (List.range 4)).length = 4 := by simp
    have hk1 : (advanceMagic g magic).2 = keystream g magic 1 := by
      rw [keystream_succ, keystream_zero]
    rw [hsplit, List.range_add, List.map_append, List.map_append, List.map_map, List.map_map]
    unfold xorChain
    simp only [List.take_left' hlen4, List.drop_left' hlen4, advanceMagic_fst]
    have ih2 := ih (c ∘ fun x => 4 + x) (fun i => hc _) (advanceMagic g magic).2
    rw [ih2, hk1, keystream_add]
    refine Prod.ext ?_ ?_
    · simp only
      congr 1
      · rw [toBytesLE_eq_map]
        apply List.map_congr_left
        intro j hj
        have hj4 : j < 4 := List.mem_range.1 hj
        have hd : j / 4 = 0 := by omega
        have hm : j % 4 = j := by omega
        rw [wordByte_xor, ofBytesLE_word c hc, if_pos hj4, hd, hm, keystream_zero]
      · apply List.map_congr_left
        intro j _
        have hd : (4 + j) / 4 = 1 + j / 4 := by omega
        have hm : (4 + j) % 4 = j % 4 := by omega
        simp only [Function.comp, hd, hm, keystream_add]
    · simp only
      rw [Nat.add_comm]

/-- The aligned block, on a run of whole words. -/
theorem readAligned_spec (g : BUGS_archiveData) (io : PHYSFS_Io) (hb : ∀ i, io.bytes i < 256)
    (align magic : Nat) (h4 : align % 4 = 0) :
    readAligned g io align magic
      = ((List.range align).map
            (fun j => io.bytes (io.pos + j) ^^^ wordByte (keystream g magic (j / 4)) (j % 4)),
         keystream g magic (align / 4),
         { io with pos := io.pos + align }) := by
  unfold readAligned
  by_cases h0 : align > 0
  · have hal : align = 4 * (align / 4) := by omega
    simp only [h0, if_true, PHYSFS_Io.read]
    have hx := xorChain_spec g (align / 4) (fun j => io.bytes (io.pos + j)) (fun i => hb _) magic
    rw [← hal] at hx
    rw [hx]
  · have ha0 : align = 0 := by omega
    subst ha0
    simp [io_pos_add_zero, keystream_zero]

/-! ## Read: zone arithmetic -/

theorem preAlignOf_eq (offs len : Nat) :
    preAlignOf offs len = if offs % 4 = 0 then 0 else min (4 - offs % 4) len := by
  unfold preAlignOf
  by_cases h : offs % 4 = 0
  · simp [h]
  · have h4 : ¬ (4 - offs % 4 = 4) := by omega
    simp [h, h4]

theorem postAlignOf_eq (offs len : Nat) :
    postAlignOf offs len = if len > preAlignOf offs len then (offs + len) % 4 else 0 := by
  unfold postAlignOf UINT64_MOD
  split
  · omega
  · rfl

/-- The three zone sizes, for a requested length that is a `uint64_t`: bounds, the
sum, and where the zones start. -/
theorem zones_facts (offs len : Nat) (hlen : len < 2 ^ 64) :
    preAlignOf offs len ≤ 4 - offs % 4
    ∧ preAlignOf offs len ≤ 3
    ∧ postAlignOf offs len ≤ 3
    ∧ alignOf offs len % 4 = 0
    ∧ preAlignOf offs len + alignOf offs len + postAlignOf offs len = len
    ∧ (0 < alignOf offs len ∨ 0 < postAlignOf offs len →
        (offs + preAlignOf offs len) % 4 = 0)
    ∧ (if 0 < preAlignOf offs len ∧ (offs + preAlignOf offs len) % 4 = 0 then 1 else 0)
        + alignOf offs len / 4 = (offs % 4 + len) / 4 := by
  have hpre := preAlignOf_eq offs len
  have hpost := postAlignOf_eq offs len
  have hal : alignOf offs len
      = (len + 18446744073709551616 - (preAlignOf offs len + postAlignOf offs len))
          % 18446744073709551616 := rfl
  generalize preAlignOf offs len = p at *
  generalize postAlignOf offs len = q at *
  generalize alignOf offs len = a at *
  split at hpre <;> split at hpost <;> split <;> omega

/-! ## Read: keystream state and buffer after a call -/

/-- One step of the engine is the keystream one word on. -/
theorem advanceMagic_eq_keystream_one (g : BUGS_archiveData) (s : Nat) :
    (advanceMagic g s).2 = keystream g s 1 := by
  rw [keystream_succ, keystream_zero]

theorem xorChain_snd (g : BUGS_archiveData) :
    ∀ (words : Nat) (buf : List Nat) (magic : Nat),
      (xorChain g words buf magic).2 = keystream g magic words := by
  intro words
  induction words with
  | zero =>
    intro buf magic
    rfl
  | succ n ih =>
    intro buf magic
    unfold xorChain
    simp only
    rw [ih, advanceMagic_eq_keystream_one, keystream_add, Nat.add_comm]

theorem readPreAlign_magic (g : BUGS_archiveData) (io : PHYSFS_Io) (offs p magic d : Nat) :
    (readPreAlign g io offs p magic d).2.1
      = if 0 < p ∧ (offs + p) % 4 = 0 then (advanceMagic g magic).2 else magic := by
  unfold readPreAlign
  have hmod : (offs + p) % UINT64_MOD % 4 = (offs + p) % 4 := by
    unfold UINT64_MOD
    omega
  by_cases h0 : p > 0
  · simp only [h0, if_true, hmod, true_and]
  · have h1 : ¬ (0 < p) := h0
    simp only [h0, if_false, h1, false_and]

theorem readAligned_magic (g : BUGS_archiveData) (io : PHYSFS_Io) (align magic : Nat) :
    (readAligned g io align magic).2.1 = keystream g magic (align / 4) := by
  unfold readAligned
  by_cases h0 : align > 0
  · simp only [h0, if_true, xorChain_snd]
  · have ha0 : align = 0 := by omega
    subst ha0
    simp [keystream_zero]

/-- A read of `len` bytes at logical offset `offs` steps the keystream once for every
word boundary in `(offs, offs + len]`, whatever the entry's size is. -/
theorem BUGS_ioRead_magic (g : BUGS_archiveData) (entry : BUGS_entryHandle)
    (len d1 d2 : Nat) (hlen : len < 2 ^ 64) :
    (BUGS_ioRead g entry len d1 d2).entry.currentMagic
      = keystream g entry.currentMagic ((entry.currentOffset % 4 + len) / 4) := by
  obtain ⟨_, _, _, _, _, _, hsteps⟩ := zones_facts entry.currentOffset len hlen
  unfold BUGS_ioRead
  simp only
  rw [readAligned_magic, readPreAlign_magic, ← hsteps]
  split
  · rw [advanceMagic_eq_keystream_one, keystream_add]
  · rw [Nat.zero_add]

/-- The bytes a read stores: byte `j` is the container byte at the read position plus
`j`, XOR the byte of the keystream word that covers logical offset `offs + j`,
counted from the handle's current word. -/
theorem BUGS_ioRead_buffer (g : BUGS_archiveData) (entry : BUGS_entryHandle)
    (hb : ∀ i, entry.io.bytes i < 256) (len d1 d2 : Nat) (hlen : len < 2 ^ 64) :
    (BUGS_ioRead g entry len d1 d2).buffer
      = (List.range len).map (fun j =>
          entry.io.bytes ((entry.data.offset + entry.currentOffset) % UINT64_MOD + j)
            ^^^ wordByte (keystream g entry.currentMagic ((entry.currentOffset % 4 + j) / 4))
                  ((entry.currentOffset + j) % 4)) := by
  obtain ⟨hp4, hp3, hq3, ha4, hsum, hstart, hsteps⟩ := zones_facts entry.currentOffset len hlen
  unfold BUGS_ioRead
  simp only [PHYSFS_Io.seek]
  rw [readPreAlign_spec g
    ⟨entry.io.bytes, (entry.data.offset + entry.currentOffset) % UINT64_MOD⟩ hb _ _ _ _ hp4]
  simp only
  rw [readAligned_spec g
    ⟨entry.io.bytes, (entry.data.offset + entry.currentOffset) % UINT64_MOD
      + preAlignOf entry.currentOffset len⟩ hb _ _ ha4]
  simp only
  rw [readPostAlign_spec
    ⟨entry.io.bytes, (entry.data.offset + entry.currentOffset) % UINT64_MOD
      + preAlignOf entry.currentOffset len + alignOf entry.currentOffset len⟩ hb _ _ _ (by omega)]
  simp only
  generalize preAlignOf entry.currentOffset len = p at *
  generalize postAlignOf entry.currentOffset len = q at *
  generalize alignOf entry.currentOffset len = a at *
  generalize (entry.data.offset + entry.currentOffset) % UINT64_MOD = P
  generalize entry.currentOffset = offs at *
  generalize entry.currentMagic = m
  subst hsum
  rw [List.range_add, List.range_add, List.map_append, List.map_append, List.map_map,
    List.map_map]
  congr 1
  · congr 1
    · apply List.map_congr_left
      intro j hj
      have hj2 : j < p := List.mem_range.1 hj
      have hd : (offs % 4 + j) / 4 = 0 := by omega
      have hm : (offs + j) % 4 = offs % 4 + j := by omega
      rw [hd, hm, keystream_zero]
    · apply List.map_congr_left
      intro j hj
      have hj2 : j < a := List.mem_range.1 hj
      have h0 := hstart (Or.inl (by omega))
      have hm : (offs + (p + j)) % 4 = j % 4 := by omega
      simp only [Function.comp, hm, Nat.add_assoc]
      congr 2
      split
      · have hd : (offs % 4 + (p + j)) / 4 = 1 + j / 4 := by omega
        rw [advanceMagic_eq_keystream_one, keystream_add, hd]
      · have hd : (offs % 4 + (p + j)) / 4 = j / 4 := by omega
        rw [hd]
  · apply List.map_congr_left
    intro j hj
    have hj2 : j < q := List.mem_range.1 hj
    have h0 := hstart (Or.inr (by omega))
    have hm : (offs + (p + a + j)) % 4 = j := by omega
    have hP : P + p + a + j = P + (p + a + j) := by omega
    simp only [Function.comp, hm, hP]
    congr 2
    split
    · have hd : (offs % 4 + (p + a + j)) / 4 = 1 + a / 4 := by omega
      rw [advanceMagic_eq_keystream_one, keystream_add, hd]
    · have hd : (offs % 4 + (p + a + j)) / 4 = a / 4 := by omega
      rw [hd]

/-- A read inside the entry, on a handle that satisfies the stream invariant, stores
the reference decrypt of the bytes it covers. -/
theorem read_eq_refDecrypt (g : BUGS_archiveData) (entry : BUGS_entryHandle)
    (len d1 d2 : Nat) (hb : ∀ i, entry.io.bytes i < 256)
    (hfit : entry.data.offset + entry.data.size < 2 ^ 64)
    (hinv : StreamInvariant g entry)
    (hlen : len ≤ entry.data.size - entry.currentOffset) :
    (BUGS_ioRead g entry len d1 d2).buffer
      = (List.range len).map
          (fun j => refDecrypt g entry.data entry.io.bytes (entry.currentOffset + j)) := by
  rw [BUGS_ioRead_buffer g entry hb len d1 d2 (by omega)]
  apply List.map_congr_left
  intro j hj
  have hj2 : j < len := List.mem_range.1 hj
  have hP : (entry.data.offset + entry.currentOffset) % UINT64_MOD + j
      = entry.data.offset + (entry.currentOffset + j) := by
    unfold UINT64_MOD
    omega
  have hw : entry.currentOffset / 4 + (entry.currentOffset % 4 + j) / 4
      = (entry.currentOffset + j) / 4 := by omega
  unfold refDecrypt
  rw [hP, hinv, keystream_add, hw]

/-- A freshly opened handle satisfies the stream invariant. -/
theorem StreamInvariant_ctor (g : BUGS_archiveData) (data : BUGS_entryData) (archIo : PHYSFS_Io) :
    StreamInvariant g (BUGS_entryHandle.ctor data archIo) := by
  simp [StreamInvariant, BUGS_entryHandle.ctor, keystream_zero]

/-- A seek to an offset inside an entry of at most 2^32 bytes stays inside the table
and succeeds, whatever the handle's state. -/
theorem BUGS_ioSeek_succeeds (entry : BUGS_entryHandle) (x : Nat)
    (hx : x < entry.data.size) (hsize : entry.data.size ≤ 2 ^ 32) :
    ∃ e1, BUGS_ioSeek entry x = some (1, e1) ∧ e1.currentOffset = x ∧ e1.data = entry.data := by
  by_cases hne : x = entry.currentOffset
  · refine ⟨entry, ?_, hne.symm, rfl⟩
    rw [hne]
    exact BUGS_ioSeek_same entry
  · unfold BUGS_ioSeek
    have h1 : ¬ x > (entry.data.size + UINT64_MOD - 1) % UINT64_MOD := by
      unfold UINT64_MOD
      omega
    rw [if_neg hne, if_neg h1]
    by_cases hrew : x < entry.currentOffset
    · have hn : (x / 4 + UINT64_MOD - 0 / 4) % UINT64_MOD % UINT32_MOD = x / 4 := by
        unfold UINT64_MOD UINT32_MOD
        omega
      simp only [hrew, if_true, hn]
      rw [advanceMagicN_eq_keystream rgssKeys rfl rfl _ _ (by omega)]
      exact ⟨_, rfl, rfl, rfl⟩
    · have hn : (x / 4 + UINT64_MOD - entry.currentOffset / 4) % UINT64_MOD % UINT32_MOD
          = x / 4 - entry.currentOffset / 4 := by
        unfold UINT64_MOD UINT32_MOD
        omega
      simp only [hrew, if_false, hn]
      rw [advanceMagicN_eq_keystream rgssKeys rfl rfl _ _ (by omega)]
      exact ⟨_, rfl, rfl, rfl⟩

/-! ## The claims of the specification -/

/-- C1. Read decrypts correctly against a reference single-pass decrypt: on a handle
whose `currentMagic` is the keystream word for `floor(currentOffset / 4)`, at any
offset (aligned or not) and for every `len <= size - currentOffset`, `BUGS_ioRead`
stores exactly `len` bytes, and byte `j` is the stored byte at `currentOffset + j`
XOR byte `(currentOffset + j) mod 4` of keystream word `floor((currentOffset + j) / 4)`,
across the pre-alignment, aligned and post-alignment zones, whatever the
uninitialised locals held. The container holds bytes, and the payload lies inside
the 64-bit position range. -/
theorem C1_read_decrypts (g : BUGS_archiveData) (entry : BUGS_entryHandle)
    (len dwordPre dwordPost : Nat)
    (hbytes : ∀ i, entry.io.bytes i < 256)
    (hfit : entry.data.offset + entry.data.size < 2 ^ 64)
    (hinv : entry.currentMagic
              = keystream g entry.data.startMagic (entry.currentOffset / 4))
    (hlen : len ≤ entry.data.size - entry.currentOffset) :
    (BUGS_ioRead g entry len dwordPre dwordPost).buffer
      = (List.range len).map (fun j =>
          entry.io.bytes (entry.data.offset + (entry.currentOffset + j))
            ^^^ wordByte (keystream g entry.data.startMagic ((entry.currentOffset + j) / 4))
                  ((entry.currentOffset + j) % 4)) :=
  read_eq_refDecrypt g entry len dwordPre dwordPost hbytes hfit hinv hlen

/-- C1, at a concrete input: 13 bytes from offset 5 of a 20-byte entry, a request that
spans the three zones (3 + 8 + 2 bytes). -/
theorem C1_read_decrypts_witness :
    (BUGS_ioRead rgssKeys sampleHandle 13 4294967295 305419896).buffer
      = [0, 157, 148, 112, 71, 176, 137, 223, 178, 79, 240, 240, 48] :=
  (C1_read_decrypts rgssKeys sampleHandle 13 4294967295 305419896
    (fun _ => Nat.mod_lt _ (by decide)) (by decide) (by decide) (by decide)).trans (by decide)

/-- C2. Seek/read consistency: with the keys 7 and 3, on an entry of at most 2^32
bytes, for every `offset < size` and `offset + length <= size`, `seek(offset)` on a
freshly opened handle succeeds and the following `read(length)` stores exactly the
bytes that `read(offset + length)` on a freshly opened handle stores, without the
first `offset` of them. -/
theorem C2_seek_read_consistency (g : BUGS_archiveData)
    (hM : g.keyMultiplier = 7) (hA : g.keyAdditive = 3)
    (data : BUGS_entryData) (archIo : PHYSFS_Io)
    (offset length d1 d2 d3 d4 : Nat)
    (hbytes : ∀ i, archIo.bytes i < 256)
    (hfit : data.offset + data.size < 2 ^ 64)
    (hsize : data.size ≤ 2 ^ 32)
    (hoff : offset < data.size) (hlen : offset + length ≤ data.size) :
    ∃ e, BUGS_ioSeek (BUGS_entryHandle.ctor data archIo) offset = some (1, e)
      ∧ (BUGS_ioRead g e length d1 d2).buffer
          = ((BUGS_ioRead g (BUGS_entryHandle.ctor data archIo) (offset + length) d3 d4).buffer).drop
              offset
      ∧ (BUGS_ioRead g e length d1 d2).ret = length
      ∧ (BUGS_ioRead g (BUGS_entryHandle.ctor data archIo) (offset + length) d3 d4).ret
          = offset + length := by
  have hfresh := read_eq_refDecrypt g (BUGS_entryHandle.ctor data archIo) (offset + length) d3 d4
    hbytes hfit (StreamInvariant_ctor g data archIo)
    (by simp only [BUGS_entryHandle.ctor]; omega)
  have hdrop : ((BUGS_ioRead g (BUGS_entryHandle.ctor data archIo) (offset + length) d3 d4).buffer).drop
      offset = (List.range length).map (fun j => refDecrypt g data archIo.bytes (offset + j)) := by
    rw [hfresh, List.range_add, List.map_append, List.drop_left' (by simp), List.map_map]
    apply List.map_congr_left
    intro j _
    simp [BUGS_entryHandle.ctor]
  have hret0 : (BUGS_ioRead g (BUGS_entryHandle.ctor data archIo) (offset + length) d3 d4).ret
      = offset + length := by
    simp only [BUGS_ioRead, toReadOf, BUGS_entryHandle.ctor, toSint64, UINT64_MOD]
    have h1 : min ((data.size + 18446744073709551616 - 0) % 18446744073709551616)
        (offset + length) = offset + length := by omega
    rw [h1]
    have h2 : (offset + length) % 18446744073709551616 = offset + length := by omega
    rw [h2, if_pos (by omega)]
    push_cast
    rfl
  by_cases h0 : offset = 0
  · subst h0
    refine ⟨BUGS_entryHandle.ctor data archIo, BUGS_ioSeek_same _, ?_, ?_, hret0⟩
    · rw [hdrop]
      have h := read_eq_refDecrypt g (BUGS_entryHandle.ctor data archIo) length d1 d2
        hbytes hfit (StreamInvariant_ctor g data archIo)
        (by simp only [BUGS_entryHandle.ctor]; omega)
      rw [h]
      rfl
    · simp only [BUGS_ioRead, toReadOf, BUGS_entryHandle.ctor, toSint64, UINT64_MOD]
      have h1 : min ((data.size + 18446744073709551616 - 0) % 18446744073709551616)
          length = length := by omega
      rw [h1]
      have h2 : length % 18446744073709551616 = length := by omega
      rw [h2, if_pos (by omega)]
  · have hseek := BUGS_ioSeek_inside g hM hA (BUGS_entryHandle.ctor data archIo) offset
      (StreamInvariant_ctor g data archIo) hoff hsize h0
    refine ⟨_, hseek, ?_, ?_, hret0⟩
    · rw [hdrop]
      exact read_eq_refDecrypt g _ length d1 d2 hbytes hfit rfl
        (by simp only [BUGS_entryHandle.ctor]; omega)
    · simp only [BUGS_ioRead, toReadOf, BUGS_entryHandle.ctor, toSint64, UINT64_MOD]
      have h1 : min ((data.size + 18446744073709551616 - offset) % 18446744073709551616)
          length = length := by omega
      rw [h1]
      have h2 : length % 18446744073709551616 = length := by omega
      rw [h2, if_pos (by omega)]

/-- C2, at a concrete input: offset 5 and length 13 on the 20-byte sample entry. -/
theorem C2_seek_read_consistency_witness :
    ∃ e, BUGS_ioSeek (BUGS_entryHandle.ctor sampleData sampleIo) 5 = some (1, e)
      ∧ (BUGS_ioRead rgssKeys e 13 1 2).buffer
          = ((BUGS_ioRead rgssKeys (BUGS_entryHandle.ctor sampleData sampleIo) (5 + 13) 3 4).buffer).drop 5
      ∧ (BUGS_ioRead rgssKeys e 13 1 2).ret = (13 : Nat)
      ∧ (BUGS_ioRead rgssKeys (BUGS_entryHandle.ctor sampleData sampleIo) (5 + 13) 3 4).ret
          = ((5 + 13 : Nat) : Int) :=
  C2_seek_read_consistency rgssKeys rfl rfl sampleData sampleIo 5 13 1 2 3 4
    (fun _ => Nat.mod_lt _ (by decide)) (by decide) (by decide) (by decide) (by decide)

/-- C3, at the failing input (configured multiplier 5 and additive 1, seed 0, one
step): `advanceMagicN` does not look at the configured keys, it applies row 0 of the
hard-coded table, `(7, 3)`, and leaves the state 3, where one `advanceMagic` step with
the configured keys leaves 1. -/
theorem C3_skip_ahead_uses_fixed_table :
    advanceMagicN 0 1 = some (0, 3)
    ∧ (advanceMagic otherKeys 0).2 = 1
    ∧ keystream otherKeys 0 1 = 1
    ∧ LCG_TABLE[0]? = some (7, 3) := by
  refine ⟨?_, by decide, by decide, by decide⟩
  rw [advanceMagicN_eq_keystream rgssKeys rfl rfl 0 1 (by decide)]
  decide

/-- C4, at the failing input (keys 7 and 3, a 4-byte entry seeded with 0, one call
`read(8)` on the freshly opened handle): the call returns 4 and moves `currentOffset`
to 4, but the zones are sized from the requested 8 bytes, so the keystream is stepped
twice and `currentMagic` is word 2 (24) where the invariant asks for word 1 (3). -/
theorem C4_long_read_breaks_invariant :
    ∃ e, runCalls rgssKeys (BUGS_entryHandle.ctor oneWordData sampleIo) [IoCall.read 8 0 0]
          = some e
      ∧ e.currentOffset = 4
      ∧ e.currentMagic = 24
      ∧ keystream rgssKeys oneWordData.startMagic (e.currentOffset / 4) = 3
      ∧ ¬ StreamInvariant rgssKeys e := by
  refine ⟨_, rfl, by decide, ?_, by decide, ?_⟩
  · rw [BUGS_ioRead_magic rgssKeys _ 8 0 0 (by decide)]
    decide
  · unfold StreamInvariant
    rw [BUGS_ioRead_magic rgssKeys _ 8 0 0 (by decide)]
    decide

/-- C5, at the failing input (an empty entry, `seek(5)` on the freshly opened
handle): `size - 1` wraps to 2^64 - 1, the range check passes, and the seek returns 1
with `currentOffset` = 5 and the keystream stepped once (state 3 from seed 0). -/
theorem C5_seek_on_empty_entry_succeeds :
    ∃ e, BUGS_ioSeek (BUGS_entryHandle.ctor emptyData sampleIo) 5 = some (1, e)
      ∧ e.currentOffset = 5
      ∧ e.currentMagic = 3
      ∧ (BUGS_entryHandle.ctor emptyData sampleIo).currentOffset = 0
      ∧ (BUGS_entryHandle.ctor emptyData sampleIo).currentMagic = 0
      ∧ emptyData.size ≤ 5 := by
  have hstep : advanceMagicN 0 1 = some (0, 3) := by
    rw [advanceMagicN_eq_keystream rgssKeys rfl rfl 0 1 (by decide)]
    decide
  have h5 : ((5 : Nat) / 4 + UINT64_MOD - 0 / 4) % UINT64_MOD % UINT32_MOD = 1 := by decide
  refine ⟨{ data := emptyData, currentMagic := 3, currentOffset := 5,
            io := sampleIo.seek ((emptyData.offset + 5) % UINT64_MOD), patchVersion := 1 },
    ?_, rfl, rfl, rfl, rfl, by decide⟩
  unfold BUGS_ioSeek
  simp only [BUGS_entryHandle.ctor]
  rw [if_neg (by decide), if_neg (by decide), if_neg (by decide)]
  simp only [h5]
  rw [show emptyData.startMagic = 0 from rfl, hstep]
  rfl

/-- C6. Idempotent seek: on every handle, a seek to the current offset returns 1 and
leaves the handle as it is (also at `currentOffset = size`); and for every `x < size`
(sizes are 32-bit header fields, at most 2^32), `seek(x); seek(x)` returns 1 both
times and the second call leaves the handle exactly as the first left it. -/
theorem C6_seek_idempotent (entry : BUGS_entryHandle) (x : Nat) :
    BUGS_ioSeek entry entry.currentOffset = some (1, entry)
    ∧ (x < entry.data.size → entry.data.size ≤ 2 ^ 32 →
        ∃ e1, BUGS_ioSeek entry x = some (1, e1)
          ∧ BUGS_ioSeek e1 x = some (1, e1)
          ∧ e1.currentOffset = x) := by
  refine ⟨BUGS_ioSeek_same entry, ?_⟩
  intro hx hsize
  obtain ⟨e1, h1, hoff, _⟩ := BUGS_ioSeek_succeeds entry x hx hsize
  refine ⟨e1, h1, ?_, hoff⟩
  have h := BUGS_ioSeek_same e1
  rw [hoff] at h
  exact h

/-- C6, at a concrete input: `seek(9); seek(9)` on the sample handle at offset 5. -/
theorem C6_seek_idempotent_witness :
    BUGS_ioSeek sampleHandle sampleHandle.currentOffset = some (1, sampleHandle)
    ∧ ∃ e1, BUGS_ioSeek sampleHandle 9 = some (1, e1)
        ∧ BUGS_ioSeek e1 9 = some (1, e1)
        ∧ e1.currentOffset = 9 :=
  ⟨(C6_seek_idempotent sampleHandle 9).1,
   (C6_seek_idempotent sampleHandle 9).2 (by decide) (by decide)⟩

/-- C7. Rewind correctness: with the keys 7 and 3, on an entry of at most 2^32 bytes,
for a handle at an offset `x < size` that satisfies the stream invariant and every
`y < x`, `seek(y)` and then `seek(x)` both return 1 and end with `currentOffset = x`
and the `currentMagic` the handle had before the two seeks. -/
theorem C7_rewind_correct (g : BUGS_archiveData)
    (hM : g.keyMultiplier = 7) (hA : g.keyAdditive = 3)
    (entry : BUGS_entryHandle) (y : Nat)
    (hsize : entry.data.size ≤ 2 ^ 32)
    (hx : entry.currentOffset < entry.data.size)
    (hinv : entry.currentMagic
              = keystream g entry.data.startMagic (entry.currentOffset / 4))
    (hy : y < entry.currentOffset) :
    ∃ e1 e2, BUGS_ioSeek entry y = some (1, e1)
      ∧ BUGS_ioSeek e1 entry.currentOffset = some (1, e2)
      ∧ e1.currentOffset = y
      ∧ e2.currentOffset = entry.currentOffset
      ∧ e2.currentMagic = entry.currentMagic
      ∧ e2.data = entry.data := by
  have h1 := BUGS_ioSeek_inside g hM hA entry y hinv (by omega) hsize (by omega)
  have h2 := BUGS_ioSeek_inside g hM hA
    { data := entry.data
      currentMagic := keystream g entry.data.startMagic (y / 4)
      currentOffset := y
      io := entry.io.seek ((entry.data.offset + y) % UINT64_MOD)
      patchVersion := entry.patchVersion }
    entry.currentOffset rfl hx hsize (by simp only; omega)
  exact ⟨_, _, h1, h2, rfl, rfl, hinv.symm, rfl⟩

/-- C7, at a concrete input: from offset 5 back to 2 and forward to 5 again. -/
theorem C7_rewind_correct_witness :
    ∃ e1 e2, BUGS_ioSeek sampleHandle 2 = some (1, e1)
      ∧ BUGS_ioSeek e1 sampleHandle.currentOffset = some (1, e2)
      ∧ e1.currentOffset = 2
      ∧ e2.currentOffset = sampleHandle.currentOffset
      ∧ e2.currentMagic = sampleHandle.currentMagic
      ∧ e2.data = sampleHandle.data :=
  C7_rewind_correct rgssKeys rfl rfl sampleHandle 2 (by decide) (by decide) (by decide)
    (by decide)

/-- C8. Read clamps to the remaining bytes: on a handle with `currentOffset <= size`
(the size fitting the signed 64-bit return type, as every 32-bit header size does),
for every requested `len`, `BUGS_ioRead` returns `min(len, size - currentOffset)` and
increases `currentOffset` by exactly that value; at `currentOffset = size` it returns
0 and leaves `currentOffset` unchanged. -/
theorem C8_read_clamps (g : BUGS_archiveData) (entry : BUGS_entryHandle)
    (len dwordPre dwordPost : Nat)
    (hcur : entry.currentOffset ≤ entry.data.size)
    (hsize : entry.data.size < 2 ^ 63) :
    (BUGS_ioRead g entry len dwordPre dwordPost).ret
        = ((min len (entry.data.size - entry.currentOffset) : Nat) : Int)
    ∧ (BUGS_ioRead g entry len dwordPre dwordPost).entry.currentOffset
        = entry.currentOffset + min len (entry.data.size - entry.currentOffset)
    ∧ (entry.currentOffset = entry.data.size →
        (BUGS_ioRead g entry len dwordPre dwordPost).ret = 0
        ∧ (BUGS_ioRead g entry len dwordPre dwordPost).entry.currentOffset
            = entry.currentOffset) := by
  have hto : toReadOf entry len = min len (entry.data.size - entry.currentOffset) := by
    unfold toReadOf UINT64_MOD
    omega
  have hret : (BUGS_ioRead g entry len dwordPre dwordPost).ret
      = ((min len (entry.data.size - entry.currentOffset) : Nat) : Int) := by
    show toSint64 (toReadOf entry len) = _
    rw [hto]
    unfold toSint64 UINT64_MOD
    have h2 : min len (entry.data.size - entry.currentOffset) % 18446744073709551616
        = min len (entry.data.size - entry.currentOffset) := by omega
    rw [h2, if_pos (by omega)]
  have hoff : (BUGS_ioRead g entry len dwordPre dwordPost).entry.currentOffset
      = entry.currentOffset + min len (entry.data.size - entry.currentOffset) := by
    show (entry.currentOffset + toReadOf entry len) % UINT64_MOD = _
    rw [hto]
    unfold UINT64_MOD
    omega
  refine ⟨hret, hoff, ?_⟩
  intro heq
  rw [hret, hoff]
  have h0 : min len (entry.data.size - entry.currentOffset) = 0 := by omega
  rw [h0]
  exact ⟨rfl, rfl⟩

/-- C8, at a concrete input: 40 bytes requested at offset 5 of the 20-byte entry. -/
theorem C8_read_clamps_witness :
    (BUGS_ioRead rgssKeys sampleHandle 40 0 0).ret = 15
    ∧ (BUGS_ioRead rgssKeys sampleHandle 40 0 0).entry.currentOffset = 20 :=
  ⟨(C8_read_clamps rgssKeys sampleHandle 40 0 0 (by decide) (by decide)).1,
   (C8_read_clamps rgssKeys sampleHandle 40 0 0 (by decide) (by decide)).2.1⟩

/-- C9, at the failing input (a 4-byte entry, `read(8)` on the freshly opened handle):
the zones are sized from the requested length, 0 + 8 + 0 bytes, and 8 bytes are read
from the container and stored to the caller's buffer, while the call returns 4. -/
theorem C9_zones_follow_requested_length :
    preAlignOf 0 8 + alignOf 0 8 + postAlignOf 0 8 = 8
    ∧ (BUGS_ioRead rgssKeys (BUGS_entryHandle.ctor oneWordData sampleIo) 8 0 0).buffer.length = 8
    ∧ (BUGS_ioRead rgssKeys (BUGS_entryHandle.ctor oneWordData sampleIo) 8 0 0).ret = 4
    ∧ (BUGS_ioRead rgssKeys (BUGS_entryHandle.ctor oneWordData sampleIo) 8 0 0).entry.io.pos
        = oneWordData.offset + 8 := by
  refine ⟨by decide, ?_, by decide, by decide⟩
  rw [BUGS_ioRead_buffer rgssKeys _ (fun _ => Nat.mod_lt _ (by decide)) 8 0 0 (by decide)]
  simp

/-- C10. The one-step contract: for every state `s` and configured keys,
`advanceMagic` returns `s`, the value before the update, and sets the state to
`(s * M + A) mod 2^32`, a 32-bit value. -/
theorem C10_advanceMagic_contract (g : BUGS_archiveData) (s : Nat) :
    (advanceMagic g s).1 = s
    ∧ (((advanceMagic g s).2 : Nat) : Int)
        = ((s : Int) * g.keyMultiplier + g.keyAdditive) % 4294967296
    ∧ (advanceMagic g s).2 < 4294967296 :=
  ⟨advanceMagic_fst g s, advanceMagic_snd_int g s, advanceMagic_snd_lt g s⟩

/-! ## The table positions read by the skip-ahead -/

theorem advanceMagicN_indices_zero (k : Nat) : advanceMagicN.indices 0 k = [] := by
  rw [advanceMagicN.indices]
  simp

theorem advanceMagicN_indices_odd (n k : Nat) (hn : n % 2 = 1) :
    advanceMagicN.indices n k = k :: advanceMagicN.indices (n / 2) (k + 1) := by
  rw [advanceMagicN.indices]
  have h0 : n ≠ 0 := by omega
  have h1 : n &&& 1 ≠ 0 := by rw [Nat.and_one_is_mod]; omega
  have h2 : n >>> 1 = n / 2 := by rw [Nat.shiftRight_eq_div_pow, pow_one]
  simp only [h0, h1, h2, dite_false, ne_eq, not_false_eq_true, ite_true]

theorem advanceMagicN_indices_even (n k : Nat) (h0 : n ≠ 0) (hn : n % 2 = 0) :
    advanceMagicN.indices n k = advanceMagicN.indices (n / 2) (k + 1) := by
  rw [advanceMagicN.indices]
  have h1 : ¬ (n &&& 1 ≠ 0) := by rw [Nat.and_one_is_mod]; omega
  have h2 : n >>> 1 = n / 2 := by rw [Nat.shiftRight_eq_div_pow, pow_one]
  simp only [h0, h1, h2, dite_false, ite_false]

/-- A count below `2^m` makes the loop read only positions below `table_index + m`. -/
theorem advanceMagicN_indices_lt :
    ∀ n k m : Nat, n < 2 ^ m → ∀ i ∈ advanceMagicN.indices n k, i < k + m := by
  intro n
  induction n using Nat.strong_induction_on with
  | _ n ih =>
    intro k m hn i hi
    by_cases h0 : n = 0
    · subst h0
      rw [advanceMagicN_indices_zero] at hi
      simp at hi
    · have hm : m ≠ 0 := by
        intro hm0
        subst hm0
        simp at hn
        exact h0 hn
      obtain ⟨m', rfl⟩ := Nat.exists_eq_succ_of_ne_zero hm
      have hhalf : n / 2 < 2 ^ m' := by
        rw [pow_succ] at hn
        omega
      rcases Nat.mod_two_eq_zero_or_one n with he | ho
      · rw [advanceMagicN_indices_even n k h0 he] at hi
        have := ih (n / 2) (by omega) (k + 1) m' hhalf i hi
        omega
      · rw [advanceMagicN_indices_odd n k ho] at hi
        rcases List.mem_cons.1 hi with h | h
        · omega
        · have := ih (n / 2) (by omega) (k + 1) m' hhalf i h
          omega

/-- The count `2^j` makes the loop read exactly position `table_index + j`. -/
theorem advanceMagicN_indices_two_pow :
    ∀ j k : Nat, advanceMagicN.indices (2 ^ j) k = [k + j] := by
  intro j
  induction j with
  | zero =>
    intro k
    rw [pow_zero, advanceMagicN_indices_odd 1 k (by decide)]
    simp [advanceMagicN_indices_zero]
  | succ j ih =>
    intro k
    have hpos : 0 < 2 ^ j := Nat.two_pow_pos j
    have h2 : 2 ^ (j + 1) = 2 * 2 ^ j := by rw [pow_succ']
    rw [advanceMagicN_indices_even _ k (by omega) (by omega)]
    have hdiv : 2 ^ (j + 1) / 2 = 2 ^ j := by omega
    rw [hdiv, ih]
    congr 1
    omega

/-- The model's `none` is exactly a read outside the table: the loop has no defined
result if and only if one of the positions it reads is 30 or more. -/
theorem advanceMagicN_loop_eq_none_iff :
    ∀ n k magic : Nat,
      advanceMagicN.loop magic n k = none ↔ ∃ i ∈ advanceMagicN.indices n k, 30 ≤ i := by
  intro n
  induction n using Nat.strong_induction_on with
  | _ n ih =>
    intro k magic
    by_cases h0 : n = 0
    · subst h0
      rw [advanceMagicN_loop_zero, advanceMagicN_indices_zero]
      simp
    · rcases Nat.mod_two_eq_zero_or_one n with he | ho
      · rw [advanceMagicN_loop_even magic n k h0 he, advanceMagicN_indices_even n k h0 he]
        exact ih (n / 2) (by omega) (k + 1) magic
      · rw [advanceMagicN_loop_odd magic n k ho, advanceMagicN_indices_odd n k ho]
        by_cases hk : k < 30
        · have hlen : k < LCG_TABLE.length := by rw [LCG_TABLE_length]; exact hk
          rw [List.getElem?_eq_getElem hlen]
          simp only
          rw [ih (n / 2) (by omega) (k + 1)]
          constructor
          · rintro ⟨i, hi, h30⟩
            exact ⟨i, List.mem_cons_of_mem _ hi, h30⟩
          · rintro ⟨i, hi, h30⟩
            rcases List.mem_cons.1 hi with h | h
            · omega
            · exact ⟨i, h, h30⟩
        · have hlen : LCG_TABLE.length ≤ k := by rw [LCG_TABLE_length]; omega
          rw [List.getElem?_eq_none hlen]
          simp only [true_iff]
          exact ⟨k, List.mem_cons_self _ _, by omega⟩

theorem advanceMagicN_eq_none_of_loop (magic n : Nat)
    (h : advanceMagicN.loop magic n 0 = none) : advanceMagicN magic n = none := by
  unfold advanceMagicN
  rw [h]

/-- C11, the claim as stated fails at the 32-bit count `2^30`: the loop halves it 30
times and then reads `LCG_TABLE` at position 30, one past the last row, so the
skip-ahead has no defined result. -/
theorem C11_count_two_pow_30_reads_row_30 :
    (1073741824 : Nat) < 4294967296
    ∧ advanceMagicN.indices 1073741824 0 = [30]
    ∧ LCG_TABLE[30]? = none
    ∧ advanceMagicN 0 1073741824 = none := by
  have hpow : (1073741824 : Nat) = 2 ^ 30 := by norm_num
  have hidx : advanceMagicN.indices 1073741824 0 = [30] := by
    rw [hpow, advanceMagicN_indices_two_pow 30 0]
  refine ⟨by norm_num, hidx, by decide, ?_⟩
  have hnone : advanceMagicN.loop 0 1073741824 0 = none := by
    rw [advanceMagicN_loop_eq_none_iff, hidx]
    exact ⟨30, List.mem_singleton.2 rfl, le_refl _⟩
  exact advanceMagicN_eq_none_of_loop 0 1073741824 hnone

/-- C11, amended. Thirty table entries suffice for every step count below `2^30` (the
dword counts of entries of at most 2^32 bytes): `advanceMagicN(state, n)` then reads
`LCG_TABLE` only at positions 0..29 and has a defined result. -/
theorem C11_thirty_rows_suffice_below_two_pow_30 (magic n : Nat) (hn : n < 2 ^ 30) :
    (∀ i ∈ advanceMagicN.indices n 0, i < 30)
    ∧ (advanceMagicN magic n).isSome = true := by
  constructor
  · intro i hi
    have := advanceMagicN_indices_lt n 0 30 hn i hi
    omega
  · rw [advanceMagicN_eq_keystream rgssKeys rfl rfl magic n hn]
    rfl

/-- C11 amended, at a concrete input: the largest count below `2^30`. -/
theorem C11_thirty_rows_suffice_witness :
    (∀ i ∈ advanceMagicN.indices 1073741823 0, i < 30)
    ∧ (advanceMagicN 3735928559 1073741823).isSome = true :=
  C11_thirty_rows_suffice_below_two_pow_30 3735928559 1073741823 (by decide)

/-! ## Header parser: fields -/

set_option maxRecDepth 100000 in
/-- The four shift-and-mask terms of `readUint32`, for every byte held in a signed
`char`: each yields the byte at its place in the word. -/
theorem readUint32_terms :
    ∀ b : Fin 256,
      toUint32 (charToInt b.val * 2 ^ 0) &&& 0x000000FF = b.val
      ∧ toUint32 (charToInt b.val * 2 ^ 8) &&& 0x0000FF00 = 2 ^ 8 * b.val
      ∧ toUint32 (charToInt b.val * 2 ^ 16) &&& 0x00FF0000 = 2 ^ 16 * b.val
      ∧ toUint32 (charToInt b.val * 2 ^ 24) &&& 0xFF000000 = 2 ^ 24 * b.val := by
  decide

theorem lor_bytes (b0 b1 b2 b3 : Nat) (h0 : b0 < 256) (h1 : b1 < 256) (h2 : b2 < 256) :
    b0 ||| 2 ^ 8 * b1 ||| 2 ^ 16 * b2 ||| 2 ^ 24 * b3
      = b0 + 2 ^ 8 * b1 + 2 ^ 16 * b2 + 2 ^ 24 * b3 := by
  have e1 : b0 ||| 2 ^ 8 * b1 = 2 ^ 8 * b1 + b0 := by
    rw [Nat.lor_comm, Nat.mul_add_lt_is_or (by omega) b1]
  have e2 : 2 ^ 8 * b1 + b0 ||| 2 ^ 16 * b2 = 2 ^ 16 * b2 + (2 ^ 8 * b1 + b0) := by
    rw [Nat.lor_comm, Nat.mul_add_lt_is_or (by omega) b2]
  have e3 : 2 ^ 16 * b2 + (2 ^ 8 * b1 + b0) ||| 2 ^ 24 * b3
      = 2 ^ 24 * b3 + (2 ^ 16 * b2 + (2 ^ 8 * b1 + b0)) := by
    rw [Nat.lor_comm, Nat.mul_add_lt_is_or (by omega) b3]
  rw [e1, e2, e3]
  omega

/-- On four available bytes `readUint32` succeeds with their little-endian value. -/
theorem readUint32_four (b0 b1 b2 b3 : Nat) (rest buff : List Nat) (result : Nat)
    (h0 : b0 < 256) (h1 : b1 < 256) (h2 : b2 < 256) (h3 : b3 < 256) :
    readUint32 (b0 :: b1 :: b2 :: b3 :: rest) buff result
      = (true, b0 + 2 ^ 8 * b1 + 2 ^ 16 * b2 + 2 ^ 24 * b3, rest) := by
  have t0 := readUint32_terms ⟨b0, h0⟩
  have t1 := readUint32_terms ⟨b1, h1⟩
  have t2 := readUint32_terms ⟨b2, h2⟩
  have t3 := readUint32_terms ⟨b3, h3⟩
  simp only at t0 t1 t2 t3
  unfold readUint32 memcpyInto
  simp only [List.take_succ_cons, List.take_zero, List.length_cons, List.length_nil,
    List.cons_append, List.nil_append, List.getD_cons_zero, List.getD_cons_succ,
    List.drop_succ_cons, List.drop_zero]
  rw [t0.1, t1.2.1, t2.2.2.1, t3.2.2.2, lor_bytes b0 b1 b2 b3 h0 h1 h2]
  rfl

/-- The success flag of `readUint32` is "the read returned 4 bytes". -/
theorem readUint32_flag (io buff : List Nat) (result : Nat) :
    (readUint32 io buff result).1 = true ↔ 4 ≤ io.length := by
  unfold readUint32
  simp only [List.length_take, beq_iff_eq]
  omega

theorem readUint32_rest (io buff : List Nat) (result : Nat) :
    (readUint32 io buff result).2.2 = io.drop 4 := rfl

theorem toBytesLE_value (w : Nat) (hw : w < 4294967296) :
    w % 256 + 2 ^ 8 * (w / 256 % 256) + 2 ^ 16 * (w / 65536 % 256)
      + 2 ^ 24 * (w / 16777216 % 256) = w := by
  omega

/-- A stored little-endian word is read back as it was. -/
theorem readUint32_toBytesLE (w : Nat) (hw : w < 4294967296) (rest buff : List Nat)
    (result : Nat) :
    readUint32 (toBytesLE w ++ rest) buff result = (true, w, rest) := by
  unfold toBytesLE
  simp only [List.cons_append, List.nil_append]
  rw [readUint32_four _ _ _ _ rest buff result (Nat.mod_lt _ (by decide))
    (Nat.mod_lt _ (by decide)) (Nat.mod_lt _ (by decide)) (Nat.mod_lt _ (by decide)),
    toBytesLE_value w hw]

theorem keyIndexAt_succ (j : Nat) : (keyIndexAt j + 1) % UINT32_MOD = keyIndexAt (j + 1) := by
  unfold keyIndexAt UINT32_MOD
  omega

theorem keyChar_lt (password : List Nat) (hb : ∀ c ∈ password, c < 256) (j : Nat) :
    keyChar password j < 256 := by
  unfold keyChar
  rw [List.getD_eq_getElem?_getD]
  cases h : password[keyIndexAt j % password.length]? with
  | none => simp
  | some c =>
    simp only [Option.getD_some]
    exact hb c (List.getElem?_mem h)

/-- With a non-empty password the macro yields the character of the running index. -/
theorem PASSWORD_CHARACTER_eq (password : List Nat) (d : BUGS_archiveData) (j : Nat)
    (hk : KeyState password d j) :
    PASSWORD_CHARACTER d d.keyIndex = some (keyChar password j) := by
  obtain ⟨hp, hl, hpos, hlt, _, hi⟩ := hk
  have hlen : toUint32 d.passwordLength = password.length := by
    rw [hl]
    unfold toUint32
    omega
  unfold PASSWORD_CHARACTER keyChar
  rw [hlen, if_neg (by omega), hp, hi, List.getD_eq_getElem?_getD]
  have hin : keyIndexAt j % password.length < password.length := Nat.mod_lt _ hpos
  rw [List.getElem?_eq_getElem hin]
  rfl

theorem KeyState_step (password : List Nat) (d : BUGS_archiveData) (j : Nat)
    (hk : KeyState password d j) :
    KeyState password { d with keyIndex := (d.keyIndex + 1) % UINT32_MOD } (j + 1) := by
  obtain ⟨hp, hl, hpos, hlt, hb, hi⟩ := hk
  refine ⟨hp, hl, hpos, hlt, hb, ?_⟩
  show (d.keyIndex + 1) % UINT32_MOD = keyIndexAt (j + 1)
  rw [hi, keyIndexAt_succ]

/-- One field decode on four available bytes: the little-endian value XOR the
password character of the running index, and the index moved on by one. The value
`result` held before, and the XOR with `password[0]` applied to it before the read,
leave no trace. -/
theorem readUint32AndXor_four (password : List Nat) (d : BUGS_archiveData) (j : Nat)
    (hk : KeyState password d j)
    (b0 b1 b2 b3 : Nat) (rest buff : List Nat) (result : Nat)
    (h0 : b0 < 256) (h1 : b1 < 256) (h2 : b2 < 256) (h3 : b3 < 256) :
    readUint32AndXor d (b0 :: b1 :: b2 :: b3 :: rest) buff result
      = some (true,
          (b0 + 2 ^ 8 * b1 + 2 ^ 16 * b2 + 2 ^ 24 * b3)
            ^^^ toUint32 (charToInt (keyChar password j)),
          { d with keyIndex := (d.keyIndex + 1) % UINT32_MOD }, rest) := by
  unfold readUint32AndXor
  simp only [readUint32_four _ _ _ _ rest buff _ h0 h1 h2 h3, PASSWORD_CHARACTER_eq password d j hk]
  rfl

/-- A field decode on fewer than four bytes fails and leaves the key index alone. -/
theorem readUint32AndXor_short (d : BUGS_archiveData) (io buff : List Nat) (result : Nat)
    (hio : io.length < 4) :
    ∃ value, readUint32AndXor d io buff result = some (false, value, d, io.drop 4) := by
  have hflag : (readUint32 io buff
      (result ^^^ toUint32 (charToInt (d.password.getD 0 0)))).1 = false := by
    cases h : (readUint32 io buff (result ^^^ toUint32 (charToInt (d.password.getD 0 0)))).1 with
    | false => rfl
    | true =>
      have := (readUint32_flag io buff _).1 h
      omega
  unfold readUint32AndXor
  simp only [hflag, if_true]
  exact ⟨_, rfl⟩

theorem charToInt_toUint32_lt (c : Nat) : toUint32 (charToInt c) < 4294967296 :=
  toUint32_lt _

/-- A stored field is decoded to the value that was encoded. -/
theorem readUint32AndXor_encode (password : List Nat) (d : BUGS_archiveData) (j : Nat)
    (hk : KeyState password d j) (value : Nat) (hv : value < 4294967296)
    (rest buff : List Nat) (result : Nat) :
    readUint32AndXor d (encodeUint32 password j value ++ rest) buff result
      = some (true, value, { d with keyIndex := (d.keyIndex + 1) % UINT32_MOD }, rest) := by
  have hx : value ^^^ toUint32 (charToInt (keyChar password j)) < 4294967296 :=
    Nat.xor_lt_two_pow (n := 32) hv (charToInt_toUint32_lt _)
  unfold readUint32AndXor encodeUint32
  simp only [readUint32_toBytesLE _ hx rest buff _, PASSWORD_CHARACTER_eq password d j hk,
    Nat.xor_cancel_right]
  rfl

/-! ## Header parser: names -/

theorem encodeName_length (password : List Nat) :
    ∀ (name : List Nat) (j : Nat), (encodeName password j name).length = name.length := by
  intro name
  induction name with
  | nil => intro j; rfl
  | cons b bs ih =>
    intro j
    simp only [encodeName, List.length_cons, ih]

/-- XOR with the same characters twice gives the bytes back. -/
theorem encodeName_involutive (password : List Nat) (hb : ∀ c ∈ password, c < 256) :
    ∀ (name : List Nat) (j : Nat), (∀ b ∈ name, b < 256) →
      encodeName password j (encodeName password j name) = name := by
  intro name
  induction name with
  | nil => intro j _; rfl
  | cons b bs ih =>
    intro j hn
    have hb0 : b < 256 := hn b (List.mem_cons_self _ _)
    have hc : keyChar password j < 256 := keyChar_lt password hb j
    have hx : b ^^^ keyChar password j < 256 := Nat.xor_lt_two_pow (n := 8) hb0 hc
    simp only [encodeName]
    rw [ih (j + 1) (fun x hx => hn x (List.mem_cons_of_mem _ hx)), Nat.mod_eq_of_lt hx,
      Nat.xor_cancel_right, Nat.mod_eq_of_lt hb0]

/-- The decrypt loop XORs byte number `i` with the password character of decode
operation `j + i` and moves the key index on by the number of bytes. -/
theorem decryptChars_eq (password : List Nat) :
    ∀ (bs : List Nat) (d : BUGS_archiveData) (j : Nat), KeyState password d j →
      decryptChars d bs
        = some (encodeName password j bs, { d with keyIndex := keyIndexAt (j + bs.length) }) := by
  intro bs
  induction bs with
  | nil =>
    intro d j hk
    have hi : d.keyIndex = keyIndexAt j := hk.2.2.2.2.2
    simp only [decryptChars, encodeName, List.length_nil, Nat.add_zero, ← hi]
  | cons b bs ih =>
    intro d j hk
    have hstep := KeyState_step password d j hk
    simp only [decryptChars, PASSWORD_CHARACTER_eq password d j hk, ih _ (j + 1) hstep,
      encodeName, List.length_cons]
    have : j + 1 + bs.length = j + (bs.length + 1) := by omega
    rw [this]

theorem toInt32_small (n : Nat) (hn : n < 2147483648) : toInt32 n = (n : Int) := by
  unfold toInt32 UINT32_MOD
  have : n % 4294967296 = n := by omega
  rw [this, if_pos hn]

/-- The string read for a name length inside the buffer: the bytes read over the start
of the buffer, XORed with the password characters, and a NUL after them. -/
theorem decryptAndReadString_eq (password : List Nat) (d : BUGS_archiveData) (j : Nat)
    (hk : KeyState password d j) (io buffer : List Nat) (n : Nat) (hn : n < buffer.length) :
    decryptAndReadString d io buffer (n : Int)
      = some (true,
          (memcpyInto (memcpyInto buffer (io.take n))
            (encodeName password j ((memcpyInto buffer (io.take n)).take n))).set n 0,
          { d with keyIndex := keyIndexAt (j + ((memcpyInto buffer (io.take n)).take n).length) },
          io.drop n) := by
  unfold decryptAndReadString
  have hcond : ¬ ((n : Int) < 0 ∨ (buffer.length : Int) ≤ (n : Int)) := by omega
  rw [if_neg hcond]
  simp only [Int.toNat_ofNat, decryptChars_eq password _ d j hk]

theorem memcpyInto_length (dst src : List Nat) (h : src.length ≤ dst.length) :
    (memcpyInto dst src).length = dst.length := by
  unfold memcpyInto
  simp only [List.length_append, List.length_drop]
  omega

/-- A stored name of at most 511 bytes is decoded to the name, NUL-terminated in the
buffer. -/
theorem decryptAndReadString_encode (password : List Nat) (d : BUGS_archiveData) (j : Nat)
    (hk : KeyState password d j) (name rest buffer : List Nat)
    (hname : ∀ b ∈ name, b < 256) (hn : name.length < buffer.length) :
    decryptAndReadString d (encodeName password j name ++ rest) buffer (name.length : Int)
      = some (true, (name ++ buffer.drop name.length).set name.length 0,
          { d with keyIndex := keyIndexAt (j + name.length) }, rest) := by
  have hlen := encodeName_length password name j
  have htake : (encodeName password j name ++ rest).take name.length
      = encodeName password j name := List.take_left' hlen
  have hdrop : (encodeName password j name ++ rest).drop name.length = rest :=
    List.drop_left' hlen
  rw [decryptAndReadString_eq password d j hk _ buffer name.length hn, htake, hdrop]
  have hB : (memcpyInto buffer (encodeName password j name)).take name.length
      = encodeName password j name := by
    unfold memcpyInto
    exact List.take_left' hlen
  rw [hB, encodeName_involutive password hk.2.2.2.2.1 name j hname, hlen]
  have hM : memcpyInto (memcpyInto buffer (encodeName password j name)) name
      = name ++ buffer.drop name.length := by
    unfold memcpyInto
    rw [hlen, List.drop_left' hlen]
  rw [hM]

/-- The C string at the start of a buffer that holds `name`, without NUL bytes, and a
NUL after it. -/
theorem cString_name (name tail : List Nat) (hname : ∀ b ∈ name, 0 < b) :
    cString ((name ++ tail).set name.length 0) = name := by
  induction name with
  | nil =>
    cases tail with
    | nil => rfl
    | cons t ts => simp [cString]
  | cons b bs ih =>
    have hb : 0 < b := hname b (List.mem_cons_self _ _)
    have hb0 : b ≠ 0 := by omega
    have ih2 := ih (fun x hx => hname x (List.mem_cons_of_mem _ hx))
    unfold cString at ih2 ⊢
    simp only [List.cons_append, List.length_cons, List.set_cons_succ, List.takeWhile_cons,
      ne_eq, hb0, not_false_eq_true, decide_True, ite_true]
    rw [ih2]

/-! ## Header parser: the loop -/

theorem processDirectories_more_length :
    ∀ (i : Nat) (nameBuf : List Nat) (dirHash : BoostHash BoostSet),
      (processDirectories.more i nameBuf dirHash).1.length = nameBuf.length := by
  intro i
  induction i with
  | zero => intro nameBuf dirHash; rfl
  | succ i ih =>
    intro nameBuf dirHash
    unfold processDirectories.more
    split
    · simp only [ih, List.length_set]
    · exact ih _ _

theorem processDirectories_length (d : BUGS_archiveData) (nameBuf : List Nat) (nameLen : Nat) :
    (processDirectories d nameBuf nameLen).2.length = nameBuf.length := by
  unfold processDirectories
  exact processDirectories_more_length _ _ _

/-- The directory builder changes nothing but the directory index. -/
theorem processDirectories_frame (d : BUGS_archiveData) (nameBuf : List Nat) (nameLen : Nat) :
    (processDirectories d nameBuf nameLen).1.entryHash = d.entryHash
    ∧ (processDirectories d nameBuf nameLen).1.password = d.password
    ∧ (processDirectories d nameBuf nameLen).1.passwordLength = d.passwordLength
    ∧ (processDirectories d nameBuf nameLen).1.keyIndex = d.keyIndex
    ∧ (processDirectories d nameBuf nameLen).1.keyMultiplier = d.keyMultiplier
    ∧ (processDirectories d nameBuf nameLen).1.keyAdditive = d.keyAdditive :=
  ⟨rfl, rfl, rfl, rfl, rfl, rfl⟩

theorem KeyState_processDirectories (password : List Nat) (d : BUGS_archiveData) (j : Nat)
    (hk : KeyState password d j) (nameBuf : List Nat) (nameLen : Nat) :
    KeyState password (processDirectories d nameBuf nameLen).1 j := hk

theorem KeyState_setKey (password : List Nat) (d : BUGS_archiveData) (j i : Nat)
    (hk : KeyState password d j) (h : BoostHash BUGS_entryData) :
    KeyState password { d with keyIndex := keyIndexAt i, entryHash := h } i :=
  ⟨hk.1, hk.2.1, hk.2.2.1, hk.2.2.2.1, hk.2.2.2.2.1, rfl⟩

/-- One iteration of the parse loop on a stored well-formed record: the six fields and
the name are decoded, the entry is inserted under the name, the directories are
processed, and the loop goes on behind the record. -/
theorem loop_record (password : List Nat) (u : Indeterminate) (fuel : Nat)
    (d : BUGS_archiveData) (j : Nat) (hk : KeyState password d j)
    (r : HeaderRecord) (hr : r.WellFormed) (rest fileName : List Nat)
    (hf : fileName.length = 512) (v : HeaderLocals) :
    BUGS_openMetaArchive.loop u (fuel + 1) d (encodeRecord password j r ++ rest) fileName v
      = BUGS_openMetaArchive.loop u fuel (afterRecord u d fileName j r).1 rest
          (afterRecord u d fileName j r).2
          { offset := r.offset, patchVersion := r.patchVersion, checksum := r.checksum,
            fileSize := r.fileSize, magicKey := r.startMagic,
            fileNameLen := r.fileName.length } := by
  obtain ⟨hpos, h1, h2, h3, h4, h5, hlen, hname⟩ := hr
  have k1 := KeyState_step password _ _ hk
  have k2 := KeyState_step password _ _ k1
  have k3 := KeyState_step password _ _ k2
  have k4 := KeyState_step password _ _ k3
  have k5 := KeyState_step password _ _ k4
  have k6 := KeyState_step password _ _ k5
  have e1 := fun rest => readUint32AndXor_encode password _ _ hk r.offset h1 rest u.buff v.offset
  have e2 := fun rest =>
    readUint32AndXor_encode password _ _ k1 r.patchVersion h2 rest u.buff v.patchVersion
  have e3 := fun rest =>
    readUint32AndXor_encode password _ _ k2 r.checksum h3 rest u.buff v.checksum
  have e4 := fun rest =>
    readUint32AndXor_encode password _ _ k3 r.fileSize h4 rest u.buff v.fileSize
  have e5 := fun rest =>
    readUint32AndXor_encode password _ _ k4 r.startMagic h5 rest u.buff v.magicKey
  have e6 := fun rest =>
    readUint32AndXor_encode password _ _ k5 r.fileName.length (by omega) rest u.buff
      v.fileNameLen
  have e7 := decryptAndReadString_encode password _ _ k6 r.fileName rest fileName
    (fun b hb => (hname b hb).2) (by omega)
  have hoff : ¬ r.offset ≤ 0 := by omega
  have hint : toInt32 r.fileName.length = (r.fileName.length : Int) :=
    toInt32_small _ (by omega)
  have hcs : cString ((r.fileName ++ fileName.drop r.fileName.length).set r.fileName.length 0)
      = r.fileName := cString_name _ _ (fun b hb => (hname b hb).1)
  unfold encodeRecord
  simp only [List.append_assoc]
  rw [BUGS_openMetaArchive.loop]
  simp only [e1, e2, e3, e4, e5, e6, MetaArchive.guard, hoff, if_false, hint, e7, hcs]
  rfl

theorem KeyState_afterRecord (password : List Nat) (u : Indeterminate) (d : BUGS_archiveData)
    (fileName : List Nat) (j : Nat) (r : HeaderRecord) (hk : KeyState password d j) :
    KeyState password (afterRecord u d fileName j r).1 (j + 6 + r.fileName.length) :=
  ⟨hk.1, hk.2.1, hk.2.2.1, hk.2.2.2.1, hk.2.2.2.2.1, rfl⟩

theorem afterRecord_length (u : Indeterminate) (d : BUGS_archiveData) (fileName : List Nat)
    (j : Nat) (r : HeaderRecord) (hf : fileName.length = 512) (hr : r.fileName.length ≤ 511) :
    (afterRecord u d fileName j r).2.length = 512 := by
  unfold afterRecord
  rw [processDirectories_length, List.length_set, List.length_append, List.length_drop]
  omega

theorem afterRecord_entryHash (u : Indeterminate) (d : BUGS_archiveData) (fileName : List Nat)
    (j : Nat) (r : HeaderRecord) :
    (afterRecord u d fileName j r).1.entryHash = d.entryHash.insert r.fileName (r.toEntry u) :=
  rfl

theorem afterRecords_entryHash (u : Indeterminate) :
    ∀ (recs : List HeaderRecord) (d : BUGS_archiveData) (fileName : List Nat) (j : Nat),
      (afterRecords u d fileName j recs).entryHash = insertRecords u d.entryHash recs := by
  intro recs
  induction recs with
  | nil => intro d fileName j; rfl
  | cons r rs ih =>
    intro d fileName j
    simp only [afterRecords, insertRecords]
    rw [ih, afterRecord_entryHash]

/-- The parse loop on a stored index region (well-formed records, then the zero
offset, then anything): it leaves by `break` right behind the zero offset. -/
theorem loop_records (password : List Nat) (u : Indeterminate) (tail : List Nat) :
    ∀ (recs : List HeaderRecord) (fuel : Nat) (d : BUGS_archiveData) (j : Nat)
      (fileName : List Nat) (v : HeaderLocals),
      KeyState password d j → fileName.length = 512 → (∀ r ∈ recs, r.WellFormed) →
      recs.length < fuel →
      BUGS_openMetaArchive.loop u fuel d (encodeRecords password j recs ++ tail) fileName v
        = .built (afterRecords u d fileName j recs) tail := by
  intro recs
  induction recs with
  | nil =>
    intro fuel d j fileName v hk _ _ hfuel
    obtain ⟨fuel, rfl⟩ := Nat.exists_eq_succ_of_ne_zero (by omega : fuel ≠ 0)
    simp only [encodeRecords, afterRecords]
    rw [BUGS_openMetaArchive.loop,
      readUint32AndXor_encode password d j hk 0 (by decide) tail u.buff v.offset]
    rfl
  | cons r rs ih =>
    intro fuel d j fileName v hk hf hwf hfuel
    obtain ⟨fuel, rfl⟩ := Nat.exists_eq_succ_of_ne_zero (by omega : fuel ≠ 0)
    have hr := hwf r (List.mem_cons_self _ _)
    simp only [encodeRecords, afterRecords, List.append_assoc]
    rw [loop_record password u fuel d j hk r hr _ fileName hf v]
    exact ih fuel _ _ _ _ (KeyState_afterRecord password u d fileName j r hk)
      (afterRecord_length u d fileName j r hf hr.2.2.2.2.2.2.1)
      (fun x hx => hwf x (List.mem_cons_of_mem _ hx))
      (by simp only [List.length_cons] at hfuel; omega)

theorem encodeRecords_length_ge (password : List Nat) :
    ∀ (recs : List HeaderRecord) (j : Nat),
      recs.length < (encodeRecords password j recs).length := by
  intro recs
  induction recs with
  | nil =>
    intro j
    simp [encodeRecords, encodeUint32, toBytesLE]
  | cons r rs ih =>
    intro j
    have := ih (j + 6 + r.fileName.length)
    simp only [encodeRecords, encodeRecord, encodeUint32, toBytesLE, List.length_append,
      List.length_cons, List.length_nil]
    omega

theorem KeyState_init (password : List Nat) (keyMultiplier keyAdditive : Int)
    (hpos : 0 < password.length) (hlt : password.length < 2147483648)
    (hb : ∀ c ∈ password, c < 256) :
    KeyState password (BUGS_openMetaArchive.init password keyMultiplier keyAdditive) 0 :=
  ⟨rfl, rfl, hpos, hlt, hb, (by decide : toUint32 (-1) = keyIndexAt 0)⟩

/-- The whole parse of an archive whose index region is stored from well-formed
records: it succeeds, stops right behind the zero offset, and leaves the archive data
built from the records in order. -/
theorem BUGS_openMetaArchive_encoded (password : List Nat) (keyMultiplier keyAdditive : Int)
    (u : Indeterminate) (fileName head tail : List Nat) (recs : List HeaderRecord)
    (hpos : 0 < password.length) (hlt : password.length < 2147483648)
    (hb : ∀ c ∈ password, c < 256)
    (hhead : head.length = 8) (hf : fileName.length = 512)
    (hwf : ∀ r ∈ recs, r.WellFormed) :
    BUGS_openMetaArchive (head ++ (encodeRecords password 0 recs ++ tail)) password
        keyMultiplier keyAdditive u fileName
      = .built (afterRecords u (BUGS_openMetaArchive.init password keyMultiplier keyAdditive)
          fileName 0 recs) tail := by
  unfold BUGS_openMetaArchive
  simp only [List.drop_left' hhead]
  apply loop_records password u tail recs _ _ 0 fileName u.locals
    (KeyState_init password keyMultiplier keyAdditive hpos hlt hb) hf hwf
  have := encodeRecords_length_ge password recs 0
  simp only [List.length_append]
  omega

/-! ## The file index built from records -/

theorem lookup_singleton {V : Type} (p k : StdString) (v : V) :
    List.lookup p [(k, v)] = if p = k then some v else none := by
  rw [List.lookup_cons, List.lookup_nil]
  by_cases h : p = k
  · simp [h]
  · have : (p == k) = false := by simpa using h
    simp [h, this]

/-- Lookup after an insertion: what was there stays; a new key gets the value. -/
theorem lookup_insert {V : Type} (h : BoostHash V) (k p : StdString) (v : V) :
    List.lookup p (h.insert k v)
      = (List.lookup p h).or (if p = k then some v else none) := by
  unfold BoostHash.insert BoostHash.contains
  by_cases hc : (List.lookup k h).isSome = true
  · rw [if_pos hc]
    cases hl : List.lookup p h with
    | some e => rfl
    | none =>
      have hne : p ≠ k := by
        intro hpk
        rw [hpk] at hl
        rw [hl] at hc
        exact absurd hc (by simp)
      simp [hne]
  · rw [if_neg hc, List.lookup_append, lookup_singleton]

/-- Lookup in the index built from records: what was there before, else the entry of
the first record with that name. -/
theorem lookup_insertRecords (u : Indeterminate) :
    ∀ (recs : List HeaderRecord) (h : BoostHash BUGS_entryData) (p : StdString),
      List.lookup p (insertRecords u h recs)
        = (List.lookup p h).or
            ((recs.find? (fun r => decide (r.fileName = p))).map (fun r => r.toEntry u)) := by
  intro recs
  induction recs with
  | nil =>
    intro h p
    simp [insertRecords]
  | cons r rs ih =>
    intro h p
    simp only [insertRecords, ih, lookup_insert, List.find?_cons]
    cases hl : List.lookup p h with
    | some e => simp
    | none =>
      by_cases hp : r.fileName = p
      · simp [hp]
      · have hp2 : ¬ p = r.fileName := fun h => hp h.symm
        simp [hp, hp2]

theorem find_of_pairwise :
    ∀ (recs : List HeaderRecord), recs.Pairwise (fun a b => a.fileName ≠ b.fileName) →
      ∀ r ∈ recs, recs.find? (fun x => decide (x.fileName = r.fileName)) = some r := by
  intro recs
  induction recs with
  | nil => intro _ r hr; simp at hr
  | cons a as ih =>
    intro hp r hr
    rw [List.pairwise_cons] at hp
    rcases List.mem_cons.1 hr with h | h
    · subst h
      simp [List.find?_cons]
    · have hne : a.fileName ≠ r.fileName := hp.1 r h
      rw [List.find?_cons]
      simp only [hne, decide_False]
      exact ih hp.2 r h

/-- The keys of the index built from records are the names of the records. -/
theorem contains_insertRecords (u : Indeterminate) (recs : List HeaderRecord) (p : StdString) :
    BoostHash.contains (insertRecords u [] recs) p = true ↔ ∃ r ∈ recs, r.fileName = p := by
  unfold BoostHash.contains
  rw [lookup_insertRecords, List.lookup_nil, Option.none_or, Option.isSome_map',
    List.find?_isSome]
  simp

/-- C12. Header parse round trip: for every non-empty password and every list of
records with pairwise distinct paths (32-bit fields, non-zero offset, a name of at
most 511 non-NUL bytes), parsing the 8-byte fixed header followed by the records in
the wire format and an encoded zero offset succeeds, consumes the whole stream, and
leaves a file index that maps each record's path to an entry with that record's
offset, size = fileSize, startMagic and patchVersion, and has no other key. -/
theorem C12_header_round_trip (password : List Nat) (keyMultiplier keyAdditive : Int)
    (u : Indeterminate) (fileName head : List Nat) (recs : List HeaderRecord)
    (hpos : 0 < password.length) (hlt : password.length < 2147483648)
    (hb : ∀ c ∈ password, c < 256)
    (hhead : head.length = 8) (hf : fileName.length = 512)
    (hwf : ∀ r ∈ recs, r.WellFormed)
    (hdistinct : recs.Pairwise (fun a b => a.fileName ≠ b.fileName)) :
    ∃ d, BUGS_openMetaArchive (head ++ encodeRecords password 0 recs) password
          keyMultiplier keyAdditive u fileName = .built d []
      ∧ (∀ r ∈ recs, ∃ e, List.lookup r.fileName d.entryHash = some e
          ∧ e.offset = r.offset ∧ e.size = r.fileSize
          ∧ e.startMagic = r.startMagic ∧ e.patchVersion = r.patchVersion)
      ∧ (∀ p, d.entryHash.contains p = true → ∃ r ∈ recs, r.fileName = p) := by
  have hparse := BUGS_openMetaArchive_encoded password keyMultiplier keyAdditive u fileName
    head [] recs hpos hlt hb hhead hf hwf
  rw [List.append_nil] at hparse
  refine ⟨_, hparse, ?_, ?_⟩
  · intro r hr
    refine ⟨r.toEntry u, ?_, rfl, rfl, rfl, rfl⟩
    rw [afterRecords_entryHash, lookup_insertRecords, find_of_pairwise recs hdistinct r hr]
    rfl
  · intro p hp
    rw [afterRecords_entryHash] at hp
    exact (contains_insertRecords u recs p).1 hp

/-- C16. A zero offset terminates the record stream: on an index region made of stored
records (decodable: non-zero offsets, names of at most 511 non-NUL bytes), then a
field that decodes to offset 0, then any bytes at all, the parse succeeds, leaves the
stream right behind the zero field (no byte after it is read), and the file index is
the one built from the records before it: its keys are exactly their paths, and
nothing is inserted for the terminator. -/
theorem C16_zero_offset_terminates (password : List Nat) (keyMultiplier keyAdditive : Int)
    (u : Indeterminate) (fileName head tail : List Nat) (recs : List HeaderRecord)
    (hpos : 0 < password.length) (hlt : password.length < 2147483648)
    (hb : ∀ c ∈ password, c < 256)
    (hhead : head.length = 8) (hf : fileName.length = 512)
    (hwf : ∀ r ∈ recs, r.WellFormed) :
    ∃ d, BUGS_openMetaArchive (head ++ (encodeRecords password 0 recs ++ tail)) password
          keyMultiplier keyAdditive u fileName = .built d tail
      ∧ d.entryHash = insertRecords u [] recs
      ∧ (∀ p, d.entryHash.contains p = true ↔ ∃ r ∈ recs, r.fileName = p)
      ∧ d.entryHash.length ≤ recs.length := by
  have hparse := BUGS_openMetaArchive_encoded password keyMultiplier keyAdditive u fileName
    head tail recs hpos hlt hb hhead hf hwf
  refine ⟨_, hparse, afterRecords_entryHash u recs _ _ _, ?_, ?_⟩
  · intro p
    rw [afterRecords_entryHash]
    exact contains_insertRecords u recs p
  · rw [afterRecords_entryHash]
    have hlen : ∀ (rs : List HeaderRecord) (h : BoostHash BUGS_entryData),
        (insertRecords u h rs).length ≤ h.length + rs.length := by
      intro rs
      induction rs with
      | nil => intro h; simp [insertRecords]
      | cons r rs ih =>
        intro h
        have h1 := ih (h.insert r.fileName (r.toEntry u))
        have h2 : (h.insert r.fileName (r.toEntry u)).length ≤ h.length + 1 := by
          unfold BoostHash.insert
          split <;> simp
        simp only [insertRecords, List.length_cons]
        omega
    have := hlen recs []
    simpa using this

/-! ## Header parser: truncated streams -/

theorem encodeUint32_length (password : List Nat) (j value : Nat) :
    (encodeUint32 password j value).length = 4 := rfl

theorem encodeRecord_length (password : List Nat) (j : Nat) (r : HeaderRecord) :
    (encodeRecord password j r).length = 24 + r.fileName.length := by
  simp only [encodeRecord, List.length_append, encodeUint32_length, encodeName_length]

/-- A guarded field read on a stream cut after `m` bytes: with fewer than four bytes
left the parse goes to `error`, otherwise the field is decoded. -/
theorem guard_field_truncated (password : List Nat) (d : BUGS_archiveData) (j : Nat)
    (hk : KeyState password d j) (value : Nat) (hv : value < 4294967296)
    (rest buff : List Nat) (result m : Nat)
    (next : Nat × BUGS_archiveData × List Nat → MetaArchive) :
    MetaArchive.guard
        (readUint32AndXor d ((encodeUint32 password j value ++ rest).take m) buff result) next
      = if m < 4 then .deleted
        else next (value, { d with keyIndex := (d.keyIndex + 1) % UINT32_MOD },
                    rest.take (m - 4)) := by
  by_cases hm : m < 4
  · rw [if_pos hm]
    have hshort : ((encodeUint32 password j value ++ rest).take m).length < 4 := by
      rw [List.length_take]
      omega
    obtain ⟨x, hx⟩ := readUint32AndXor_short d _ buff result hshort
    rw [hx]
    rfl
  · rw [if_neg hm]
    have htake : (encodeUint32 password j value ++ rest).take m
        = encodeUint32 password j value ++ rest.take (m - 4) := by
      rw [List.take_append_eq_append_take, encodeUint32_length,
        List.take_of_length_le (by rw [encodeUint32_length]; omega)]
    rw [htake, readUint32AndXor_encode password d j hk value hv]
    rfl

theorem loop_empty (u : Indeterminate) (fuel : Nat) (d : BUGS_archiveData)
    (fileName : List Nat) (v : HeaderLocals) :
    BUGS_openMetaArchive.loop u (fuel + 1) d [] fileName v = .deleted := by
  rw [BUGS_openMetaArchive.loop]
  obtain ⟨x, hx⟩ := readUint32AndXor_short d [] u.buff v.offset (by simp)
  rw [hx]
  rfl

/-- The parse loop on a stored record cut anywhere before its end, in one of the six
fields or in the name bytes: it goes to `error`. -/
theorem loop_truncated_record (password : List Nat) (u : Indeterminate) (fuel : Nat)
    (d : BUGS_archiveData) (j : Nat) (hk : KeyState password d j)
    (r : HeaderRecord) (hr : r.WellFormed) (fileName : List Nat)
    (hf : fileName.length = 512) (v : HeaderLocals) (m : Nat)
    (hm : m < 24 + r.fileName.length) (hfuel : m < fuel) :
    BUGS_openMetaArchive.loop u fuel d ((encodeRecord password j r).take m) fileName v
      = .deleted := by
  obtain ⟨hpos, h1, h2, h3, h4, h5, hlen, hname⟩ := hr
  obtain ⟨fuel, rfl⟩ := Nat.exists_eq_succ_of_ne_zero (by omega : fuel ≠ 0)
  have k1 := KeyState_step password _ _ hk
  have k2 := KeyState_step password _ _ k1
  have k3 := KeyState_step password _ _ k2
  have k4 := KeyState_step password _ _ k3
  have k5 := KeyState_step password _ _ k4
  have k6 := KeyState_step password _ _ k5
  have e1 := fun rest m next =>
    guard_field_truncated password _ _ hk r.offset h1 rest u.buff v.offset m next
  have e2 := fun rest m next =>
    guard_field_truncated password _ _ k1 r.patchVersion h2 rest u.buff v.patchVersion m next
  have e3 := fun rest m next =>
    guard_field_truncated password _ _ k2 r.checksum h3 rest u.buff v.checksum m next
  have e4 := fun rest m next =>
    guard_field_truncated password _ _ k3 r.fileSize h4 rest u.buff v.fileSize m next
  have e5 := fun rest m next =>
    guard_field_truncated password _ _ k4 r.startMagic h5 rest u.buff v.magicKey m next
  have e6 := fun rest m next =>
    guard_field_truncated password _ _ k5 r.fileName.length (by omega) rest u.buff
      v.fileNameLen m next
  have hoff : ¬ r.offset ≤ 0 := by omega
  have hint : toInt32 r.fileName.length = (r.fileName.length : Int) :=
    toInt32_small _ (by omega)
  unfold encodeRecord
  simp only [List.append_assoc]
  rw [BUGS_openMetaArchive.loop]
  simp only [e1, e2, e3, e4, e5, e6, hoff, if_false, hint]
  by_cases c1 : m < 4
  · simp only [c1, if_true]
  by_cases c2 : m - 4 < 4
  · simp only [c1, c2, if_true, if_false]
  by_cases c3 : m - 4 - 4 < 4
  · simp only [c1, c2, c3, if_true, if_false]
  by_cases c4 : m - 4 - 4 - 4 < 4
  · simp only [c1, c2, c3, c4, if_true, if_false]
  by_cases c5 : m - 4 - 4 - 4 - 4 < 4
  · simp only [c1, c2, c3, c4, c5, if_true, if_false]
  by_cases c6 : m - 4 - 4 - 4 - 4 - 4 < 4
  · simp only [c1, c2, c3, c4, c5, c6, if_true, if_false]
  simp only [c1, c2, c3, c4, c5, c6, if_false]
  rw [decryptAndReadString_eq password _ _ k6 _ fileName r.fileName.length (by omega)]
  simp only [MetaArchive.guard]
  have hdrop : List.drop r.fileName.length
      (List.take (m - 4 - 4 - 4 - 4 - 4 - 4) (encodeName password (j + 5 + 1) r.fileName))
      = [] := by
    apply List.drop_eq_nil_of_le
    rw [List.length_take]
    omega
  rw [hdrop]
  obtain ⟨fuel, rfl⟩ := Nat.exists_eq_succ_of_ne_zero (by omega : fuel ≠ 0)
  exact loop_empty u fuel _ _ _

/-- The parse loop on a stored index region (well-formed records and the zero offset)
cut anywhere before its end: it goes to `error`. -/
theorem loop_truncated (password : List Nat) (u : Indeterminate) :
    ∀ (recs : List HeaderRecord) (fuel : Nat) (d : BUGS_archiveData) (j : Nat)
      (fileName : List Nat) (v : HeaderLocals) (m : Nat),
      KeyState password d j → fileName.length = 512 → (∀ r ∈ recs, r.WellFormed) →
      m < (encodeRecords password j recs).length → m < fuel →
      BUGS_openMetaArchive.loop u fuel d ((encodeRecords password j recs).take m) fileName v
        = .deleted := by
  intro recs
  induction recs with
  | nil =>
    intro fuel d j fileName v m hk _ _ hm hfuel
    obtain ⟨fuel, rfl⟩ := Nat.exists_eq_succ_of_ne_zero (by omega : fuel ≠ 0)
    simp only [encodeRecords, encodeUint32_length] at hm ⊢
    rw [BUGS_openMetaArchive.loop]
    have h := guard_field_truncated password d j hk 0 (by decide) [] u.buff v.offset m
    simp only [List.append_nil] at h
    rw [h, if_pos hm]
  | cons r rs ih =>
    intro fuel d j fileName v m hk hf hwf hm hfuel
    have hr := hwf r (List.mem_cons_self _ _)
    simp only [encodeRecords, List.length_append, encodeRecord_length] at hm ⊢
    by_cases hcut : m < 24 + r.fileName.length
    · have htake : (encodeRecord password j r
          ++ encodeRecords password (j + 6 + r.fileName.length) rs).take m
          = (encodeRecord password j r).take m := by
        rw [List.take_append_of_le_length (by rw [encodeRecord_length]; omega)]
      rw [htake]
      exact loop_truncated_record password u fuel d j hk r hr fileName hf v m hcut hfuel
    · have htake : (encodeRecord password j r
          ++ encodeRecords password (j + 6 + r.fileName.length) rs).take m
          = encodeRecord password j r
            ++ (encodeRecords password (j + 6 + r.fileName.length) rs).take
                (m - (24 + r.fileName.length)) := by
        rw [List.take_append_eq_append_take, encodeRecord_length,
          List.take_of_length_le (by rw [encodeRecord_length]; omega)]
      obtain ⟨fuel, rfl⟩ := Nat.exists_eq_succ_of_ne_zero (by omega : fuel ≠ 0)
      rw [htake, loop_record password u fuel d j hk r hr _ fileName hf v]
      exact ih fuel _ _ _ _ _ (KeyState_afterRecord password u d fileName j r hk)
        (afterRecord_length u d fileName j r hf hr.2.2.2.2.2.2.1)
        (fun x hx => hwf x (List.mem_cons_of_mem _ hx)) (by omega) (by omega)

/-- The whole archive cut anywhere before the end of its index region: the parse goes
to `error` and deletes the archive data. -/
theorem BUGS_openMetaArchive_truncated (password : List Nat) (keyMultiplier keyAdditive : Int)
    (u : Indeterminate) (fileName head : List Nat) (recs : List HeaderRecord)
    (hpos : 0 < password.length) (hlt : password.length < 2147483648)
    (hb : ∀ c ∈ password, c < 256)
    (hhead : head.length = 8) (hf : fileName.length = 512)
    (hwf : ∀ r ∈ recs, r.WellFormed) (m : Nat)
    (hm : m < 8 + (encodeRecords password 0 recs).length) :
    BUGS_openMetaArchive ((head ++ encodeRecords password 0 recs).take m) password
        keyMultiplier keyAdditive u fileName = .deleted := by
  unfold BUGS_openMetaArchive
  have hdrop : ((head ++ encodeRecords password 0 recs).take m).drop 8
      = (encodeRecords password 0 recs).take (m - 8) := by
    rw [List.drop_take, List.drop_left' hhead]
  simp only [hdrop]
  have hge := encodeRecords_length_ge password recs 0
  apply loop_truncated password u recs _ _ 0 fileName u.locals (m - 8)
    (KeyState_init password keyMultiplier keyAdditive hpos hlt hb) hf hwf (by omega)
  rw [List.length_take]
  omega

theorem getD_encodeName (password : List Nat) :
    ∀ (bs : List Nat) (j i : Nat), i < bs.length →
      (encodeName password j bs).getD i 0 = (bs.getD i 0 ^^^ keyChar password (j + i)) % 256 := by
  intro bs
  induction bs with
  | nil => intro j i hi; simp at hi
  | cons b bs ih =>
    intro j i hi
    cases i with
    | zero => simp [encodeName]
    | succ i =>
      simp only [encodeName, List.getD_cons_succ]
      rw [ih (j + 1) i (by simpa using hi)]
      have : j + 1 + i = j + (i + 1) := by omega
      rw [this]

/-- The name bytes a string read leaves in the buffer: byte `i` is the stream byte XOR
the password character of decode operation `j + i`. -/
theorem decryptAndReadString_bytes (password : List Nat) (d : BUGS_archiveData) (j : Nat)
    (hk : KeyState password d j) (io buffer : List Nat) (n : Nat)
    (hn : n < buffer.length) (hio : n ≤ io.length) :
    ∃ buf, decryptAndReadString d io buffer (n : Int)
        = some (true, buf, { d with keyIndex := keyIndexAt (j + n) }, io.drop n)
      ∧ (∀ i, i < n → buf.getD i 0 = (io.getD i 0 ^^^ keyChar password (j + i)) % 256)
      ∧ buf.getD n 0 = 0 := by
  have hlen : (io.take n).length = n := by rw [List.length_take]; omega
  have hB : (memcpyInto buffer (io.take n)).take n = io.take n := by
    unfold memcpyInto
    exact List.take_left' hlen
  have hM : memcpyInto (memcpyInto buffer (io.take n)) (encodeName password j (io.take n))
      = encodeName password j (io.take n) ++ buffer.drop n := by
    unfold memcpyInto
    rw [encodeName_length, hlen, List.drop_left' hlen]
  have hE : (encodeName password j (io.take n)).length = n := by
    rw [encodeName_length, hlen]
  refine ⟨(encodeName password j (io.take n) ++ buffer.drop n).set n 0, ?_, ?_, ?_⟩
  · rw [decryptAndReadString_eq password d j hk io buffer n hn, hB, hlen, hM]
  · intro i hi
    rw [List.getD_eq_getElem?_getD, List.getElem?_set, if_neg (by omega),
      ← List.getD_eq_getElem?_getD, List.getD_append _ _ _ _ (by omega),
      getD_encodeName password _ j i (by omega)]
    congr 2
    rw [List.getD_eq_getElem?_getD, List.getD_eq_getElem?_getD, List.getElem?_take_of_lt hi]
  · rw [List.getD_eq_getElem?_getD, List.getElem?_set]
    simp only [List.length_append, hE, List.length_drop, if_true]
    rw [if_pos (by omega)]
    rfl

/-- C13. Header key schedule: with a password of length L >= 1, the running key index
starts at 2^32 - 1; at decode operation `j` it is `(2^32 - 1 + j) mod 2^32`; a decoded
32-bit field is XORed once, as a whole, with the password character at that index
mod L (its value as an `int`, converted to 32 bits) and moves the index on by one; a
name of `n` bytes has byte `i` XORed with the character of operation `j + i` and moves
the index on by `n`; the directory builder, which runs between records, leaves the
index alone. -/
theorem C13_key_schedule (password : List Nat) (d : BUGS_archiveData) (j : Nat)
    (keyMultiplier keyAdditive : Int)
    (hpassword : d.password = password) (hlength : d.passwordLength = (password.length : Int))
    (hpos : 1 ≤ password.length) (hlt : password.length < 2147483648)
    (hb : ∀ c ∈ password, c < 256)
    (hindex : d.keyIndex = (4294967295 + j) % 4294967296) :
    (BUGS_openMetaArchive.init password keyMultiplier keyAdditive).keyIndex = 4294967295
    ∧ (∀ b0 b1 b2 b3 : Nat, ∀ rest buff : List Nat, ∀ result : Nat,
        b0 < 256 → b1 < 256 → b2 < 256 → b3 < 256 →
        readUint32AndXor d (b0 :: b1 :: b2 :: b3 :: rest) buff result
          = some (true,
              (b0 + 2 ^ 8 * b1 + 2 ^ 16 * b2 + 2 ^ 24 * b3)
                ^^^ toUint32 (charToInt
                      (password.getD (((4294967295 + j) % 4294967296) % password.length) 0)),
              { d with keyIndex := (4294967295 + (j + 1)) % 4294967296 }, rest))
    ∧ (∀ (io buffer : List Nat) (n : Nat), n < buffer.length → n ≤ io.length →
        ∃ buf, decryptAndReadString d io buffer (n : Int)
            = some (true, buf,
                { d with keyIndex := (4294967295 + (j + n)) % 4294967296 }, io.drop n)
          ∧ ∀ i, i < n →
              buf.getD i 0
                = (io.getD i 0
                    ^^^ password.getD
                          (((4294967295 + (j + i)) % 4294967296) % password.length) 0) % 256)
    ∧ (∀ (nameBuf : List Nat) (nameLen : Nat),
        (processDirectories d nameBuf nameLen).1.keyIndex = d.keyIndex) := by
  have hk : KeyState password d j := ⟨hpassword, hlength, hpos, hlt, hb, hindex⟩
  refine ⟨(by decide : toUint32 (-1) = 4294967295), ?_, ?_, fun _ _ => rfl⟩
  · intro b0 b1 b2 b3 rest buff result h0 h1 h2 h3
    rw [readUint32AndXor_four password d j hk b0 b1 b2 b3 rest buff result h0 h1 h2 h3]
    have := keyIndexAt_succ j
    rw [hindex]
    exact congrArg some (by
      refine Prod.ext rfl (Prod.ext rfl (Prod.ext ?_ rfl))
      show ({ d with keyIndex := (keyIndexAt j + 1) % UINT32_MOD } : BUGS_archiveData)
        = { d with keyIndex := keyIndexAt (j + 1) }
      rw [this])
  · intro io buffer n hn hio
    obtain ⟨buf, h1, h2, _⟩ := decryptAndReadString_bytes password d j hk io buffer n hn hio
    exact ⟨buf, h1, h2⟩

theorem zeroFileName_length : zeroFileName.length = 512 := List.length_replicate _ _

/-- C12, at a concrete input: the password `key` and the three sample records. -/
theorem C12_header_round_trip_witness :
    ∃ d, BUGS_openMetaArchive (sampleHead ++ encodeRecords samplePassword 0 sampleRecords)
          samplePassword 7 3 sampleIndeterminate zeroFileName = .built d []
      ∧ (∀ r ∈ sampleRecords, ∃ e, List.lookup r.fileName d.entryHash = some e
          ∧ e.offset = r.offset ∧ e.size = r.fileSize
          ∧ e.startMagic = r.startMagic ∧ e.patchVersion = r.patchVersion)
      ∧ (∀ p, d.entryHash.contains p = true → ∃ r ∈ sampleRecords, r.fileName = p) :=
  C12_header_round_trip samplePassword 7 3 sampleIndeterminate zeroFileName sampleHead
    sampleRecords (by decide) (by decide) (by decide) (by decide) zeroFileName_length
    (by decide) (by decide)

/-- C13, at a concrete input: the first decode operation of a parse with the password
`ab` uses index `(2^32 - 1) mod 2 = 1`, the character `b` (98), and moves the index
to 0. -/
theorem C13_key_schedule_witness :
    readUint32AndXor (BUGS_openMetaArchive.init shortPassword 7 3) [16, 0, 0, 0] [1, 2, 3, 4] 5
      = some (true, 16 ^^^ 98,
          { BUGS_openMetaArchive.init shortPassword 7 3 with keyIndex := 0 }, []) :=
  (C13_key_schedule shortPassword (BUGS_openMetaArchive.init shortPassword 7 3) 0 7 3 rfl rfl
    (by decide) (by decide) (by decide) (by decide)).2.1 16 0 0 0 [] [1, 2, 3, 4] 5
    (by decide) (by decide) (by decide) (by decide)

/-- C14, the claim as stated fails at the first field of a parse with the password
`ab`: the raw bytes `10 00 00 00` decode to `0x10 XOR 'b'` = 114; the value with the
extra XOR against `password[0]` = `a` would be 19. -/
theorem C14_first_field_has_no_extra_xor :
    (readUint32AndXor (BUGS_openMetaArchive.init shortPassword 7 3) [16, 0, 0, 0]
        [1, 2, 3, 4] 5).map (fun r => r.2.1) = some 114
    ∧ (BUGS_openMetaArchive.init shortPassword 7 3).keyIndex % shortPassword.length = 1
    ∧ 16 ^^^ shortPassword.getD 1 0 = 114
    ∧ 16 ^^^ shortPassword.getD 0 0 ^^^ shortPassword.getD 1 0 = 19 := by
  refine ⟨?_, by decide, by decide, by decide⟩
  rw [readUint32AndXor_four shortPassword _ 0
    (KeyState_init shortPassword 7 3 (by decide) (by decide) (by decide))
    16 0 0 0 [] [1, 2, 3, 4] 5 (by decide) (by decide) (by decide) (by decide)]
  decide

/-- C14, amended. Every header field, the first included, decodes to the little-endian
value of its four bytes XOR the password character of the running index, and to
nothing else: the XOR against `password[0]` that `readUint32AndXor` applies to
`result` before the read is overwritten by the read, so the outcome is the same
whatever `result` held. -/
theorem C14_fields_decode_with_running_index_only (password : List Nat)
    (d : BUGS_archiveData) (j : Nat) (hk : KeyState password d j)
    (b0 b1 b2 b3 : Nat) (rest buff : List Nat) (result result2 : Nat)
    (h0 : b0 < 256) (h1 : b1 < 256) (h2 : b2 < 256) (h3 : b3 < 256) :
    (readUint32AndXor d (b0 :: b1 :: b2 :: b3 :: rest) buff result).map (fun r => r.2.1)
      = some ((b0 + 2 ^ 8 * b1 + 2 ^ 16 * b2 + 2 ^ 24 * b3)
                ^^^ toUint32 (charToInt (keyChar password j)))
    ∧ readUint32AndXor d (b0 :: b1 :: b2 :: b3 :: rest) buff result
        = readUint32AndXor d (b0 :: b1 :: b2 :: b3 :: rest) buff result2 := by
  rw [readUint32AndXor_four password d j hk b0 b1 b2 b3 rest buff result h0 h1 h2 h3,
    readUint32AndXor_four password d j hk b0 b1 b2 b3 rest buff result2 h0 h1 h2 h3]
  exact ⟨rfl, rfl⟩

/-- C14 amended, at a concrete input: the first field of a parse with the password
`ab`. -/
theorem C14_fields_decode_witness :
    (readUint32AndXor (BUGS_openMetaArchive.init shortPassword 7 3) [16, 0, 0, 0]
        [1, 2, 3, 4] 5).map (fun r => r.2.1)
      = some ((16 + 2 ^ 8 * 0 + 2 ^ 16 * 0 + 2 ^ 24 * 0)
                ^^^ toUint32 (charToInt (keyChar shortPassword 0)))
    ∧ readUint32AndXor (BUGS_openMetaArchive.init shortPassword 7 3) [16, 0, 0, 0]
          [1, 2, 3, 4] 5
        = readUint32AndXor (BUGS_openMetaArchive.init shortPassword 7 3) [16, 0, 0, 0]
          [1, 2, 3, 4] 4294967295 :=
  C14_fields_decode_with_running_index_only shortPassword _ 0
    (KeyState_init shortPassword 7 3 (by decide) (by decide) (by decide))
    16 0 0 0 [] [1, 2, 3, 4] 5 4294967295 (by decide) (by decide) (by decide) (by decide)

/-- C15. Little-endian field decoding: for every four bytes `b0..b3` (0..255 each, also
those from 0x80 on, negative in a signed `char`) that the stream returns, `readUint32`
yields `b0 + 2^8 b1 + 2^16 b2 + 2^24 b3`; and on every stream it reports success
exactly when the underlying read returned 4 bytes. -/
theorem C15_readUint32_little_endian (b0 b1 b2 b3 : Nat) (rest buff : List Nat) (result : Nat)
    (h0 : b0 < 256) (h1 : b1 < 256) (h2 : b2 < 256) (h3 : b3 < 256) :
    readUint32 (b0 :: b1 :: b2 :: b3 :: rest) buff result
      = (true, b0 + 2 ^ 8 * b1 + 2 ^ 16 * b2 + 2 ^ 24 * b3, rest)
    ∧ ∀ io : List Nat,
        ((readUint32 io buff result).1 = true ↔ (io.take 4).length = 4) := by
  refine ⟨readUint32_four b0 b1 b2 b3 rest buff result h0 h1 h2 h3, ?_⟩
  intro io
  rw [readUint32_flag, List.length_take]
  omega

/-- C15, at a concrete input: the bytes `80 ff 7f 81`, three of them negative as
`char`. -/
theorem C15_readUint32_little_endian_witness :
    readUint32 [128, 255, 127, 129, 9] [1, 2, 3, 4] 5 = (true, 2172649344, [9]) :=
  (C15_readUint32_little_endian 128 255 127 129 [9] [1, 2, 3, 4] 5 (by decide) (by decide)
    (by decide) (by decide)).1

/-- C16, at a concrete input: the three sample records, the zero offset, and three more
bytes that stay unread. -/
theorem C16_zero_offset_terminates_witness :
    ∃ d, BUGS_openMetaArchive
          (sampleHead ++ (encodeRecords samplePassword 0 sampleRecords ++ [1, 2, 3]))
          samplePassword 7 3 sampleIndeterminate zeroFileName = .built d [1, 2, 3]
      ∧ d.entryHash = insertRecords sampleIndeterminate [] sampleRecords
      ∧ (∀ p, d.entryHash.contains p = true ↔ ∃ r ∈ sampleRecords, r.fileName = p)
      ∧ d.entryHash.length ≤ sampleRecords.length :=
  C16_zero_offset_terminates samplePassword 7 3 sampleIndeterminate zeroFileName sampleHead
    [1, 2, 3] sampleRecords (by decide) (by decide) (by decide) (by decide)
    zeroFileName_length (by decide)

/-- C17. A malformed header is all-or-nothing: an archive whose index region is cut
anywhere before the terminating zero offset has been stored in full (inside one of
the six 32-bit fields of a record, inside its file-name bytes, between two records,
or inside the 8-byte fixed header) makes the parse go to `error`, which deletes the
whole archive data, file entries and directory entries inserted so far included: no
index is left. The records are decodable (names of at most 511 non-NUL bytes) and
the password is non-empty. -/
theorem C17_truncated_header_is_discarded (password : List Nat)
    (keyMultiplier keyAdditive : Int)
    (u : Indeterminate) (fileName head : List Nat) (recs : List HeaderRecord)
    (hpos : 0 < password.length) (hlt : password.length < 2147483648)
    (hb : ∀ c ∈ password, c < 256)
    (hhead : head.length = 8) (hf : fileName.length = 512)
    (hwf : ∀ r ∈ recs, r.WellFormed) (m : Nat)
    (hm : m < (head ++ encodeRecords password 0 recs).length) :
    BUGS_openMetaArchive ((head ++ encodeRecords password 0 recs).take m) password
        keyMultiplier keyAdditive u fileName = .deleted :=
  BUGS_openMetaArchive_truncated password keyMultiplier keyAdditive u fileName head recs
    hpos hlt hb hhead hf hwf m (by rw [List.length_append, hhead] at hm; exact hm)

/-- C17, at a concrete input: the sample archive cut after 37 bytes, inside the name of
its first record. -/
theorem C17_truncated_header_witness :
    BUGS_openMetaArchive
        ((sampleHead ++ encodeRecords samplePassword 0 sampleRecords).take 37)
        samplePassword 7 3 sampleIndeterminate zeroFileName = .deleted :=
  C17_truncated_header_is_discarded samplePassword 7 3 sampleIndeterminate zeroFileName
    sampleHead sampleRecords (by decide) (by decide) (by decide) (by decide)
    zeroFileName_length (by decide) 37 (by decide)

/-- The entry the parser inserts never carries the record's checksum: it keeps what
the uninitialised local `entry` held. -/
theorem toEntry_checksum (u : Indeterminate) (r : HeaderRecord) :
    (r.toEntry u).checksum = u.entry.checksum := rfl

/-- C18, at the failing input (the three sample records, the first with checksum
4660, parsed while the uninitialised local `entry` holds checksum 77): the parse
succeeds and the entry inserted for `a/b/c.txt` has checksum 77; `entry.checksum` is
never assigned. -/
theorem C18_checksum_is_not_stored :
    ∃ d, BUGS_openMetaArchive (sampleHead ++ encodeRecords samplePassword 0 sampleRecords)
          samplePassword 7 3 sampleIndeterminate zeroFileName = .built d []
      ∧ (List.lookup [97, 47, 98, 47, 99, 46, 116, 120, 116] d.entryHash).map
          (fun e => (e.offset, e.checksum)) = some (100, 77)
      ∧ (sampleRecords.map (fun r => r.checksum)).head? = some 4660 := by
  have hparse := BUGS_openMetaArchive_encoded samplePassword 7 3 sampleIndeterminate
    zeroFileName sampleHead [] sampleRecords (by decide) (by decide) (by decide) (by decide)
    zeroFileName_length (by decide)
  rw [List.append_nil] at hparse
  refine ⟨_, hparse, ?_, by decide⟩
  rw [afterRecords_entryHash, lookup_insertRecords]
  decide

/-- C20. `BUGS_openRead` returns a stream exactly when the file index contains the
path and that entry's patch version equals the mount's tag, and fails otherwise; a
returned stream is a handle on that entry with `currentOffset` 0, `currentMagic` the
entry's `startMagic`, a duplicate of the mount's archive stream, and length the
entry's size. -/
theorem C20_openRead (patchData : BUGS_patchData) (filename : StdString) :
    ((BUGS_openRead patchData filename).isSome = true
      ↔ ∃ e, List.lookup filename patchData.data.entryHash = some e
          ∧ e.patchVersion = patchData.patchVersion)
    ∧ ∀ h, BUGS_openRead patchData filename = some h →
        List.lookup filename patchData.data.entryHash = some h.data
        ∧ h.data.patchVersion = patchData.patchVersion
        ∧ h.currentOffset = 0
        ∧ BUGS_ioTell h = 0
        ∧ h.currentMagic = h.data.startMagic
        ∧ h.io = patchData.archiveIo
        ∧ BUGS_ioLength h = toSint64 h.data.size
        ∧ (h.data.size < 2 ^ 63 → BUGS_ioLength h = (h.data.size : Int)) := by
  cases hl : List.lookup filename patchData.data.entryHash with
  | none =>
    have hopen : BUGS_openRead patchData filename = none := by
      simp [BUGS_openRead, BoostHash.contains, BoostHash.value, hl]
    rw [hopen]
    simp
  | some e =>
    by_cases hv : e.patchVersion = patchData.patchVersion
    · have hopen : BUGS_openRead patchData filename
          = some (BUGS_entryHandle.ctor e patchData.archiveIo) := by
        simp [BUGS_openRead, BoostHash.contains, BoostHash.value, hl, hv]
      rw [hopen]
      refine ⟨⟨fun _ => ⟨e, rfl, hv⟩, fun _ => rfl⟩, ?_⟩
      intro h hh
      have hh2 : BUGS_entryHandle.ctor e patchData.archiveIo = h := Option.some.inj hh
      subst hh2
      refine ⟨rfl, hv, rfl, rfl, rfl, rfl, rfl, ?_⟩
      intro hsz
      show toSint64 e.size = _
      have hsz2 : e.size < 2 ^ 63 := hsz
      unfold toSint64 UINT64_MOD
      have h2 : e.size % 18446744073709551616 = e.size := by omega
      rw [h2, if_pos (by omega)]
      rfl
    · have hopen : BUGS_openRead patchData filename = none := by
        simp [BUGS_openRead, BoostHash.contains, BoostHash.value, hl, hv]
      rw [hopen]
      simp [hv]

/-- C20, at a concrete input: on the mount tagged 1 over the sample index, `e.txt`
(version 1) opens and `a/d.txt` (version 2) does not. -/
theorem C20_openRead_witness :
    (BUGS_openRead sampleMount [101, 46, 116, 120, 116]).isSome = true
    ∧ (BUGS_openRead sampleMount [97, 47, 100, 46, 116, 120, 116]).isSome = false
    ∧ (BUGS_openRead sampleMount [120]).isSome = false :=
  ⟨(C20_openRead sampleMount [101, 46, 116, 120, 116]).1.2
      ⟨{ offset := 124, patchVersion := 1, checksum := 77, size := 0, startMagic := 9 },
        rfl, rfl⟩,
    by decide, by decide⟩

/-! ## Directory tree builder -/

theorem lookup_map_values {V : Type} (f : StdString → V → V) (p : StdString) :
    ∀ h : BoostHash V,
      List.lookup p (h.map (fun kv => (kv.1, f kv.1 kv.2))) = (List.lookup p h).map (f p) := by
  intro h
  induction h with
  | nil => rfl
  | cons kv rest ih =>
    obtain ⟨k, v⟩ := kv
    simp only [List.map_cons, List.lookup_cons]
    by_cases hp : p = k
    · subst hp
      simp
    · have hb : (p == k) = false := by simpa using hp
      simp only [hb]
      exact ih

theorem mem_BoostSet_insert (s : BoostSet) (e name : StdString) :
    name ∈ BoostSet.insert s e ↔ name = e ∨ name ∈ s := by
  unfold BoostSet.insert
  by_cases h : e ∈ s
  · rw [if_pos h]
    constructor
    · intro hn; exact Or.inr hn
    · rintro (rfl | hn)
      · exact h
      · exact hn
  · rw [if_neg h, List.mem_append, List.mem_singleton]
    tauto

/-- The child sets after one insertion: the child is added to its directory, every
other set stays. -/
theorem mem_children_insertChild (h : BoostHash BoostSet) (dir e dir2 name : StdString) :
    name ∈ (h.insertChild dir e).children dir2
      ↔ (dir2 = dir ∧ name = e) ∨ name ∈ h.children dir2 := by
  unfold BoostHash.insertChild BoostHash.children BoostHash.contains
  by_cases hc : (List.lookup dir h).isSome = true
  · rw [if_pos hc]
    have hmap : h.map (fun kv => if kv.1 = dir then (kv.1, BoostSet.insert kv.2 e) else kv)
        = h.map (fun kv => (kv.1,
            (fun k s => if k = dir then BoostSet.insert s e else s) kv.1 kv.2)) := by
      apply List.map_congr_left
      intro kv _
      by_cases hk : kv.1 = dir <;> simp [hk]
    rw [hmap, lookup_map_values (fun k s => if k = dir then BoostSet.insert s e else s) dir2 h]
    cases hl : List.lookup dir2 h with
    | none =>
      have hne : dir2 ≠ dir := by
        intro heq
        rw [heq] at hl
        rw [hl] at hc
        exact absurd hc (by simp)
      simp [hne]
    | some s =>
      by_cases hd : dir2 = dir
      · simp [hd, mem_BoostSet_insert]
      · simp [hd]
  · rw [if_neg hc, List.lookup_append, lookup_singleton]
    cases hl : List.lookup dir2 h with
    | none =>
      by_cases hd : dir2 = dir
      · simp [hd]
      · simp [hd]
    | some s =>
      have hne : dir2 ≠ dir := by
        intro heq
        rw [heq] at hl
        rw [hl] at hc
        exact absurd rfl hc
      simp [hne]

/-- The child sets after a sequence of insertions. -/
theorem mem_children_foldl (pairs : List (StdString × StdString)) :
    ∀ (h : BoostHash BoostSet) (dir name : StdString),
      name ∈ (pairs.foldl (fun h p => h.insertChild p.1 p.2) h).children dir
        ↔ name ∈ h.children dir ∨ (dir, name) ∈ pairs := by
  induction pairs with
  | nil => intro h dir name; simp
  | cons p ps ih =>
    intro h dir name
    rw [List.foldl_cons, ih, mem_children_insertChild, List.mem_cons]
    constructor
    · rintro ((⟨h1, h2⟩ | h3) | h4)
      · exact Or.inr (Or.inl (by rw [h1, h2]))
      · exact Or.inl h3
      · exact Or.inr (Or.inr h4)
    · rintro (h3 | h5 | h4)
      · exact Or.inl (Or.inr h3)
      · have h1 : dir = p.1 := congrArg Prod.fst h5
        have h2 : name = p.2 := congrArg Prod.snd h5
        exact Or.inl (Or.inl ⟨h1, h2⟩)
      · exact Or.inr h4

theorem set_append_cons (a r : List Nat) (x y : Nat) :
    (a ++ x :: r).set a.length y = a ++ y :: r := by
  induction a with
  | nil => rfl
  | cons b bs ih => simp only [List.cons_append, List.length_cons, List.set_cons_succ, ih]

theorem getD_append_cons (a r : List Nat) (x : Nat) : (a ++ x :: r).getD a.length 0 = x := by
  induction a with
  | nil => rfl
  | cons b bs ih => simpa using ih

theorem getD_append_add (a r : List Nat) (t : Nat) :
    (a ++ r).getD (a.length + t) 0 = r.getD t 0 := by
  induction a with
  | nil => simp
  | cons b bs ih =>
    have : (b :: bs).length + t = (bs.length + t) + 1 := by simp; omega
    rw [this, List.cons_append, List.getD_cons_succ, ih]

theorem drop_append_cons (a r : List Nat) (x : Nat) :
    (a ++ x :: r).drop (a.length + 1) = r := by
  induction a with
  | nil => rfl
  | cons b bs ih => simp

theorem cString_append_zero (a r : List Nat) (ha : ∀ b ∈ a, b ≠ 0) :
    cString (a ++ 0 :: r) = a := by
  induction a with
  | nil => simp [cString]
  | cons b bs ih =>
    have hb : b ≠ 0 := ha b (List.mem_cons_self _ _)
    have ih2 := ih (fun x hx => ha x (List.mem_cons_of_mem _ hx))
    unfold cString at ih2 ⊢
    simp only [List.cons_append, List.takeWhile_cons, ne_eq, hb, not_false_eq_true,
      decide_True, ite_true]
    rw [ih2]

/-- A run without slash, and the NUL behind it, hold no slash. -/
theorem getD_run_ne_slash (run tail : List Nat) (hrun : ∀ b ∈ run, b ≠ 47) :
    ∀ t, t ≤ run.length → (run ++ 0 :: tail).getD t 0 ≠ 47 := by
  induction run with
  | nil =>
    intro t ht
    have : t = 0 := by simpa using ht
    subst this
    simp
  | cons b bs ih =>
    intro t ht
    cases t with
    | zero =>
      simp only [List.cons_append, List.getD_cons_zero]
      exact hrun b (List.mem_cons_self _ _)
    | succ t =>
      simp only [List.cons_append, List.getD_cons_succ]
      exact ih (fun x hx => hrun x (List.mem_cons_of_mem _ hx)) t (by simpa using ht)

theorem joinPath_snoc :
    ∀ (xs : List StdString) (s : StdString), xs ≠ [] →
      joinPath (xs ++ [s]) = joinPath xs ++ 47 :: s := by
  intro xs
  induction xs with
  | nil => intro s h; exact absurd rfl h
  | cons x rest ih =>
    intro s _
    cases rest with
    | nil => rfl
    | cons y ys =>
      have ih2 := ih s (by simp)
      simp only [List.cons_append] at ih2 ⊢
      simp only [joinPath, ih2, List.append_assoc, List.cons_append]

theorem joinPath_ne_zero :
    ∀ (xs : List StdString), ValidSegments xs → ∀ b ∈ joinPath xs, b ≠ 0 := by
  intro xs
  induction xs with
  | nil => intro _ b hb; simp [joinPath] at hb
  | cons x rest ih =>
    intro hv b hb
    have hx := hv x (List.mem_cons_self _ _)
    have hrest : ValidSegments rest := fun s hs => hv s (List.mem_cons_of_mem _ hs)
    cases rest with
    | nil =>
      simp only [joinPath] at hb
      exact (hx.2 b hb).1
    | cons y ys =>
      simp only [joinPath, List.mem_append, List.mem_cons] at hb
      rcases hb with h | h | h
      · exact (hx.2 b h).1
      · omega
      · exact ih hrest b h

theorem joinPath_ne_nil (xs : List StdString) (hne : xs ≠ []) (hv : ValidSegments xs) :
    joinPath xs ≠ [] := by
  cases xs with
  | nil => exact absurd rfl hne
  | cons x rest =>
    have hx := (hv x (List.mem_cons_self _ _)).1
    cases rest with
    | nil => simpa [joinPath] using hx
    | cons y ys => simp [joinPath]

theorem ValidSegments_reverse (xs : List StdString) (hv : ValidSegments xs) :
    ValidSegments xs.reverse := fun s hs => hv s (List.mem_reverse.1 hs)

/-! ### The second loop of `processDirectories` -/

theorem more_other (buf : List Nat) (h : BoostHash BoostSet) (n : Nat) (hn : 0 < n)
    (hc : buf.getD n 0 ≠ 47) :
    processDirectories.more n buf h = processDirectories.more (n - 1) buf h := by
  obtain ⟨i, rfl⟩ := Nat.exists_eq_succ_of_ne_zero (by omega : n ≠ 0)
  rw [processDirectories.more, if_neg hc]
  rfl

theorem more_slash (buf : List Nat) (h : BoostHash BoostSet) (n : Nat) (hn : 0 < n)
    (hc : buf.getD n 0 = 47) :
    processDirectories.more n buf h
      = processDirectories.more (n - 1) (buf.set n 0)
          (h.insertChild (cString (buf.set n 0)) (cString ((buf.set n 0).drop (n + 1)))) := by
  obtain ⟨i, rfl⟩ := Nat.exists_eq_succ_of_ne_zero (by omega : n ≠ 0)
  rw [processDirectories.more, if_pos hc]
  rfl

/-- The loop walks down over positions that hold no slash without doing anything. -/
theorem more_skip (buf : List Nat) (h : BoostHash BoostSet) :
    ∀ (k i : Nat), (∀ t, i < t → t ≤ i + k → buf.getD t 0 ≠ 47) →
      processDirectories.more (i + k) buf h = processDirectories.more i buf h := by
  intro k
  induction k with
  | zero => intro i _; rfl
  | succ k ih =>
    intro i hrun
    rw [show i + (k + 1) = (i + k) + 1 from rfl,
      more_other buf h (i + k + 1) (by omega) (hrun _ (by omega) (by omega))]
    exact ih i (fun t h1 h2 => hrun t h1 (by omega))

/-- The second loop on a path: for every slash, from the last to the first, the one
segment behind it is inserted into the child set of the path before it. -/
theorem more_path :
    ∀ (rsegs : List StdString), rsegs ≠ [] → ValidSegments rsegs →
      ∀ (tail : List Nat) (h : BoostHash BoostSet),
        (processDirectories.more (joinPath rsegs.reverse).length
            (joinPath rsegs.reverse ++ 0 :: tail) h).2
          = (dirPairsRev rsegs).foldl (fun h p => h.insertChild p.1 p.2) h := by
  intro rsegs
  induction rsegs with
  | nil => intro hne; exact absurd rfl hne
  | cons s rest ih =>
    intro _ hv tail h
    have hs := hv s (List.mem_cons_self _ _)
    have hs47 : ∀ b ∈ s, b ≠ 47 := fun b hb => (hs.2 b hb).2
    have hs0 : ∀ b ∈ s, b ≠ 0 := fun b hb => (hs.2 b hb).1
    cases rest with
    | nil =>
      simp only [List.reverse_cons, List.reverse_nil, List.nil_append, joinPath, dirPairsRev,
        List.foldl_nil]
      have hskip := more_skip (s ++ 0 :: tail) h s.length 0
        (fun t _ h2 => getD_run_ne_slash s tail hs47 t (by omega))
      rw [Nat.zero_add] at hskip
      rw [hskip]
      rfl
    | cons t ts =>
      have hvr : ValidSegments (t :: ts) := fun x hx => hv x (List.mem_cons_of_mem _ hx)
      have hne : (t :: ts).reverse ≠ [] := by simp
      have hJ0 := joinPath_ne_zero _ (ValidSegments_reverse _ hvr)
      have hJne := joinPath_ne_nil _ hne (ValidSegments_reverse _ hvr)
      have hJpos : 0 < (joinPath (t :: ts).reverse).length := List.length_pos.2 hJne
      have ih2 := ih (by simp) hvr (s ++ 0 :: tail) (h.insertChild (joinPath (t :: ts).reverse) s)
      rw [List.reverse_cons, joinPath_snoc _ s hne,
        show dirPairsRev (s :: t :: ts)
          = (joinPath (t :: ts).reverse, s) :: dirPairsRev (t :: ts) from rfl,
        List.foldl_cons]
      generalize joinPath (t :: ts).reverse = J at *
      have hbuf : (J ++ 47 :: s) ++ 0 :: tail = J ++ 47 :: (s ++ 0 :: tail) := by simp
      have hlen : (J ++ 47 :: s).length = J.length + (s.length + 1) := by simp
      rw [hbuf, hlen]
      -- walk down over the last segment
      rw [more_skip _ h (s.length + 1) J.length (by
        intro x h1 h2
        obtain ⟨y, rfl⟩ : ∃ y, x = J.length + (y + 1) := ⟨x - J.length - 1, by omega⟩
        rw [getD_append_add, List.getD_cons_succ]
        exact getD_run_ne_slash s tail hs47 y (by omega))]
      -- the slash before it
      rw [more_slash _ h J.length hJpos (getD_append_cons J _ 47), set_append_cons,
        cString_append_zero J _ hJ0, drop_append_cons, cString_append_zero s tail hs0]
      -- the NUL now at that position is walked over by the loop on the shorter path
      rw [more_other _ _ J.length hJpos (by rw [getD_append_cons]; decide)] at ih2
      rw [ih2]

/-! ### The first loop of `processDirectories` -/

/-- The first loop, having walked over `pre` without finding a slash, ends at the first
slash or at the last character of the name and inserts the first segment. -/
theorem topLevel_scan (c : Nat) (tail : List Nat) (nameLen : Nat) :
    ∀ (post pre : List Nat), (∀ b ∈ post, b ≠ 47) → (∀ b ∈ pre ++ post, b ≠ 0) →
      ((c = 0 ∧ nameLen = (pre ++ post).length ∧ post ≠ [])
        ∨ (c = 47 ∧ (pre ++ post).length < nameLen)) →
      processDirectories.topLevel ((pre ++ post) ++ c :: tail) nameLen
          (nameLen - pre.length) pre.length
        = some (pre ++ post) := by
  intro post
  induction post with
  | nil =>
    intro pre _ h0 hc
    rcases hc with ⟨_, _, hne⟩ | ⟨hc47, hlt⟩
    · exact absurd rfl hne
    · subst hc47
      simp only [List.append_nil] at hlt h0 ⊢
      obtain ⟨left, hleft⟩ : ∃ left, nameLen - pre.length = left + 1 :=
        ⟨nameLen - pre.length - 1, by omega⟩
      rw [hleft, processDirectories.topLevel]
      have hget : (pre ++ 47 :: tail).getD pre.length 0 = 47 := getD_append_cons pre tail 47
      rw [if_neg (by rw [hget]; simp), if_pos hget, set_append_cons,
        cString_append_zero pre tail h0]
  | cons b bs ih =>
    intro pre h47 h0 hc
    have hb47 : b ≠ 47 := h47 b (List.mem_cons_self _ _)
    have hassoc : pre ++ b :: bs = (pre ++ [b]) ++ bs := by simp
    have hget : ((pre ++ b :: bs) ++ c :: tail).getD pre.length 0 = b := by
      rw [List.append_assoc, List.cons_append]
      exact getD_append_cons pre _ b
    have htot : (pre ++ b :: bs).length = pre.length + 1 + bs.length := by
      simp only [List.length_append, List.length_cons]
      omega
    obtain ⟨left, hleft⟩ : ∃ left, nameLen - pre.length = left + 1 :=
      ⟨nameLen - pre.length - 1, by rcases hc with ⟨_, h, _⟩ | ⟨_, h⟩ <;> omega⟩
    rw [hleft, processDirectories.topLevel]
    by_cases hnext : pre.length + 1 < nameLen
    · rw [if_pos ⟨by rw [hget]; exact hb47, hnext⟩]
      have hleft2 : left = nameLen - (pre ++ [b]).length := by
        simp only [List.length_append, List.length_cons, List.length_nil]
        omega
      have hlen2 : pre.length + 1 = (pre ++ [b]).length := by simp
      rw [hleft2, hlen2, hassoc]
      apply ih (pre ++ [b]) (fun x hx => h47 x (List.mem_cons_of_mem _ hx))
        (by rw [← hassoc]; exact h0)
      rcases hc with ⟨hc0, hn, _⟩ | ⟨hc47, hlt⟩
      · refine Or.inl ⟨hc0, by rw [← hassoc]; exact hn, ?_⟩
        intro hbs
        subst hbs
        simp only [List.length_append, List.length_cons, List.length_nil] at hn
        omega
      · exact Or.inr ⟨hc47, by rw [← hassoc]; exact hlt⟩
    · have hc0 : c = 0 ∧ bs = [] := by
        rcases hc with ⟨hc0, hn, _⟩ | ⟨_, hlt⟩
        · refine ⟨hc0, ?_⟩
          have : bs.length = 0 := by omega
          exact List.length_eq_zero.1 this
        · omega
      obtain ⟨hc0, hbs⟩ := hc0
      subst hc0 hbs
      rw [if_neg (fun h => hnext h.2), if_neg (by rw [hget]; exact hb47),
        cString_append_zero _ tail h0]

theorem joinPath_cons (s : StdString) (rest : List StdString) :
    joinPath (s :: rest) = s ++ (if rest = [] then [] else 47 :: joinPath rest) := by
  cases rest with
  | nil => simp [joinPath]
  | cons t ts => simp [joinPath]

/-- The first loop on a path inserts its first segment. -/
theorem topLevel_path (s : StdString) (rest : List StdString)
    (hv : ValidSegments (s :: rest)) (tail : List Nat) :
    processDirectories.topLevel (joinPath (s :: rest) ++ 0 :: tail)
        (joinPath (s :: rest)).length (joinPath (s :: rest)).length 0
      = some s := by
  have hs := hv s (List.mem_cons_self _ _)
  have hs47 : ∀ b ∈ s, b ≠ 47 := fun b hb => (hs.2 b hb).2
  have hs0 : ∀ b ∈ ([] : List Nat) ++ s, b ≠ 0 := fun b hb => (hs.2 b (by simpa using hb)).1
  cases rest with
  | nil =>
    have h := topLevel_scan 0 tail s.length s [] hs47 hs0
      (Or.inl ⟨rfl, by simp, hs.1⟩)
    simpa [joinPath] using h
  | cons t ts =>
    have h := topLevel_scan 47 (joinPath (t :: ts) ++ 0 :: tail)
      (joinPath (s :: t :: ts)).length s [] hs47 hs0
      (Or.inr ⟨rfl, by simp [joinPath]⟩)
    simpa [joinPath] using h

/-- The directory index after `processDirectories` has run on one path: the first
segment is in the root's child set, and every proper directory prefix has got the
segment that follows it. -/
theorem processDirectories_path (d : BUGS_archiveData) (s : StdString)
    (rest : List StdString) (hv : ValidSegments (s :: rest)) (tail : List Nat) :
    (processDirectories d (joinPath (s :: rest) ++ 0 :: tail)
        (joinPath (s :: rest)).length).1.dirHash
      = (dirPairsRev (s :: rest).reverse).foldl (fun h p => h.insertChild p.1 p.2)
          (d.dirHash.insertChild [] s) := by
  have hmore := more_path (s :: rest).reverse (by simp)
    (ValidSegments_reverse _ hv) tail (d.dirHash.insertChild [] s)
  rw [List.reverse_reverse] at hmore
  unfold processDirectories
  simp only [topLevel_path s rest hv tail]
  exact hmore

/-- The pairs of a path: a directory and a name form one exactly when the path is a
non-empty run of segments spelling the directory, then the name, then the rest. -/
theorem mem_dirPairsRev :
    ∀ (rsegs : List StdString) (dir name : StdString),
      (dir, name) ∈ dirPairsRev rsegs
        ↔ ∃ pre post, pre ≠ [] ∧ rsegs.reverse = pre ++ name :: post ∧ joinPath pre = dir := by
  intro rsegs
  induction rsegs with
  | nil =>
    intro dir name
    simp [dirPairsRev]
  | cons s rest ih =>
    intro dir name
    cases rest with
    | nil =>
      simp only [dirPairsRev, List.not_mem_nil, List.reverse_cons, List.reverse_nil,
        List.nil_append, false_iff]
      rintro ⟨pre, post, hne, heq, _⟩
      have hlen := congrArg List.length heq
      have hpre : 0 < pre.length := List.length_pos.2 hne
      simp only [List.length_cons, List.length_nil, List.length_append] at hlen
      omega
    | cons t ts =>
      have hX : (t :: ts).reverse ≠ [] := by simp
      have hrev : (s :: t :: ts).reverse = (t :: ts).reverse ++ [s] := List.reverse_cons _ _
      have hpairs : dirPairsRev (s :: t :: ts)
          = (joinPath (t :: ts).reverse, s) :: dirPairsRev (t :: ts) := rfl
      rw [hpairs, List.mem_cons, ih dir name, hrev]
      clear hrev hpairs
      generalize (t :: ts).reverse = X at *
      constructor
      · rintro (h | ⟨pre, post, hne, heq, hj⟩)
        · have h1 : dir = joinPath X := congrArg Prod.fst h
          have h2 : name = s := congrArg Prod.snd h
          exact ⟨X, [], hX, by rw [h2], h1.symm⟩
        · exact ⟨pre, post ++ [s], hne, by rw [heq]; simp, hj⟩
      · rintro ⟨pre, post, hne, heq, hj⟩
        rcases List.eq_nil_or_concat post with hp | ⟨post2, z, hp⟩
        · subst hp
          have hsplit : X ++ [s] = pre ++ [name] := heq
          obtain ⟨h1, h2⟩ := List.append_inj' hsplit rfl
          have h3 : s = name := by simpa using h2
          left
          rw [h1, h3, hj]
        · subst hp
          have hsplit : X ++ [s] = (pre ++ name :: post2) ++ [z] := by
            rw [heq]
            simp
          obtain ⟨h1, _⟩ := List.append_inj' hsplit rfl
          right
          exact ⟨pre, post2, hne, h1, hj⟩

/-- The child sets after `processDirectories` has run on each of the paths. -/
theorem mem_children_processAll (tail : List Nat) :
    ∀ (paths : List (List StdString)) (d : BUGS_archiveData),
      (∀ segs ∈ paths, segs ≠ [] ∧ ValidSegments segs) →
      ∀ (dir name : StdString),
        name ∈ (processAllDirectories tail d paths).dirHash.children dir
          ↔ name ∈ d.dirHash.children dir
            ∨ ∃ segs ∈ paths,
                (dir = [] ∧ segs.head? = some name)
                ∨ ∃ pre post, pre ≠ [] ∧ segs = pre ++ name :: post ∧ joinPath pre = dir := by
  intro paths
  induction paths with
  | nil =>
    intro d _ dir name
    simp [processAllDirectories]
  | cons segs rest ih =>
    intro d hp dir name
    obtain ⟨hne, hv⟩ := hp segs (List.mem_cons_self _ _)
    obtain ⟨s, r, rfl⟩ := List.exists_cons_of_ne_nil hne
    have hrest : ∀ x ∈ rest, x ≠ [] ∧ ValidSegments x :=
      fun x hx => hp x (List.mem_cons_of_mem _ hx)
    rw [processAllDirectories, ih _ hrest, processDirectories_path d s r hv tail,
      mem_children_foldl, mem_children_insertChild, mem_dirPairsRev, List.reverse_reverse]
    simp only [List.mem_cons, exists_eq_or_imp, List.head?_cons, Option.some.injEq]
    constructor
    · rintro (((⟨h1, h2⟩ | h3) | h4) | h5)
      · exact Or.inr (Or.inl (Or.inl ⟨h1, h2.symm⟩))
      · exact Or.inl h3
      · exact Or.inr (Or.inl (Or.inr h4))
      · exact Or.inr (Or.inr h5)
    · rintro (h3 | (⟨h1, h2⟩ | h4) | h5)
      · exact Or.inl (Or.inl (Or.inr h3))
      · exact Or.inl (Or.inl (Or.inl ⟨h1, h2.symm⟩))
      · exact Or.inl (Or.inr h4)
      · exact Or.inr h5

theorem children_init (password : List Nat) (keyMultiplier keyAdditive : Int)
    (dir : StdString) :
    (BUGS_openMetaArchive.init password keyMultiplier keyAdditive).dirHash.children dir = [] := by
  unfold BoostHash.children
  show (List.lookup dir [([], [])]).getD [] = []
  rw [lookup_singleton]
  split <;> rfl

/-- C19. Directory reconstruction: for every collection of paths made of non-empty
segments separated by single slashes (no leading or trailing slash, no NUL), after
`processDirectories` has run on each path, starting from the index of a fresh parse,
the root child set is exactly the set of first segments, and the child set of every
other directory `dir` is exactly the set of single segments that immediately follow a
run of segments spelling `dir` in some path (the one segment behind the slash, not the
rest of the path). -/
theorem C19_directory_reconstruction (password : List Nat) (keyMultiplier keyAdditive : Int)
    (tail : List Nat) (paths : List (List StdString))
    (hpaths : ∀ segs ∈ paths, segs ≠ [] ∧ ValidSegments segs) :
    (∀ name,
        name ∈ (processAllDirectories tail
                  (BUGS_openMetaArchive.init password keyMultiplier keyAdditive)
                  paths).dirHash.children []
          ↔ ∃ segs ∈ paths, segs.head? = some name)
    ∧ (∀ dir name, dir ≠ [] →
        (name ∈ (processAllDirectories tail
                  (BUGS_openMetaArchive.init password keyMultiplier keyAdditive)
                  paths).dirHash.children dir
          ↔ ∃ segs ∈ paths, ∃ pre post,
              pre ≠ [] ∧ segs = pre ++ name :: post ∧ joinPath pre = dir)) := by
  constructor
  · intro name
    rw [mem_children_processAll tail paths _ hpaths, children_init]
    constructor
    · rintro (h | ⟨segs, hs, (⟨_, h⟩ | ⟨pre, post, hne, heq, hj⟩)⟩)
      · simp at h
      · exact ⟨segs, hs, h⟩
      · exfalso
        have hv : ValidSegments pre := by
          intro x hx
          exact (hpaths segs hs).2 x (by rw [heq]; exact List.mem_append_left _ hx)
        exact joinPath_ne_nil pre hne hv hj
    · rintro ⟨segs, hs, h⟩
      exact Or.inr ⟨segs, hs, Or.inl ⟨rfl, h⟩⟩
  · intro dir name hdir
    rw [mem_children_processAll tail paths _ hpaths, children_init]
    constructor
    · rintro (h | ⟨segs, hs, (⟨h, _⟩ | h)⟩)
      · simp at h
      · exact absurd h hdir
      · exact ⟨segs, hs, h⟩
    · rintro ⟨segs, hs, h⟩
      exact Or.inr ⟨segs, hs, Or.inr h⟩

set_option maxRecDepth 100000 in
/-- C19, at the paths `a/b/c.txt`, `a/d.txt`, `e.txt`: root = {a, e.txt},
a = {b, d.txt}, a/b = {c.txt}. -/
theorem C19_directory_reconstruction_witness :
    ((∀ name, name ∈ sampleDirHash.children [] ↔ ∃ segs ∈ samplePaths, segs.head? = some name)
      ∧ (∀ dir name, dir ≠ [] →
          (name ∈ sampleDirHash.children dir
            ↔ ∃ segs ∈ samplePaths, ∃ pre post,
                pre ≠ [] ∧ segs = pre ++ name :: post ∧ joinPath pre = dir)))
    ∧ sampleDirHash.children [] = [[97], [101, 46, 116, 120, 116]]
    ∧ sampleDirHash.children [97] = [[98], [100, 46, 116, 120, 116]]
    ∧ sampleDirHash.children [97, 47, 98] = [[99, 46, 116, 120, 116]] :=
  ⟨C19_directory_reconstruction samplePassword 7 3 [] samplePaths (by decide),
    by decide, by decide, by decide⟩

/-! ## The parse loop always ends -/

theorem guard_congr {α : Type} (step : Option (Bool × α)) (next1 next2 : α → MetaArchive)
    (h : ∀ a, step = some (true, a) → next1 a = next2 a) :
    MetaArchive.guard step next1 = MetaArchive.guard step next2 := by
  unfold MetaArchive.guard
  cases step with
  | none => rfl
  | some r =>
    obtain ⟨ok, a⟩ := r
    cases ok with
    | false => rfl
    | true => exact h a rfl

/-- A successful field read had four bytes to read, and leaves the stream behind them. -/
theorem readUint32AndXor_consumes (d : BUGS_archiveData) (io buff : List Nat) (result : Nat)
    (r : Nat × BUGS_archiveData × List Nat)
    (h : readUint32AndXor d io buff result = some (true, r)) :
    r.2.2 = io.drop 4 ∧ 4 ≤ io.length := by
  unfold readUint32AndXor at h
  simp only at h
  split at h
  · simp at h
  · rename_i hflag
    have hflag2 : (readUint32 io buff
        (result ^^^ toUint32 (charToInt (d.password.getD 0 0)))).1 = true := by
      simpa using hflag
    have h4 := (readUint32_flag io buff _).1 hflag2
    split at h
    · simp at h
    · simp only [Option.some.injEq, Prod.mk.injEq, true_and] at h
      rw [← h]
      exact ⟨rfl, h4⟩

theorem decryptAndReadString_consumes (d : BUGS_archiveData) (io buffer : List Nat)
    (stringLength : Int) (r : List Nat × BUGS_archiveData × List Nat)
    (h : decryptAndReadString d io buffer stringLength = some (true, r)) :
    r.2.2.length ≤ io.length := by
  unfold decryptAndReadString at h
  split at h
  · simp at h
  · simp only at h
    split at h
    · simp at h
    · simp only [Option.some.injEq, Prod.mk.injEq, true_and] at h
      rw [← h]
      simp only [List.length_drop]
      omega

/-- The parse loop is total: every iteration that goes on has consumed bytes of the
finite stream, so with any bound above the stream's length the loop gives the same
result, the one `BUGS_openMetaArchive` computes. -/
theorem loop_fuel_irrelevant (u : Indeterminate) :
    ∀ (fuel1 fuel2 : Nat) (d : BUGS_archiveData) (io fileName : List Nat) (v : HeaderLocals),
      io.length < fuel1 → io.length < fuel2 →
      BUGS_openMetaArchive.loop u fuel1 d io fileName v
        = BUGS_openMetaArchive.loop u fuel2 d io fileName v := by
  intro fuel1
  induction fuel1 with
  | zero => intro fuel2 d io fileName v h1; omega
  | succ fuel1 ih =>
    intro fuel2 d io fileName v h1 h2
    obtain ⟨fuel2, rfl⟩ := Nat.exists_eq_succ_of_ne_zero (by omega : fuel2 ≠ 0)
    rw [BUGS_openMetaArchive.loop, BUGS_openMetaArchive.loop]
    apply guard_congr
    intro r1 e1
    have c1 := readUint32AndXor_consumes _ _ _ _ _ e1
    split
    · rfl
    apply guard_congr
    intro r2 e2
    have c2 := readUint32AndXor_consumes _ _ _ _ _ e2
    apply guard_congr
    intro r3 e3
    have c3 := readUint32AndXor_consumes _ _ _ _ _ e3
    apply guard_congr
    intro r4 e4
    have c4 := readUint32AndXor_consumes _ _ _ _ _ e4
    apply guard_congr
    intro r5 e5
    have c5 := readUint32AndXor_consumes _ _ _ _ _ e5
    apply guard_congr
    intro r6 e6
    have c6 := readUint32AndXor_consumes _ _ _ _ _ e6
    apply guard_congr
    intro r7 e7
    have c7 := decryptAndReadString_consumes _ _ _ _ _ e7
    have hlen : r7.2.2.length + 4 ≤ io.length := by
      have l1 : r1.2.2.length + 4 = io.length := by
        rw [c1.1, List.length_drop]
        omega
      have l2 : r2.2.2.length ≤ r1.2.2.length := by
        rw [c2.1, List.length_drop]
        omega
      have l3 : r3.2.2.length ≤ r2.2.2.length := by
        rw [c3.1, List.length_drop]
        omega
      have l4 : r4.2.2.length ≤ r3.2.2.length := by
        rw [c4.1, List.length_drop]
        omega
      have l5 : r5.2.2.length ≤ r4.2.2.length := by
        rw [c5.1, List.length_drop]
        omega
      have l6 : r6.2.2.length ≤ r5.2.2.length := by
        rw [c6.1, List.length_drop]
        omega
      omega
    exact ih fuel2 _ _ _ _ (by omega) (by omega)

/-! ## The skip-ahead against the words of the specification -/

theorem composedTransform_zero (k : Nat) (t : Nat × Nat) : composedTransform 0 k t = some t := by
  rw [composedTransform]
  simp

theorem composedTransform_odd (n k : Nat) (t : Nat × Nat) (hn : n % 2 = 1) :
    composedTransform n k t
      = match LCG_TABLE[k]? with
        | none => none
        | some row => composedTransform (n / 2) (k + 1) (composeTransform t row) := by
  rw [composedTransform]
  have h0 : n ≠ 0 := by omega
  simp only [h0, hn, dite_false, ite_true]

theorem composedTransform_even (n k : Nat) (t : Nat × Nat) (h0 : n ≠ 0) (hn : n % 2 = 0) :
    composedTransform n k t = composedTransform (n / 2) (k + 1) t := by
  rw [composedTransform]
  have h1 : ¬ (n % 2 = 1) := by omega
  simp only [h0, h1, dite_false, ite_false]

/-- Applying a composed transform is applying its two parts one after the other. -/
theorem applyTransform_compose (t row : Nat × Nat) (x : Nat) :
    applyTransform (composeTransform t row) x
      = (applyTransform t x * row.1 + row.2) % UINT32_MOD := by
  unfold applyTransform composeTransform UINT32_MOD
  simp only
  have e : (x * t.1 + t.2) * row.1 + row.2 = x * (t.1 * row.1) + (t.2 * row.1 + row.2) := by
    ring
  have h1 : (x * (t.1 * row.1 % 4294967296) + (t.2 * row.1 + row.2) % 4294967296) % 4294967296
      = (x * (t.1 * row.1) + (t.2 * row.1 + row.2)) % 4294967296 :=
    Nat.ModEq.add (Nat.ModEq.mul_left x (Nat.mod_modEq _ _)) (Nat.mod_modEq _ _)
  have h2 : ((x * t.1 + t.2) % 4294967296 * row.1 + row.2) % 4294967296
      = ((x * t.1 + t.2) * row.1 + row.2) % 4294967296 :=
    Nat.ModEq.add_right _ (Nat.ModEq.mul_right _ (Nat.mod_modEq _ _))
  rw [h1, h2, e]

/-- The loop of the source, which applies the selected rows to the state one after
another, gives what the transform composed from the same rows gives when applied
once. -/
theorem composedTransform_apply :
    ∀ (n k : Nat) (t : Nat × Nat) (x : Nat),
      (composedTransform n k t).map (fun c => applyTransform c x)
        = advanceMagicN.loop (applyTransform t x) n k := by
  intro n
  induction n using Nat.strong_induction_on with
  | _ n ih =>
    intro k t x
    by_cases h0 : n = 0
    · subst h0
      rw [composedTransform_zero, advanceMagicN_loop_zero]
      rfl
    · have hlt : n / 2 < n := by omega
      by_cases hodd : n % 2 = 1
      · rw [composedTransform_odd n k t hodd, advanceMagicN_loop_odd _ n k hodd]
        cases hrow : LCG_TABLE[k]? with
        | none => rfl
        | some row =>
          simp only
          rw [ih (n / 2) hlt (k + 1) (composeTransform t row) x, applyTransform_compose]
      · have heven : n % 2 = 0 := by omega
        rw [composedTransform_even n k t h0 heven, advanceMagicN_loop_even _ n k h0 heven]
        exact ih (n / 2) hlt (k + 1) t x

theorem applyTransform_id (x : Nat) (hx : x < 4294967296) : applyTransform (1, 0) x = x := by
  unfold applyTransform
  simp only [Nat.mul_one, Nat.add_zero]
  exact Nat.mod_eq_of_lt hx

/-- The one-step engine with the keys 7 and 3 is the base transition. -/
theorem keystream_rgss_eq_iterate (s n : Nat) :
    keystream rgssKeys s n = baseTransition^[n] s := by
  unfold keystream
  congr 1
  funext x
  rw [advanceMagic_rgss rgssKeys rfl rfl x]
  unfold baseTransition
  rw [Nat.mul_comm]

/-- C27. Skip-ahead equals iteration for the table's base: for every 32-bit state `s`
and every `n < 2^30`, `advanceMagicN(s, n)` returns `s` and leaves the state equal to
the base transition `x -> (7 x + 3) mod 2^32` applied `n` times to `s`; and applying
the selected table rows one after another, as the source does, gives what the
specification's single application of the composed transform gives. -/
theorem C27_skip_ahead_equals_iteration (s n : Nat) (hs : s < 2 ^ 32) (hn : n < 2 ^ 30) :
    advanceMagicN s n = some (s, baseTransition^[n] s)
    ∧ advanceN s n = some (baseTransition^[n] s)
    ∧ (advanceMagicN s n).map (fun r => r.2) = advanceN s n := by
  have h1 : advanceMagicN s n = some (s, baseTransition^[n] s) := by
    rw [advanceMagicN_eq_keystream rgssKeys rfl rfl s n hn, keystream_rgss_eq_iterate]
  have hloop : advanceMagicN.loop s n 0 = some (baseTransition^[n] s) := by
    have h := advanceMagicN_loop_spec rgssKeys rfl rfl n 0 s (by omega) (by simpa using hn)
    rw [h, keystream_rgss_eq_iterate]
    simp
  have h2 : advanceN s n = some (baseTransition^[n] s) := by
    unfold advanceN
    rw [composedTransform_apply n 0 (1, 0) s, applyTransform_id s (by simpa using hs), hloop]
  refine ⟨h1, h2, ?_⟩
  rw [h1, h2]
  rfl

/-- C27, at a concrete input: the state `0xDEADBEEF` and the largest count. -/
theorem C27_skip_ahead_equals_iteration_witness :
    advanceMagicN 3735928559 1073741823 = some (3735928559, baseTransition^[1073741823] 3735928559)
    ∧ advanceN 3735928559 1073741823 = some (baseTransition^[1073741823] 3735928559)
    ∧ (advanceMagicN 3735928559 1073741823).map (fun r => r.2) = advanceN 3735928559 1073741823 :=
  C27_skip_ahead_equals_iteration 3735928559 1073741823 (by decide) (by decide)

/-! ## The table's recurrence -/

/-- C28. The hard-coded doubling table obeys its recurrence: it has 30 rows, row 0 is
`(7, 3)`, and every row `k` in 1..29 is `(m^2 mod 2^32, a * (m + 1) mod 2^32)` for
`(m, a)` the row `k - 1`. -/
theorem C28_table_recurrence :
    LCG_TABLE.length = 30
    ∧ LCG_TABLE[0]? = some (7, 3)
    ∧ ∀ k : Fin 30, 1 ≤ k.val →
        ∃ m a, LCG_TABLE[k.val - 1]? = some (m, a)
          ∧ LCG_TABLE[k.val]? = some (m ^ 2 % 2 ^ 32, a * (m + 1) % 2 ^ 32) := by
  refine ⟨rfl, rfl, ?_⟩
  intro k hk
  refine ⟨(LCG_TABLE.getD (k.val - 1) (0, 0)).1, (LCG_TABLE.getD (k.val - 1) (0, 0)).2, ?_, ?_⟩
  · revert k
    decide
  · revert k
    decide

/-- C28, at a concrete row: row 4 is row 3 composed with itself. -/
theorem C28_table_recurrence_witness :
    ∃ m a, LCG_TABLE[3]? = some (m, a)
      ∧ LCG_TABLE[4]? = some (m ^ 2 % 2 ^ 32, a * (m + 1) % 2 ^ 32) :=
  C28_table_recurrence.2.2 ⟨4, by decide⟩ (by decide)

/-! ## Calls of `advanceMagic` made by a read: properties -/

theorem readPreAlign_advances_eq (offs p : Nat) :
    readPreAlign.advances offs p = if 0 < p ∧ (offs + p) % 4 = 0 then 1 else 0 := by
  unfold readPreAlign.advances UINT64_MOD
  have h : (offs + p) % 18446744073709551616 % 4 = (offs + p) % 4 := by omega
  rw [h]
  by_cases hp : 0 < p <;> by_cases h4 : (offs + p) % 4 = 0 <;> simp [hp, h4]

theorem readAligned_advances_eq (align : Nat) : readAligned.advances align = align / 4 := by
  unfold readAligned.advances
  split
  · rfl
  · omega

/-- The pre-alignment block leaves the state `advanceMagic` gives after as many calls
as the block makes. -/
theorem readPreAlign_magic_advances (g : BUGS_archiveData) (io : PHYSFS_Io)
    (offs p magic d : Nat) :
    (readPreAlign g io offs p magic d).2.1 = keystream g magic (readPreAlign.advances offs p) := by
  rw [readPreAlign_magic, readPreAlign_advances_eq]
  split
  · exact advanceMagic_eq_keystream_one g magic
  · rfl

theorem BUGS_ioRead_advances_eq (entry : BUGS_entryHandle) (len : Nat) (hlen : len < 2 ^ 64) :
    BUGS_ioRead.advances entry len = (entry.currentOffset % 4 + len) / 4 := by
  unfold BUGS_ioRead.advances readPostAlign.advances
  simp only
  rw [readPreAlign_advances_eq, readAligned_advances_eq, Nat.add_zero]
  exact (zones_facts entry.currentOffset len hlen).2.2.2.2.2.2

/-- C29. A read advances the keystream only on word-boundary crossings: for every
configured multiplier and additive, every handle at logical offset `o` within its
entry and every `len <= size - o`, `BUGS_ioRead` calls `advanceMagic`
`floor((o + len)/4) - floor(o/4)` times: once in the pre-alignment block exactly when
that block is entered and reaches a boundary, once per word of the aligned block,
never in the post-alignment block; each block leaves the state its calls give, and so
does the whole read; hence a handle that held the keystream word for `floor(o/4)`
holds the word for `floor((o + len)/4)` afterwards, at offset `o + len`. -/
theorem C29_read_advances_on_boundaries (g : BUGS_archiveData) (entry : BUGS_entryHandle)
    (len d1 d2 : Nat) (hsize : entry.data.size < 2 ^ 64)
    (hlen : entry.currentOffset + len ≤ entry.data.size) :
    BUGS_ioRead.advances entry len
        = (entry.currentOffset + len) / 4 - entry.currentOffset / 4
    ∧ readPreAlign.advances entry.currentOffset (preAlignOf entry.currentOffset len)
        = (if 0 < preAlignOf entry.currentOffset len
              ∧ (entry.currentOffset + preAlignOf entry.currentOffset len) % 4 = 0
           then 1 else 0)
    ∧ readAligned.advances (alignOf entry.currentOffset len)
        = alignOf entry.currentOffset len / 4
    ∧ readPostAlign.advances (postAlignOf entry.currentOffset len) = 0
    ∧ (∀ io magic d,
        (readPreAlign g io entry.currentOffset (preAlignOf entry.currentOffset len) magic d).2.1
          = (fun s => (advanceMagic g s).2)^[readPreAlign.advances entry.currentOffset
              (preAlignOf entry.currentOffset len)] magic)
    ∧ (∀ io magic,
        (readAligned g io (alignOf entry.currentOffset len) magic).2.1
          = (fun s => (advanceMagic g s).2)^[readAligned.advances
              (alignOf entry.currentOffset len)] magic)
    ∧ (BUGS_ioRead g entry len d1 d2).entry.currentMagic
        = (fun s => (advanceMagic g s).2)^[BUGS_ioRead.advances entry len] entry.currentMagic
    ∧ (BUGS_ioRead g entry len d1 d2).entry.currentOffset = entry.currentOffset + len
    ∧ (StreamInvariant g entry → StreamInvariant g (BUGS_ioRead g entry len d1 d2).entry) := by
  have hl : len < 2 ^ 64 := by omega
  have hcount := BUGS_ioRead_advances_eq entry len hl
  have hmagic : (BUGS_ioRead g entry len d1 d2).entry.currentMagic
      = keystream g entry.currentMagic (BUGS_ioRead.advances entry len) := by
    rw [BUGS_ioRead_magic g entry len d1 d2 hl, hcount]
  have hoffset : (BUGS_ioRead g entry len d1 d2).entry.currentOffset
      = entry.currentOffset + len := by
    show (entry.currentOffset + toReadOf entry len) % UINT64_MOD = _
    unfold toReadOf UINT64_MOD
    have h1 : (entry.data.size + 18446744073709551616 - entry.currentOffset)
        % 18446744073709551616 = entry.data.size - entry.currentOffset := by
      have : entry.data.size + 18446744073709551616 - entry.currentOffset
          = (entry.data.size - entry.currentOffset) + 18446744073709551616 := by omega
      rw [this, Nat.add_mod_right]
      exact Nat.mod_eq_of_lt (by omega)
    rw [h1, Nat.min_eq_right (by omega)]
    exact Nat.mod_eq_of_lt (by omega)
  refine ⟨by rw [hcount]; omega, readPreAlign_advances_eq _ _, readAligned_advances_eq _, rfl,
    fun io magic d => readPreAlign_magic_advances g io _ _ magic d, ?_, hmagic, hoffset, ?_⟩
  · intro io magic
    rw [readAligned_magic, readAligned_advances_eq]
    rfl
  · intro hinv
    unfold StreamInvariant at hinv ⊢
    rw [hmagic, hoffset, hcount, hinv, keystream_add]
    show keystream g entry.data.startMagic _ = keystream g entry.data.startMagic _
    congr 1
    omega

/-- C29, at a concrete input: the handle at offset 5 of the 20-byte entry, keys 5 and
1, a read of 9 bytes (3 to the boundary at 8, one word, 2 more): two calls. -/
theorem C29_read_advances_witness :
    BUGS_ioRead.advances sampleHandle 9 = 2
    ∧ readPreAlign.advances 5 (preAlignOf 5 9) = 1
    ∧ readAligned.advances (alignOf 5 9) = 1
    ∧ (BUGS_ioRead otherKeys sampleHandle 9 0 0).entry.currentMagic
        = (fun s => (advanceMagic otherKeys s).2)^[2] sampleHandle.currentMagic
    ∧ (BUGS_ioRead otherKeys sampleHandle 9 0 0).entry.currentOffset = 14 := by
  have h := C29_read_advances_on_boundaries otherKeys sampleHandle 9 0 0 (by decide) (by decide)
  have hc : BUGS_ioRead.advances sampleHandle 9 = 2 := h.1
  refine ⟨hc, by decide, by decide, ?_, h.2.2.2.2.2.2.2.1⟩
  have hm := h.2.2.2.2.2.2.1
  rw [hc] at hm
  exact hm

/-! ## Seek: the postcondition -/

theorem keystream_eq_iterate (g : BUGS_archiveData) (hM : g.keyMultiplier = 7)
    (hA : g.keyAdditive = 3) (s n : Nat) :
    keystream g s n = baseTransition^[n] s := by
  unfold keystream
  congr 1
  funext x
  rw [advanceMagic_rgss g hM hA x]
  unfold baseTransition
  rw [Nat.mul_comm]

/-- C30. Seek postcondition: with key multiplier 7 and additive 3, for every entry of
at most 2^32 bytes, every handle satisfying the stream invariant and every target
below the size and different from `currentOffset`, `BUGS_ioSeek` returns 1, sets
`currentOffset` to the target, repositions the container stream to the entry's
physical offset plus the target (in `uint64_t`), and sets `currentMagic` to the base transition
applied `floor(target/4)` times to `startMagic`: on a forward seek that is the old
`currentMagic` advanced by `floor(target/4) - floor(currentOffset/4)` words, on a
rewind it is `startMagic` advanced by `floor(target/4)` words by the skip-ahead. The
invariant holds again. -/
theorem C30_seek_postcondition (g : BUGS_archiveData) (hM : g.keyMultiplier = 7)
    (hA : g.keyAdditive = 3) (entry : BUGS_entryHandle) (target : Nat)
    (hsize : entry.data.size ≤ 2 ^ 32) (hinv : StreamInvariant g entry)
    (hlt : target < entry.data.size) (hne : target ≠ entry.currentOffset) :
    ∃ e, BUGS_ioSeek entry target = some (1, e)
      ∧ e.currentOffset = target
      ∧ e.currentMagic = baseTransition^[target / 4] entry.data.startMagic
      ∧ e.data = entry.data
      ∧ e.io.pos = (entry.data.offset + target) % 2 ^ 64
      ∧ e.io.bytes = entry.io.bytes
      ∧ (entry.currentOffset < target →
          e.currentMagic
            = baseTransition^[target / 4 - entry.currentOffset / 4] entry.currentMagic)
      ∧ (target < entry.currentOffset →
          advanceMagicN entry.data.startMagic (target / 4)
            = some (entry.data.startMagic, e.currentMagic))
      ∧ StreamInvariant g e := by
  have hseek := BUGS_ioSeek_inside g hM hA entry target hinv hlt hsize hne
  refine ⟨_, hseek, rfl, keystream_eq_iterate g hM hA _ _, rfl, rfl, rfl, ?_, ?_, rfl⟩
  · intro hfwd
    show keystream g entry.data.startMagic (target / 4) = _
    have hc : entry.currentMagic
        = keystream g entry.data.startMagic (entry.currentOffset / 4) := hinv
    rw [hc, ← keystream_eq_iterate g hM hA, keystream_add]
    congr 1
    omega
  · intro _
    show advanceMagicN entry.data.startMagic (target / 4)
      = some (entry.data.startMagic, keystream g entry.data.startMagic (target / 4))
    exact advanceMagicN_eq_keystream g hM hA _ _ (by
      have : target < 2 ^ 32 := by omega
      omega)

/-- C30, at concrete inputs: the handle at offset 5 of the 20-byte entry sought forward
to 13 and back to 2. -/
theorem C30_seek_postcondition_witness :
    (∃ e, BUGS_ioSeek sampleHandle 13 = some (1, e)
      ∧ e.currentOffset = 13
      ∧ e.currentMagic = baseTransition^[3] 3735928559)
    ∧ (∃ e, BUGS_ioSeek sampleHandle 2 = some (1, e)
      ∧ e.currentOffset = 2
      ∧ e.currentMagic = 3735928559) :=
  ⟨(C30_seek_postcondition rgssKeys rfl rfl sampleHandle 13 (by decide) (by decide) (by decide)
      (by decide)).imp fun _ h => ⟨h.1, h.2.1, h.2.2.1⟩,
   (C30_seek_postcondition rgssKeys rfl rfl sampleHandle 2 (by decide) (by decide) (by decide)
      (by decide)).imp fun _ h => ⟨h.1, h.2.1, h.2.2.1⟩⟩

/-! ## Patch versions -/

theorem BUGS_openRead_of_lookup (patchData : BUGS_patchData) (filename : StdString)
    (e : BUGS_entryData) (h : List.lookup filename patchData.data.entryHash = some e) :
    BUGS_openRead patchData filename
      = if patchData.patchVersion = e.patchVersion
        then some (BUGS_entryHandle.ctor e patchData.archiveIo) else none := by
  by_cases hv : patchData.patchVersion = e.patchVersion
  · rw [if_pos hv]
    simp [BUGS_openRead, BoostHash.contains, BoostHash.value, h, hv]
  · rw [if_neg hv]
    have hv2 : ¬ e.patchVersion = patchData.patchVersion := fun h2 => hv h2.symm
    simp [BUGS_openRead, BoostHash.contains, BoostHash.value, h, hv2]

theorem BUGS_openRead_of_lookup_none (patchData : BUGS_patchData) (filename : StdString)
    (h : List.lookup filename patchData.data.entryHash = none) :
    BUGS_openRead patchData filename = none := by
  simp [BUGS_openRead, BoostHash.contains, h]

/-- One index serves a path to mounts of one tag only: the file index holds one entry
per path, and `BUGS_openRead` compares the mount's tag with that entry's version. -/
theorem BUGS_openRead_one_tag (d : BUGS_archiveData) (io1 io2 : PHYSFS_Io) (v1 v2 : Nat)
    (p : StdString)
    (h1 : (BUGS_openRead { archiveIo := io1, patchVersion := v1, data := d } p).isSome = true)
    (h2 : (BUGS_openRead { archiveIo := io2, patchVersion := v2, data := d } p).isSome = true) :
    v1 = v2 := by
  cases hl : List.lookup p d.entryHash with
  | none =>
    rw [BUGS_openRead_of_lookup_none _ p hl] at h1
    simp at h1
  | some e =>
    rw [BUGS_openRead_of_lookup _ p e hl] at h1 h2
    simp only at h1 h2
    by_cases e1 : v1 = e.patchVersion
    · by_cases e2 : v2 = e.patchVersion
      · rw [e1, e2]
      · rw [if_neg e2] at h2
        simp at h2
    · rw [if_neg e1] at h1
      simp at h1

/-- C21, the claim as stated fails on the header with two records for the path
`e.txt`, version 1 at offset 100 and version 2 at offset 200: the parse succeeds, and
`BUGS_openRead` on `e.txt` does not succeed both on the mount tagged 1 and on the
mount tagged 2. -/
theorem C21_same_path_is_served_to_one_tag :
    ∃ d, BUGS_openMetaArchive (sampleHead ++ encodeRecords samplePassword 0 patchedRecords)
          samplePassword 7 3 sampleIndeterminate zeroFileName = .built d []
      ∧ ¬ ((BUGS_openRead { archiveIo := sampleIo, patchVersion := 1, data := d }
              [101, 46, 116, 120, 116]).isSome = true
          ∧ (BUGS_openRead { archiveIo := sampleIo, patchVersion := 2, data := d }
              [101, 46, 116, 120, 116]).isSome = true) := by
  have hparse := BUGS_openMetaArchive_encoded samplePassword 7 3 sampleIndeterminate
    zeroFileName sampleHead [] patchedRecords (by decide) (by decide) (by decide) (by decide)
    zeroFileName_length (by decide)
  rw [List.append_nil] at hparse
  refine ⟨_, hparse, ?_⟩
  rintro ⟨h1, h2⟩
  exact absurd (BUGS_openRead_one_tag _ _ _ _ _ _ h1 h2) (by decide)

/-- C21, amended. For every header whose records include the path `p` (once or several
times, with whatever versions), after the successful parse the file index holds one
entry for `p`, built from one of the records with that path; `BUGS_openRead` on `p`
succeeds exactly on the mounts tagged with that record's version, where it returns a
stream on that record's payload range (its offset and size), and fails on every other
mount, those tagged with the version of another record for `p` included. -/
theorem C21_one_record_per_path (password : List Nat) (keyMultiplier keyAdditive : Int)
    (u : Indeterminate) (fileName head : List Nat) (recs : List HeaderRecord)
    (hpos : 0 < password.length) (hlt : password.length < 2147483648)
    (hb : ∀ c ∈ password, c < 256)
    (hhead : head.length = 8) (hf : fileName.length = 512)
    (hwf : ∀ r ∈ recs, r.WellFormed)
    (p : StdString) (hp : ∃ r ∈ recs, r.fileName = p) :
    ∃ d, BUGS_openMetaArchive (head ++ encodeRecords password 0 recs) password
          keyMultiplier keyAdditive u fileName = .built d []
      ∧ ∃ r ∈ recs, r.fileName = p
        ∧ ∀ (io : PHYSFS_Io) (v : Nat),
            BUGS_openRead { archiveIo := io, patchVersion := v, data := d } p
              = if v = r.patchVersion
                then some { data := { u.entry with
                                      offset := r.offset
                                      size := r.fileSize
                                      startMagic := r.startMagic
                                      patchVersion := r.patchVersion }
                            currentMagic := r.startMagic
                            currentOffset := 0
                            io := io
                            patchVersion := r.patchVersion }
                else none := by
  have hparse := BUGS_openMetaArchive_encoded password keyMultiplier keyAdditive u fileName
    head [] recs hpos hlt hb hhead hf hwf
  rw [List.append_nil] at hparse
  refine ⟨_, hparse, ?_⟩
  obtain ⟨r0, hr0, hr0p⟩ := hp
  cases hfind : recs.find? (fun r => decide (r.fileName = p)) with
  | none =>
    have := List.find?_eq_none.1 hfind r0 hr0
    simp [hr0p] at this
  | some r =>
    have hmem : r ∈ recs := List.mem_of_find?_eq_some hfind
    have hname : r.fileName = p := by
      have := List.find?_some hfind
      simpa using this
    refine ⟨r, hmem, hname, ?_⟩
    intro io v
    have hl : List.lookup p
        ((afterRecords u (BUGS_openMetaArchive.init password keyMultiplier keyAdditive)
          fileName 0 recs)).entryHash = some (r.toEntry u) := by
      rw [afterRecords_entryHash, lookup_insertRecords, hfind]
      rfl
    rw [BUGS_openRead_of_lookup _ p _ hl]
    rfl

/-- C21 amended, at the header with two records for `e.txt`. -/
theorem C21_one_record_per_path_witness :
    ∃ d, BUGS_openMetaArchive (sampleHead ++ encodeRecords samplePassword 0 patchedRecords)
          samplePassword 7 3 sampleIndeterminate zeroFileName = .built d []
      ∧ ∃ r ∈ patchedRecords, r.fileName = [101, 46, 116, 120, 116]
        ∧ ∀ (io : PHYSFS_Io) (v : Nat),
            BUGS_openRead { archiveIo := io, patchVersion := v, data := d }
                [101, 46, 116, 120, 116]
              = if v = r.patchVersion
                then some { data := { sampleIndeterminate.entry with
                                      offset := r.offset
                                      size := r.fileSize
                                      startMagic := r.startMagic
                                      patchVersion := r.patchVersion }
                            currentMagic := r.startMagic
                            currentOffset := 0
                            io := io
                            patchVersion := r.patchVersion }
                else none :=
  C21_one_record_per_path samplePassword 7 3 sampleIndeterminate zeroFileName sampleHead
    patchedRecords (by decide) (by decide) (by decide) (by decide) zeroFileName_length
    (by decide) [101, 46, 116, 120, 116] (by decide)

/-! ## What every successful parse leaves in the directory index -/

theorem guard_built {α : Type} (step : Option (Bool × α)) (next : α → MetaArchive)
    (d : BUGS_archiveData) (io : List Nat)
    (h : MetaArchive.guard step next = .built d io) :
    ∃ a, step = some (true, a) ∧ next a = .built d io := by
  unfold MetaArchive.guard at h
  cases step with
  | none => simp at h
  | some r =>
    obtain ⟨ok, a⟩ := r
    cases ok with
    | false => simp at h
    | true => exact ⟨a, rfl, h⟩

theorem readUint32AndXor_dirHash (d : BUGS_archiveData) (io buff : List Nat) (result : Nat)
    (r : Nat × BUGS_archiveData × List Nat)
    (h : readUint32AndXor d io buff result = some (true, r)) :
    r.2.1.dirHash = d.dirHash := by
  unfold readUint32AndXor at h
  simp only at h
  split at h
  · simp at h
  · split at h
    · simp at h
    · simp only [Option.some.injEq, Prod.mk.injEq, true_and] at h
      rw [← h]

theorem decryptChars_dirHash :
    ∀ (bs : List Nat) (d : BUGS_archiveData) (r : List Nat × BUGS_archiveData),
      decryptChars d bs = some r → r.2.dirHash = d.dirHash := by
  intro bs
  induction bs with
  | nil =>
    intro d r h
    simp only [decryptChars, Option.some.injEq] at h
    rw [← h]
  | cons b bs ih =>
    intro d r h
    rw [decryptChars] at h
    split at h
    · simp at h
    · split at h
      · simp at h
      · rename_i r2 h2
        simp only [Option.some.injEq] at h
        rw [← h]
        have h3 := ih _ r2 h2
        exact h3

theorem decryptAndReadString_dirHash (d : BUGS_archiveData) (io buffer : List Nat)
    (stringLength : Int) (r : List Nat × BUGS_archiveData × List Nat)
    (h : decryptAndReadString d io buffer stringLength = some (true, r)) :
    r.2.1.dirHash = d.dirHash := by
  unfold decryptAndReadString at h
  split at h
  · simp at h
  · simp only at h
    split at h
    · simp at h
    · rename_i r2 h2
      simp only [Option.some.injEq, Prod.mk.injEq, true_and] at h
      rw [← h]
      exact decryptChars_dirHash _ _ _ h2

theorem more_invariant (Inv : BoostHash BoostSet → Prop)
    (hstep : ∀ h dir e, Inv h → Inv (h.insertChild dir e)) :
    ∀ (i : Nat) (nameBuf : List Nat) (h : BoostHash BoostSet),
      Inv h → Inv (processDirectories.more i nameBuf h).2 := by
  intro i
  induction i with
  | zero => intro nameBuf h hi; exact hi
  | succ i ih =>
    intro nameBuf h hi
    rw [processDirectories.more]
    split
    · exact ih _ _ (hstep _ _ _ hi)
    · exact ih _ _ hi

/-- What insertions into child sets preserve, `processDirectories` preserves. -/
theorem processDirectories_invariant (Inv : BoostHash BoostSet → Prop)
    (hstep : ∀ h dir e, Inv h → Inv (h.insertChild dir e))
    (d : BUGS_archiveData) (nameBuf : List Nat) (nameLen : Nat) (hi : Inv d.dirHash) :
    Inv (processDirectories d nameBuf nameLen).1.dirHash := by
  unfold processDirectories
  simp only
  apply more_invariant Inv hstep
  split
  · exact hi
  · exact hstep _ _ _ hi

/-- What insertions into child sets preserve holds of the directory index of every
archive data the parse loop leaves by `break`, whatever the stream held. -/
theorem loop_invariant (u : Indeterminate) (Inv : BoostHash BoostSet → Prop)
    (hstep : ∀ h dir e, Inv h → Inv (h.insertChild dir e)) :
    ∀ (fuel : Nat) (d : BUGS_archiveData) (io fileName : List Nat) (v : HeaderLocals)
      (d2 : BUGS_archiveData) (io2 : List Nat),
      Inv d.dirHash → BUGS_openMetaArchive.loop u fuel d io fileName v = .built d2 io2 →
      Inv d2.dirHash := by
  intro fuel
  induction fuel with
  | zero =>
    intro d io fileName v d2 io2 _ h
    simp [BUGS_openMetaArchive.loop] at h
  | succ fuel ih =>
    intro d io fileName v d2 io2 hi h
    rw [BUGS_openMetaArchive.loop] at h
    obtain ⟨r1, e1, h⟩ := guard_built _ _ _ _ h
    have c1 := readUint32AndXor_dirHash _ _ _ _ _ e1
    split at h
    · simp only [MetaArchive.built.injEq] at h
      rw [← h.1, c1]
      exact hi
    · obtain ⟨r2, e2, h⟩ := guard_built _ _ _ _ h
      have c2 := readUint32AndXor_dirHash _ _ _ _ _ e2
      obtain ⟨r3, e3, h⟩ := guard_built _ _ _ _ h
      have c3 := readUint32AndXor_dirHash _ _ _ _ _ e3
      obtain ⟨r4, e4, h⟩ := guard_built _ _ _ _ h
      have c4 := readUint32AndXor_dirHash _ _ _ _ _ e4
      obtain ⟨r5, e5, h⟩ := guard_built _ _ _ _ h
      have c5 := readUint32AndXor_dirHash _ _ _ _ _ e5
      obtain ⟨r6, e6, h⟩ := guard_built _ _ _ _ h
      have c6 := readUint32AndXor_dirHash _ _ _ _ _ e6
      obtain ⟨r7, e7, h⟩ := guard_built _ _ _ _ h
      have c7 := decryptAndReadString_dirHash _ _ _ _ _ e7
      refine ih _ _ _ _ _ _ ?_ h
      apply processDirectories_invariant Inv hstep
      show Inv r7.2.1.dirHash
      rw [c7, c6, c5, c4, c3, c2, c1]
      exact hi

/-- The same for the whole of `BUGS_openMetaArchive`: a property of the directory index
that holds with the root alone and is kept by insertions into child sets holds after
every successful parse. -/
theorem BUGS_openMetaArchive_invariant (Inv : BoostHash BoostSet → Prop)
    (hinit : Inv (BoostHash.touch [] []))
    (hstep : ∀ h dir e, Inv h → Inv (h.insertChild dir e))
    (archive password : List Nat) (keyMultiplier keyAdditive : Int) (u : Indeterminate)
    (fileName : List Nat) (d : BUGS_archiveData) (io : List Nat)
    (h : BUGS_openMetaArchive archive password keyMultiplier keyAdditive u fileName
          = .built d io) :
    Inv d.dirHash :=
  loop_invariant u Inv hstep _ _ _ _ _ _ _ hinit h

/-! ## The mount driver: `stat` -/

/-- The directory index after one insertion into a child set, key by key. -/
theorem lookup_insertChild (h : BoostHash BoostSet) (dir e k : StdString) :
    List.lookup k (h.insertChild dir e)
      = if k = dir then some (BoostSet.insert (h.children dir) e) else List.lookup k h := by
  unfold BoostHash.insertChild BoostHash.children BoostHash.contains
  by_cases hc : (List.lookup dir h).isSome = true
  · rw [if_pos hc]
    have hmap : h.map (fun kv => if kv.1 = dir then (kv.1, BoostSet.insert kv.2 e) else kv)
        = h.map (fun kv => (kv.1,
            (fun k s => if k = dir then BoostSet.insert s e else s) kv.1 kv.2)) := by
      apply List.map_congr_left
      intro kv _
      by_cases hk : kv.1 = dir <;> simp [hk]
    rw [hmap, lookup_map_values (fun k s => if k = dir then BoostSet.insert s e else s) k h]
    by_cases hk : k = dir
    · subst hk
      obtain ⟨s, hs⟩ := Option.isSome_iff_exists.1 hc
      simp [hs]
    · simp [hk]
  · rw [if_neg hc, List.lookup_append, lookup_singleton]
    have hnone : List.lookup dir h = none := by
      cases hl : List.lookup dir h with
      | none => rfl
      | some s => rw [hl] at hc; exact absurd rfl hc
    by_cases hk : k = dir
    · subst hk
      rw [hnone]
      simp [BoostSet.insert]
    · simp [hk]

/-- The root directory `""` is a key of the directory index after every successful
parse. -/
theorem root_is_directory_key (archive password : List Nat) (keyMultiplier keyAdditive : Int)
    (u : Indeterminate) (fileName : List Nat) (d : BUGS_archiveData) (io : List Nat)
    (h : BUGS_openMetaArchive archive password keyMultiplier keyAdditive u fileName
          = .built d io) :
    d.dirHash.contains [] = true := by
  refine BUGS_openMetaArchive_invariant (fun h => h.contains [] = true) (by decide) ?_
    archive password keyMultiplier keyAdditive u fileName d io h
  intro h dir e hi
  unfold BoostHash.contains at hi ⊢
  rw [lookup_insertChild]
  split
  · rfl
  · exact hi

theorem BUGS_stat_absent (patchData : BUGS_patchData) (filename : StdString)
    (stat : PHYSFS_Stat) (errorCode : PHYSFS_ErrorCode)
    (hf : patchData.data.entryHash.contains filename = false)
    (hd : patchData.data.dirHash.contains filename = false) :
    BUGS_stat patchData filename stat errorCode = (0, stat, .PHYSFS_ERR_NOT_FOUND) := by
  simp [BUGS_stat, hf, hd]

theorem BUGS_stat_file (patchData : BUGS_patchData) (filename : StdString)
    (stat : PHYSFS_Stat) (errorCode : PHYSFS_ErrorCode) (e : BUGS_entryData)
    (hf : List.lookup filename patchData.data.entryHash = some e) :
    BUGS_stat patchData filename stat errorCode
      = (1, { filesize := toSint64 e.size, modtime := 0, createtime := 0, accesstime := 0,
              filetype := .PHYSFS_FILETYPE_REGULAR, readonly := 1 }, errorCode) := by
  simp [BUGS_stat, BoostHash.contains, BoostHash.value, hf]

theorem BUGS_stat_directory (patchData : BUGS_patchData) (filename : StdString)
    (stat : PHYSFS_Stat) (errorCode : PHYSFS_ErrorCode)
    (hf : patchData.data.entryHash.contains filename = false)
    (hd : patchData.data.dirHash.contains filename = true) :
    BUGS_stat patchData filename stat errorCode
      = (1, { filesize := 0, modtime := 0, createtime := 0, accesstime := 0,
              filetype := .PHYSFS_FILETYPE_DIRECTORY, readonly := 1 }, errorCode) := by
  simp [BUGS_stat, hf, hd]

theorem toSint64_small (n : Nat) (h : n < 2 ^ 63) : toSint64 n = (n : Int) := by
  unfold toSint64 UINT64_MOD
  have h2 : n % 18446744073709551616 = n := by omega
  rw [h2, if_pos (by omega)]

/-- C22, the claim as stated fails after the successful parse of a header whose one
record has an empty name (20 bytes at offset 100): `""` is then a key of the file
index as well, and `BUGS_stat` on the root path `""` reports a regular file of 20
bytes, not a directory. -/
theorem C22_root_stats_as_file_after_empty_name :
    ∃ d, BUGS_openMetaArchive (sampleHead ++ encodeRecords samplePassword 0 rootFileRecords)
          samplePassword 7 3 sampleIndeterminate zeroFileName = .built d []
      ∧ d.entryHash.contains [] = true
      ∧ d.dirHash.contains [] = true
      ∧ BUGS_stat { archiveIo := sampleIo, patchVersion := 1, data := d } [] sampleStat
            .PHYSFS_ERR_OK
          = (1, { filesize := 20, modtime := 0, createtime := 0, accesstime := 0,
                  filetype := .PHYSFS_FILETYPE_REGULAR, readonly := 1 }, .PHYSFS_ERR_OK) := by
  have hparse := BUGS_openMetaArchive_encoded samplePassword 7 3 sampleIndeterminate
    zeroFileName sampleHead [] rootFileRecords (by decide) (by decide) (by decide) (by decide)
    zeroFileName_length (by decide)
  rw [List.append_nil] at hparse
  have hl : List.lookup []
      (afterRecords sampleIndeterminate (BUGS_openMetaArchive.init samplePassword 7 3)
        zeroFileName 0 rootFileRecords).entryHash
      = some { offset := 100, patchVersion := 1, checksum := 77, size := 20,
               startMagic := 5 } := by
    rw [afterRecords_entryHash, lookup_insertRecords]
    rfl
  refine ⟨_, hparse, ?_, root_is_directory_key _ _ _ _ _ _ _ _ hparse, ?_⟩
  · unfold BoostHash.contains
    rw [hl]
    rfl
  · rw [BUGS_stat_file _ [] sampleStat .PHYSFS_ERR_OK _ hl]
    rfl

/-- C22, amended. `BUGS_stat` checks the file index first, then the directory index:
for every mount, path and caller's `stat`, it fails (returns 0, sets the error code
`PHYSFS_ERR_NOT_FOUND`, leaves `stat` alone) exactly when the path is a key of neither
index; on a file key it reports a regular read-only file with the entry's size and
zero times, also when the path is a directory key too; on a path that is only a
directory key it reports a read-only directory of size 0. After every successful
parse the root path `""` is a directory key, so `stat` on it succeeds; it reports a
directory when `""` is not a file key as well. -/
theorem C22_stat_checks_files_then_directories (patchData : BUGS_patchData)
    (filename : StdString) (stat : PHYSFS_Stat) (errorCode : PHYSFS_ErrorCode) :
    ((BUGS_stat patchData filename stat errorCode).1 = 0
        ↔ patchData.data.entryHash.contains filename = false
          ∧ patchData.data.dirHash.contains filename = false)
    ∧ ((BUGS_stat patchData filename stat errorCode).1 = 0 →
        BUGS_stat patchData filename stat errorCode = (0, stat, .PHYSFS_ERR_NOT_FOUND))
    ∧ (∀ e, List.lookup filename patchData.data.entryHash = some e →
        BUGS_stat patchData filename stat errorCode
          = (1, { filesize := toSint64 e.size, modtime := 0, createtime := 0, accesstime := 0,
                  filetype := .PHYSFS_FILETYPE_REGULAR, readonly := 1 }, errorCode)
        ∧ (e.size < 2 ^ 63 → toSint64 e.size = (e.size : Int)))
    ∧ (patchData.data.entryHash.contains filename = false →
        patchData.data.dirHash.contains filename = true →
        BUGS_stat patchData filename stat errorCode
          = (1, { filesize := 0, modtime := 0, createtime := 0, accesstime := 0,
                  filetype := .PHYSFS_FILETYPE_DIRECTORY, readonly := 1 }, errorCode))
    ∧ (∀ (archive password : List Nat) (keyMultiplier keyAdditive : Int) (u : Indeterminate)
        (fileName rest : List Nat),
        BUGS_openMetaArchive archive password keyMultiplier keyAdditive u fileName
            = .built patchData.data rest →
        (BUGS_stat patchData [] stat errorCode).1 = 1
        ∧ (patchData.data.entryHash.contains [] = false →
            BUGS_stat patchData [] stat errorCode
              = (1, { filesize := 0, modtime := 0, createtime := 0, accesstime := 0,
                      filetype := .PHYSFS_FILETYPE_DIRECTORY, readonly := 1 }, errorCode))) := by
  have hfile : ∀ e, List.lookup filename patchData.data.entryHash = some e →
      BUGS_stat patchData filename stat errorCode
        = (1, { filesize := toSint64 e.size, modtime := 0, createtime := 0, accesstime := 0,
                filetype := .PHYSFS_FILETYPE_REGULAR, readonly := 1 }, errorCode) :=
    fun e he => BUGS_stat_file patchData filename stat errorCode e he
  have hzero : (BUGS_stat patchData filename stat errorCode).1 = 0
      ↔ patchData.data.entryHash.contains filename = false
        ∧ patchData.data.dirHash.contains filename = false := by
    cases hl : List.lookup filename patchData.data.entryHash with
    | some e =>
      rw [hfile e hl]
      simp [BoostHash.contains, hl]
    | none =>
      have hf : patchData.data.entryHash.contains filename = false := by
        simp [BoostHash.contains, hl]
      cases hd : patchData.data.dirHash.contains filename with
      | false =>
        rw [BUGS_stat_absent patchData filename stat errorCode hf hd]
        simp [hf]
      | true =>
        rw [BUGS_stat_directory patchData filename stat errorCode hf hd]
        simp
  refine ⟨hzero, ?_, ?_, ?_, ?_⟩
  · intro h0
    obtain ⟨hf, hd⟩ := hzero.1 h0
    exact BUGS_stat_absent patchData filename stat errorCode hf hd
  · intro e he
    exact ⟨hfile e he, toSint64_small e.size⟩
  · intro hf hd
    exact BUGS_stat_directory patchData filename stat errorCode hf hd
  · intro archive password keyMultiplier keyAdditive u fileName rest hparse
    have hroot := root_is_directory_key _ _ _ _ _ _ _ _ hparse
    constructor
    · cases hl : List.lookup [] patchData.data.entryHash with
      | some e => rw [BUGS_stat_file patchData [] stat errorCode e hl]
      | none =>
        have hf : patchData.data.entryHash.contains [] = false := by
          simp [BoostHash.contains, hl]
        rw [BUGS_stat_directory patchData [] stat errorCode hf hroot]
    · intro hf
      exact BUGS_stat_directory patchData [] stat errorCode hf hroot

/-- C22 amended, at the mount tagged 1 over the parse of the three sample records:
`stat` on the root succeeds. -/
theorem C22_stat_witness :
    (BUGS_stat
        { archiveIo := sampleIo, patchVersion := 1,
          data := afterRecords sampleIndeterminate (BUGS_openMetaArchive.init samplePassword 7 3)
                    zeroFileName 0 sampleRecords }
        [] sampleStat .PHYSFS_ERR_OK).1 = 1 :=
  ((C22_stat_checks_files_then_directories
      { archiveIo := sampleIo, patchVersion := 1,
        data := afterRecords sampleIndeterminate (BUGS_openMetaArchive.init samplePassword 7 3)
                  zeroFileName 0 sampleRecords }
      [] sampleStat .PHYSFS_ERR_OK).2.2.2.2
    (sampleHead ++ (encodeRecords samplePassword 0 sampleRecords ++ [])) samplePassword 7 3
    sampleIndeterminate zeroFileName []
    (BUGS_openMetaArchive_encoded samplePassword 7 3 sampleIndeterminate zeroFileName sampleHead
      [] sampleRecords (by decide) (by decide) (by decide) (by decide) zeroFileName_length
      (by decide))).1

/-! ## The mount driver: `enumerate` -/

theorem BoostSet_insert_nodup (s : BoostSet) (e : StdString) (h : s.Nodup) :
    (BoostSet.insert s e).Nodup := by
  unfold BoostSet.insert
  split
  · exact h
  · rename_i hne
    rw [List.nodup_append]
    refine ⟨h, List.nodup_singleton e, ?_⟩
    intro a ha hb
    rw [List.mem_singleton] at hb
    exact hne (hb ▸ ha)

/-- No child set of the directory index of a successful parse holds a name twice. -/
theorem children_nodup (archive password : List Nat) (keyMultiplier keyAdditive : Int)
    (u : Indeterminate) (fileName : List Nat) (d : BUGS_archiveData) (io : List Nat)
    (h : BUGS_openMetaArchive archive password keyMultiplier keyAdditive u fileName
          = .built d io) (dirname : StdString) :
    (d.dirHash.children dirname).Nodup := by
  have hall : ∀ k s, List.lookup k d.dirHash = some s → s.Nodup := by
    refine BUGS_openMetaArchive_invariant
      (fun h => ∀ k s, List.lookup k h = some s → s.Nodup) ?_ ?_
      archive password keyMultiplier keyAdditive u fileName d io h
    · intro k s hs
      have hs2 : List.lookup k [(([] : StdString), ([] : BoostSet))] = some s := hs
      rw [lookup_singleton] at hs2
      split at hs2
      · simp only [Option.some.injEq] at hs2
        rw [← hs2]
        exact List.nodup_nil
      · simp at hs2
    · intro h dir e hi k s hs
      rw [lookup_insertChild] at hs
      split at hs
      · simp only [Option.some.injEq] at hs
        rw [← hs]
        apply BoostSet_insert_nodup
        unfold BoostHash.children
        cases hl : List.lookup dir h with
        | none => exact List.nodup_nil
        | some s2 => exact hi dir s2 hl
      · exact hi k s hs
  unfold BoostHash.children
  cases hl : List.lookup dirname d.dirHash with
  | none => exact List.nodup_nil
  | some s => exact hall dirname s hl

/-- C23. `BUGS_enumerateFiles` visits each child once or reports absence: on a mount
over the index of any successful parse, for every directory path and every callback,
if the path is not a key of the directory index the callback is not invoked (the
caller's data is returned as it was) and the result is `PHYSFS_ENUM_STOP`; otherwise
the result is `PHYSFS_ENUM_OK` and the callback has been invoked, whatever it
answered, on the names of a list without repetition whose members are the child names
of the directory: once on each child name and on nothing else. -/
theorem C23_enumerate_visits_each_child_once (archive password : List Nat)
    (keyMultiplier keyAdditive : Int) (u : Indeterminate) (fileName : List Nat)
    (d : BUGS_archiveData) (rest : List Nat)
    (hparse : BUGS_openMetaArchive archive password keyMultiplier keyAdditive u fileName
                = .built d rest)
    (io : PHYSFS_Io) (v : Nat) (dirname origdir : StdString) (σ : Type)
    (cb : σ → StdString → StdString → PHYSFS_EnumerateCallbackResult × σ) (callbackdata : σ) :
    (d.dirHash.contains dirname = false →
        BUGS_enumerateFiles { archiveIo := io, patchVersion := v, data := d } dirname cb
            origdir callbackdata
          = (.PHYSFS_ENUM_STOP, callbackdata))
    ∧ (d.dirHash.contains dirname = true →
        ∃ names : List StdString,
          names.Nodup
          ∧ (∀ name, name ∈ names ↔ name ∈ d.dirHash.children dirname)
          ∧ BUGS_enumerateFiles { archiveIo := io, patchVersion := v, data := d } dirname cb
                origdir callbackdata
              = (.PHYSFS_ENUM_OK,
                  names.foldl (fun acc name => (cb acc origdir name).2) callbackdata)
          ∧ ∀ answer,
              BUGS_enumerateFiles { archiveIo := io, patchVersion := v, data := d } dirname
                  (recordingCallback answer) origdir []
                = (.PHYSFS_ENUM_OK, names)) := by
  constructor
  · intro hc
    simp [BUGS_enumerateFiles, hc]
  · intro hc
    have hnodup := children_nodup archive password keyMultiplier keyAdditive u fileName d rest
      hparse dirname
    refine ⟨d.dirHash.children dirname, hnodup, fun _ => Iff.rfl, ?_, ?_⟩
    · simp [BUGS_enumerateFiles, hc]
    · intro answer
      have hrec : ∀ (names acc : List StdString),
          names.foldl (fun acc name => (recordingCallback answer acc origdir name).2) acc
            = acc ++ names := by
        intro names
        induction names with
        | nil => intro acc; simp
        | cons n ns ih =>
          intro acc
          rw [List.foldl_cons, ih]
          simp [recordingCallback]
      simp [BUGS_enumerateFiles, hc, hrec]

theorem sampleArchiveData_parse :
    BUGS_openMetaArchive (sampleHead ++ (encodeRecords samplePassword 0 sampleRecords ++ []))
        samplePassword 7 3 sampleIndeterminate zeroFileName
      = .built sampleArchiveData [] :=
  BUGS_openMetaArchive_encoded samplePassword 7 3 sampleIndeterminate zeroFileName sampleHead
    [] sampleRecords (by decide) (by decide) (by decide) (by decide) zeroFileName_length
    (by decide)

set_option maxRecDepth 100000 in
/-- C23, at the mount tagged 1 over the parse of the three sample records: the root is
enumerated as `a`, `e.txt` (the name `a` comes from two paths and is visited once),
and the path `x`, not a directory, gives `PHYSFS_ENUM_STOP` without a call. -/
theorem C23_enumerate_witness :
    BUGS_enumerateFiles { archiveIo := sampleIo, patchVersion := 1, data := sampleArchiveData }
        [120] (recordingCallback .PHYSFS_ENUM_OK) [] []
      = (.PHYSFS_ENUM_STOP, [])
    ∧ BUGS_enumerateFiles { archiveIo := sampleIo, patchVersion := 1, data := sampleArchiveData }
        [] (recordingCallback .PHYSFS_ENUM_STOP) [] []
      = (.PHYSFS_ENUM_OK, [[97], [101, 46, 116, 120, 116]]) :=
  ⟨(C23_enumerate_visits_each_child_once _ samplePassword 7 3 sampleIndeterminate zeroFileName
      sampleArchiveData [] sampleArchiveData_parse sampleIo 1 [120] [] (List StdString)
      (recordingCallback .PHYSFS_ENUM_OK) []).1 (by decide),
    by decide⟩

/-! ## The mount driver: the tag of a mount -/

theorem regex_search_cons_other (b : Nat) (rest : StdString) (hb : isDigit b = false) :
    regex_search (b :: rest) = regex_search rest := by
  unfold regex_search
  simp [List.dropWhile_cons, hb]

theorem regex_search_cons_digit (b : Nat) (rest : StdString) (hb : isDigit b = true) :
    regex_search (b :: rest) = some (b :: rest.takeWhile isDigit) := by
  unfold regex_search
  simp [List.dropWhile_cons, List.takeWhile_cons, hb]

/-- The match of `\d+` is the first maximal run of digits. -/
theorem regex_search_eq_first_run :
    ∀ path : StdString, regex_search path = (digitRuns path).head? := by
  intro path
  induction path with
  | nil => rfl
  | cons b rest ih =>
    cases hb : isDigit b with
    | false =>
      rw [regex_search_cons_other b rest hb, ih]
      simp [digitRuns, hb]
    | true =>
      rw [regex_search_cons_digit b rest hb]
      cases rest with
      | nil => simp [digitRuns, digitRuns.cons, hb]
      | cons c r2 =>
        cases hc : isDigit c with
        | false =>
          simp [digitRuns, digitRuns.cons, hb, hc, List.takeWhile_cons]
        | true =>
          rw [regex_search_cons_digit c r2 hc] at ih
          cases hruns : digitRuns (c :: r2) with
          | nil =>
            rw [hruns] at ih
            simp at ih
          | cons run runs =>
            rw [hruns] at ih
            simp only [List.head?_cons, Option.some.injEq] at ih
            have hstep : digitRuns (b :: c :: r2) = (b :: run) :: runs := by
              rw [digitRuns, if_pos hb, hruns]
              simp [digitRuns.cons, hc]
            rw [hstep, List.head?_cons, ← ih]
            simp [List.takeWhile_cons, hc]

theorem toUint32_of_int_value (n : Nat) (h : n ≤ 2147483647) : toUint32 (n : Int) = n := by
  unfold toUint32
  omega

/-- C24, the claim as stated fails at the mount path `p1v2.bugs`: it has two separate
runs of digits, `1` and `2`, and `BUGS_openArchive` (not for write) returns a mount,
tagged 1. `sm.size()` counts the sub-matches of the first match, not the matches. -/
theorem C24_two_digit_runs_still_mount :
    digitRuns twoRunPath = [[49], [50]]
    ∧ regex_search twoRunPath = some [49]
    ∧ smatch_size (regex_search twoRunPath) = 1
    ∧ BUGS_openArchive rgssKeys sampleIo twoRunPath 0 0
        = (.mount { archiveIo := sampleIo, patchVersion := 1, data := rgssKeys }, 1) := by
  refine ⟨by decide, by decide, by decide, ?_⟩
  rfl

/-- C24, amended. A mount needs at least one digit run and is tagged by the first: for
every mount path, `BUGS_openArchive` called for write returns null and leaves
`*claimed` alone; called not for write it sets `*claimed` to 1 and then returns null
when the path has no decimal digit, which is when it has no run of digits; when the
path has one or more maximal runs of digits it returns a mount tagged with the value
of the first run, whatever follows that run, provided the value fits an `int`
(otherwise `std::stoi` throws). -/
theorem C24_mount_takes_first_digit_run (bugsMetaInformation : BUGS_archiveData)
    (io : PHYSFS_Io) (path : StdString) (claimed : Int) :
    (∀ forWrite : Int, forWrite ≠ 0 →
        BUGS_openArchive bugsMetaInformation io path forWrite claimed = (.null, claimed))
    ∧ (digitRuns path = [] ↔ ∀ b ∈ path, isDigit b = false)
    ∧ (digitRuns path = [] →
        BUGS_openArchive bugsMetaInformation io path 0 claimed = (.null, 1))
    ∧ (∀ run runs, digitRuns path = run :: runs → decimalValue run ≤ 2147483647 →
        BUGS_openArchive bugsMetaInformation io path 0 claimed
          = (.mount { archiveIo := io, patchVersion := decimalValue run,
                      data := bugsMetaInformation }, 1))
    ∧ (∀ run runs, digitRuns path = run :: runs → 2147483647 < decimalValue run →
        BUGS_openArchive bugsMetaInformation io path 0 claimed = (.out_of_range, 1)) := by
  refine ⟨?_, ?_, ?_, ?_, ?_⟩
  · intro forWrite hw
    simp [BUGS_openArchive, hw]
  · induction path with
    | nil => simp [digitRuns]
    | cons b rest ih =>
      cases hb : isDigit b with
      | false =>
        rw [digitRuns]
        simp only [hb, Bool.false_eq_true, if_false]
        rw [ih]
        simp [hb]
      | true =>
        have hne : digitRuns (b :: rest) ≠ [] := by
          rw [digitRuns, if_pos hb]
          unfold digitRuns.cons
          split <;> simp
        constructor
        · intro h
          exact absurd h hne
        · intro hall
          have := hall b (List.mem_cons_self _ _)
          rw [hb] at this
          exact absurd this (by decide)
  · intro hruns
    have hs : regex_search path = none := by
      rw [regex_search_eq_first_run, hruns]
      rfl
    simp [BUGS_openArchive, hs, smatch_size]
  · intro run runs hruns hfit
    have hs : regex_search path = some run := by
      rw [regex_search_eq_first_run, hruns]
      rfl
    have hstoi : stoi run = some (decimalValue run : Int) := by
      unfold stoi
      rw [if_pos hfit]
    simp [BUGS_openArchive, hs, smatch_size, hstoi, toUint32_of_int_value _ hfit]
  · intro run runs hruns hbig
    have hs : regex_search path = some run := by
      rw [regex_search_eq_first_run, hruns]
      rfl
    have hstoi : stoi run = none := by
      unfold stoi
      rw [if_neg (by omega)]
    simp [BUGS_openArchive, hs, smatch_size, hstoi]

/-- C24 amended, at the mount path `p1v2.bugs`: the tag is the value of the first
run. -/
theorem C24_mount_takes_first_digit_run_witness :
    BUGS_openArchive rgssKeys sampleIo twoRunPath 0 0
      = (.mount { archiveIo := sampleIo, patchVersion := decimalValue [49], data := rgssKeys }, 1) :=
  (C24_mount_takes_first_digit_run rgssKeys sampleIo twoRunPath 0).2.2.2.1 [49] [[50]]
    (by decide) (by decide)

/-! ## The mount driver: `close` -/

/-- C25, at the failing input (two mounts, tagged 1 and 2, on the live index of the
three sample records; the mount tagged 1 is closed): before the close the mount
tagged 2 sees the index and opens `a/d.txt`; the close deletes the index although
that mount remains, so its `data` points to a deleted object, no call on it has a
defined result, and closing it deletes the same object again. Every close deletes
the index, however many mounts there are. -/
theorem C25_first_close_deletes_shared_index :
    ((twoMounts.patchData 1).bind
        (fun p => BUGS_openRead p [97, 47, 100, 46, 116, 120, 116])).isSome = true
    ∧ (∃ driver, BUGS_closeArchive twoMounts 0 = some driver
        ∧ driver.mounts.map (fun m => m.2) = [2]
        ∧ driver.bugsMetaInformation.isSome = false
        ∧ (driver.patchData 0).isSome = false
        ∧ (BUGS_closeArchive driver 0).isSome = false)
    ∧ (∀ (driver driver2 : Driver) (i : Nat), BUGS_closeArchive driver i = some driver2 →
        driver2.bugsMetaInformation = none ∧ ∀ j, driver2.patchData j = none) := by
  refine ⟨?_, ⟨_, rfl, rfl, rfl, rfl, rfl⟩, ?_⟩
  · have hl : List.lookup [97, 47, 100, 46, 116, 120, 116] sampleArchiveData.entryHash
        = some { offset := 120, patchVersion := 2, checksum := 77, size := 4,
                 startMagic := 7 } := by
      unfold sampleArchiveData
      rw [afterRecords_entryHash, lookup_insertRecords]
      rfl
    show (BUGS_openRead { archiveIo := sampleIo, patchVersion := 2, data := sampleArchiveData }
      [97, 47, 100, 46, 116, 120, 116]).isSome = true
    rw [BUGS_openRead_of_lookup _ _ _ hl]
    rfl
  · intro driver driver2 i h
    unfold BUGS_closeArchive at h
    split at h
    · simp at h
    · simp only [Option.some.injEq] at h
      rw [← h]
      refine ⟨rfl, ?_⟩
      intro j
      unfold Driver.patchData
      split
      · rename_i h2
        simp at h2
      · rfl

/-! ## Duplicated handles -/

theorem readPreAlign_bytes (g : BUGS_archiveData) (io : PHYSFS_Io) (offs p magic d : Nat) :
    (readPreAlign g io offs p magic d).2.2.bytes = io.bytes := by
  unfold readPreAlign
  split <;> rfl

theorem readAligned_bytes (g : BUGS_archiveData) (io : PHYSFS_Io) (align magic : Nat) :
    (readAligned g io align magic).2.2.bytes = io.bytes := by
  unfold readAligned
  split <;> rfl

theorem readPostAlign_bytes (io : PHYSFS_Io) (q magic d : Nat) :
    (readPostAlign io q magic d).2.bytes = io.bytes := by
  unfold readPostAlign
  split <;> rfl

/-- No call on a handle changes the bytes of the container. -/
theorem IoCall_apply_bytes (g : BUGS_archiveData) (entry e : BUGS_entryHandle) (call : IoCall)
    (h : call.apply g entry = some e) : e.io.bytes = entry.io.bytes := by
  cases call with
  | read len d1 d2 =>
    simp only [IoCall.apply, Option.some.injEq] at h
    rw [← h]
    show (readPostAlign _ _ _ _).2.bytes = _
    rw [readPostAlign_bytes, readAligned_bytes, readPreAlign_bytes]
    rfl
  | seek offset =>
    simp only [IoCall.apply, Option.map_eq_some'] at h
    obtain ⟨r, hr, rfl⟩ := h
    unfold BUGS_ioSeek at hr
    split at hr
    · simp only [Option.some.injEq] at hr
      rw [← hr]
    · split at hr
      · simp only [Option.some.injEq] at hr
        rw [← hr]
      · simp only at hr
        split at hr
        · simp at hr
        · simp only [Option.some.injEq] at hr
          rw [← hr]
          simp only [PHYSFS_Io.seek]
          split <;> rfl

/-- What a read returns and stores depends on the handle's entry data, offset and
keystream state and on the container's bytes, not on where the container stream
stands nor on the uninitialised locals. -/
theorem BUGS_ioRead_congr (g : BUGS_archiveData) (e1 e2 : BUGS_entryHandle)
    (hb : ∀ i, e1.io.bytes i < 256) (hbytes : e2.io.bytes = e1.io.bytes)
    (hdata : e2.data = e1.data) (hoff : e2.currentOffset = e1.currentOffset)
    (hmagic : e2.currentMagic = e1.currentMagic)
    (len d1 d2 d3 d4 : Nat) (hlen : len < 2 ^ 64) :
    (BUGS_ioRead g e2 len d1 d2).ret = (BUGS_ioRead g e1 len d3 d4).ret
    ∧ (BUGS_ioRead g e2 len d1 d2).buffer = (BUGS_ioRead g e1 len d3 d4).buffer := by
  constructor
  · show toSint64 (toReadOf e2 len) = toSint64 (toReadOf e1 len)
    unfold toReadOf
    rw [hdata, hoff]
  · rw [BUGS_ioRead_buffer g e2 (by rw [hbytes]; exact hb) len d1 d2 hlen,
      BUGS_ioRead_buffer g e1 hb len d3 d4 hlen, hbytes, hdata, hoff, hmagic]

/-- C26. A duplicate continues from the same logical position: for every handle (on a
container of bytes), `BUGS_ioDuplicate` yields a handle with the same entry data,
`currentOffset` and `currentMagic`; the same read request on the duplicate and on the
original returns the same count and stores the same bytes; and after any read or seek
on one of the two, the other still has its `currentOffset` and `currentMagic` and
still answers every read as before, although the two share the container stream that
the call has moved. -/
theorem C26_duplicate_continues (g : BUGS_archiveData) (entry : BUGS_entryHandle)
    (hb : ∀ i, entry.io.bytes i < 256) :
    ((BUGS_ioDuplicate entry).data = entry.data
      ∧ (BUGS_ioDuplicate entry).currentOffset = entry.currentOffset
      ∧ (BUGS_ioDuplicate entry).currentMagic = entry.currentMagic)
    ∧ (∀ len d1 d2 d3 d4 : Nat, len < 2 ^ 64 →
        (BUGS_ioRead g (BUGS_ioDuplicate entry) len d1 d2).ret
            = (BUGS_ioRead g entry len d3 d4).ret
        ∧ (BUGS_ioRead g (BUGS_ioDuplicate entry) len d1 d2).buffer
            = (BUGS_ioRead g entry len d3 d4).buffer)
    ∧ (∀ (call : IoCall) (pair : HandlePair),
        HandlePair.onSelf g { self := entry, dup := BUGS_ioDuplicate entry } call = some pair →
        pair.dup.currentOffset = entry.currentOffset
        ∧ pair.dup.currentMagic = entry.currentMagic
        ∧ ∀ len d1 d2 d3 d4 : Nat, len < 2 ^ 64 →
            (BUGS_ioRead g pair.dup len d1 d2).ret = (BUGS_ioRead g entry len d3 d4).ret
            ∧ (BUGS_ioRead g pair.dup len d1 d2).buffer
                = (BUGS_ioRead g entry len d3 d4).buffer)
    ∧ (∀ (call : IoCall) (pair : HandlePair),
        HandlePair.onDup g { self := entry, dup := BUGS_ioDuplicate entry } call = some pair →
        pair.self.currentOffset = entry.currentOffset
        ∧ pair.self.currentMagic = entry.currentMagic
        ∧ ∀ len d1 d2 d3 d4 : Nat, len < 2 ^ 64 →
            (BUGS_ioRead g pair.self len d1 d2).ret = (BUGS_ioRead g entry len d3 d4).ret
            ∧ (BUGS_ioRead g pair.self len d1 d2).buffer
                = (BUGS_ioRead g entry len d3 d4).buffer) := by
  refine ⟨⟨rfl, rfl, rfl⟩, ?_, ?_, ?_⟩
  · intro len d1 d2 d3 d4 hlen
    exact BUGS_ioRead_congr g entry (BUGS_ioDuplicate entry) hb rfl rfl rfl rfl len d1 d2 d3 d4
      hlen
  · intro call pair h
    simp only [HandlePair.onSelf, Option.map_eq_some'] at h
    obtain ⟨e, he, rfl⟩ := h
    have hbytes := IoCall_apply_bytes g entry e call he
    refine ⟨rfl, rfl, ?_⟩
    intro len d1 d2 d3 d4 hlen
    exact BUGS_ioRead_congr g entry { BUGS_ioDuplicate entry with io := e.io } hb hbytes
      rfl rfl rfl len d1 d2 d3 d4 hlen
  · intro call pair h
    simp only [HandlePair.onDup, Option.map_eq_some'] at h
    obtain ⟨e, he, rfl⟩ := h
    have hbytes : e.io.bytes = entry.io.bytes :=
      IoCall_apply_bytes g (BUGS_ioDuplicate entry) e call he
    refine ⟨rfl, rfl, ?_⟩
    intro len d1 d2 d3 d4 hlen
    exact BUGS_ioRead_congr g entry { entry with io := e.io } hb hbytes
      rfl rfl rfl len d1 d2 d3 d4 hlen

/-- C26, at a concrete input: the handle at offset 5 of the 20-byte entry and its
duplicate answer a read of 9 bytes alike, whatever the uninitialised locals hold. -/
theorem C26_duplicate_continues_witness :
    (BUGS_ioRead rgssKeys (BUGS_ioDuplicate sampleHandle) 9 1 2).ret
        = (BUGS_ioRead rgssKeys sampleHandle 9 3 4).ret
    ∧ (BUGS_ioRead rgssKeys (BUGS_ioDuplicate sampleHandle) 9 1 2).buffer
        = (BUGS_ioRead rgssKeys sampleHandle 9 3 4).buffer :=
  (C26_duplicate_continues rgssKeys sampleHandle (fun i => Nat.mod_lt _ (by decide))).2.1
    9 1 2 3 4 (by decide)

/-! ## Zone arithmetic -/

/-- C31. Zone arithmetic: for every logical offset `o` and every requested length
`len` (a `uint64_t`), the values `BUGS_ioRead` computes satisfy `preAlign <= 3`,
`postAlign <= 3`, `align` a multiple of 4, `preAlign + postAlign <= len` (the
subtraction that gives `align` does not wrap), `preAlign + align + postAlign = len`,
`preAlign = 0` when `o mod 4 = 0` and `min(4 - o mod 4, len)` otherwise, and
`postAlign = (o + len) mod 4` when `len > preAlign` and 0 otherwise. -/
theorem C31_zone_arithmetic (o len : Nat) (hlen : len < 2 ^ 64) :
    preAlignOf o len ≤ 3
    ∧ postAlignOf o len ≤ 3
    ∧ alignOf o len % 4 = 0
    ∧ preAlignOf o len + postAlignOf o len ≤ len
    ∧ alignOf o len = len - (preAlignOf o len + postAlignOf o len)
    ∧ preAlignOf o len + alignOf o len + postAlignOf o len = len
    ∧ (o % 4 = 0 → preAlignOf o len = 0)
    ∧ (o % 4 ≠ 0 → preAlignOf o len = min (4 - o % 4) len)
    ∧ (len > preAlignOf o len → postAlignOf o len = (o + len) % 4)
    ∧ (¬ len > preAlignOf o len → postAlignOf o len = 0) := by
  obtain ⟨_, h2, h3, h4, h5, _, _⟩ := zones_facts o len hlen
  have hpre := preAlignOf_eq o len
  have hpost := postAlignOf_eq o len
  refine ⟨h2, h3, h4, by omega, by omega, h5, ?_, ?_, ?_, ?_⟩
  · intro h
    rw [hpre, if_pos h]
  · intro h
    rw [hpre, if_neg h]
  · intro h
    rw [hpost, if_pos h]
  · intro h
    rw [hpost, if_neg h]

/-- C31, at a concrete input: offset 5 and length 9 give the zones 3, 4 and 2. -/
theorem C31_zone_arithmetic_witness :
    preAlignOf 5 9 = 3 ∧ alignOf 5 9 = 4 ∧ postAlignOf 5 9 = 2
    ∧ preAlignOf 5 9 + alignOf 5 9 + postAlignOf 5 9 = 9 :=
  ⟨by decide, by decide, by decide, (C31_zone_arithmetic 5 9 (by decide)).2.2.2.2.2.1⟩

/-! ## Frame of the entry stream calls -/

/-- What a seek returns and leaves: the handle as it was with 1 (no-op) or 0
(rejected), or the handle with a new cursor and a repositioned stream with 1. -/
theorem BUGS_ioSeek_cases (entry : BUGS_entryHandle) (offset : Nat) (ret : Int)
    (e : BUGS_entryHandle) (h : BUGS_ioSeek entry offset = some (ret, e)) :
    (ret = 1 ∨ ret = 0) ∧ (ret = 0 → e = entry)
    ∧ e.data = entry.data ∧ e.patchVersion = entry.patchVersion
    ∧ e.io.bytes = entry.io.bytes
    ∧ (e.currentOffset = entry.currentOffset ∨ e.currentOffset = offset) := by
  unfold BUGS_ioSeek at h
  split at h
  · simp only [Option.some.injEq, Prod.mk.injEq] at h
    obtain ⟨h1, h2⟩ := h
    subst h1 h2
    exact ⟨Or.inl rfl, fun h0 => absurd h0 (by decide), rfl, rfl, rfl, Or.inl rfl⟩
  · split at h
    · simp only [Option.some.injEq, Prod.mk.injEq] at h
      obtain ⟨h1, h2⟩ := h
      subst h1 h2
      exact ⟨Or.inr rfl, fun _ => rfl, rfl, rfl, rfl, Or.inl rfl⟩
    · simp only at h
      split at h
      · simp at h
      · simp only [Option.some.injEq, Prod.mk.injEq] at h
        obtain ⟨h1, h2⟩ := h
        subst h1 h2
        refine ⟨Or.inl rfl, fun h0 => absurd h0 (by decide), ?_, ?_, ?_, Or.inr rfl⟩
        · simp only
          split <;> rfl
        · simp only
          split <;> rfl
        · simp only [PHYSFS_Io.seek]
          split <;> rfl

/-- The handle `BUGS_openRead` returns holds a copy of the index entry. -/
theorem BUGS_openRead_data (patchData : BUGS_patchData) (filename : StdString)
    (h : BUGS_entryHandle) (hopen : BUGS_openRead patchData filename = some h) :
    List.lookup filename patchData.data.entryHash = some h.data := by
  cases hl : List.lookup filename patchData.data.entryHash with
  | none =>
    rw [BUGS_openRead_of_lookup_none patchData filename hl] at hopen
    simp at hopen
  | some e =>
    rw [BUGS_openRead_of_lookup patchData filename e hl] at hopen
    split at hopen
    · simp only [Option.some.injEq] at hopen
      rw [← hopen]
      rfl
    · simp at hopen

/-- No sequence of calls changes the entry data, the version or the container's bytes
of a handle. -/
theorem runCalls_frame (g : BUGS_archiveData) :
    ∀ (calls : List IoCall) (entry e : BUGS_entryHandle), runCalls g entry calls = some e →
      e.data = entry.data ∧ e.patchVersion = entry.patchVersion
      ∧ e.io.bytes = entry.io.bytes := by
  intro calls
  induction calls with
  | nil =>
    intro entry e h
    simp only [runCalls, Option.some.injEq] at h
    rw [← h]
    exact ⟨rfl, rfl, rfl⟩
  | cons call calls ih =>
    intro entry e h
    rw [runCalls] at h
    cases hc : call.apply g entry with
    | none => rw [hc] at h; simp at h
    | some e1 =>
      rw [hc] at h
      obtain ⟨i1, i2, i3⟩ := ih e1 e h
      have hb := IoCall_apply_bytes g entry e1 call hc
      have hd : e1.data = entry.data ∧ e1.patchVersion = entry.patchVersion := by
        cases call with
        | read len d1 d2 =>
          simp only [IoCall.apply, Option.some.injEq] at hc
          rw [← hc]
          exact ⟨rfl, rfl⟩
        | seek offset =>
          simp only [IoCall.apply, Option.map_eq_some'] at hc
          obtain ⟨r, hr, rfl⟩ := hc
          have := BUGS_ioSeek_cases entry offset r.1 r.2 hr
          exact ⟨this.2.2.1, this.2.2.2.1⟩
      exact ⟨i1.trans hd.1, i2.trans hd.2, i3.trans hb⟩

/-- C32. Read and seek touch only the cursor: every read and every seek on a handle,
successful or failed, leaves the handle's entry data (offset, size, startMagic,
patchVersion, checksum), its version and the container's bytes as they were; a seek
returns 1 or 0, and one that returns 0 leaves the whole handle, `currentOffset` and
`currentMagic` included, as it was; after any sequence of calls on a handle that
`BUGS_openRead` returned, the index of the mount (an input only of every call) still
holds, under the path, the entry data the handle holds. -/
theorem C32_read_and_seek_touch_only_cursor (g : BUGS_archiveData)
    (entry : BUGS_entryHandle) :
    (∀ len d1 d2 : Nat,
        (BUGS_ioRead g entry len d1 d2).entry.data = entry.data
        ∧ (BUGS_ioRead g entry len d1 d2).entry.patchVersion = entry.patchVersion
        ∧ (BUGS_ioRead g entry len d1 d2).entry.io.bytes = entry.io.bytes)
    ∧ (∀ (offset : Nat) (ret : Int) (e : BUGS_entryHandle),
        BUGS_ioSeek entry offset = some (ret, e) →
        e.data = entry.data ∧ e.patchVersion = entry.patchVersion
        ∧ e.io.bytes = entry.io.bytes
        ∧ (ret = 1 ∨ ret = 0) ∧ (ret = 0 → e = entry))
    ∧ (∀ (calls : List IoCall) (e : BUGS_entryHandle), runCalls g entry calls = some e →
        e.data = entry.data ∧ e.patchVersion = entry.patchVersion
        ∧ e.io.bytes = entry.io.bytes
        ∧ ∀ (patchData : BUGS_patchData) (filename : StdString),
            BUGS_openRead patchData filename = some entry →
            List.lookup filename patchData.data.entryHash = some e.data
            ∧ BUGS_openRead patchData filename = some entry) := by
  refine ⟨?_, ?_, ?_⟩
  · intro len d1 d2
    exact ⟨rfl, rfl, IoCall_apply_bytes g entry _ (.read len d1 d2) rfl⟩
  · intro offset ret e h
    obtain ⟨h1, h2, h3, h4, h5, _⟩ := BUGS_ioSeek_cases entry offset ret e h
    exact ⟨h3, h4, h5, h1, h2⟩
  · intro calls e h
    obtain ⟨h1, h2, h3⟩ := runCalls_frame g calls entry e h
    refine ⟨h1, h2, h3, ?_⟩
    intro patchData filename hopen
    rw [h1]
    exact ⟨BUGS_openRead_data patchData filename entry hopen, hopen⟩

/-- C32, at a concrete input: a read of 9 bytes on the handle at offset 5 of the
20-byte entry. -/
theorem C32_read_and_seek_witness :
    (BUGS_ioRead rgssKeys sampleHandle 9 0 0).entry.data = sampleHandle.data
    ∧ (BUGS_ioRead rgssKeys sampleHandle 9 0 0).entry.patchVersion = sampleHandle.patchVersion
    ∧ (BUGS_ioRead rgssKeys sampleHandle 9 0 0).entry.io.bytes = sampleHandle.io.bytes :=
  (C32_read_and_seek_touch_only_cursor rgssKeys sampleHandle).1 9 0 0

/-! ## The cursor stays inside the entry -/

theorem BUGS_ioRead_offset_le (g : BUGS_archiveData) (entry : BUGS_entryHandle)
    (len d1 d2 : Nat) (hsize : entry.data.size < 2 ^ 64)
    (hle : entry.currentOffset ≤ entry.data.size) :
    (BUGS_ioRead g entry len d1 d2).entry.currentOffset ≤ entry.data.size := by
  show (entry.currentOffset + toReadOf entry len) % UINT64_MOD ≤ entry.data.size
  unfold toReadOf UINT64_MOD
  have h1 : (entry.data.size + 18446744073709551616 - entry.currentOffset)
      % 18446744073709551616 = entry.data.size - entry.currentOffset := by
    have : entry.data.size + 18446744073709551616 - entry.currentOffset
        = (entry.data.size - entry.currentOffset) + 18446744073709551616 := by omega
    rw [this, Nat.add_mod_right]
    exact Nat.mod_eq_of_lt (by omega)
  rw [h1]
  have h2 : min (entry.data.size - entry.currentOffset) len
      ≤ entry.data.size - entry.currentOffset := Nat.min_le_left _ _
  have h3 : entry.currentOffset + min (entry.data.size - entry.currentOffset) len
      ≤ entry.data.size := by omega
  exact le_trans (Nat.mod_le _ _) h3

theorem BUGS_ioSeek_offset_le (entry : BUGS_entryHandle) (offset : Nat) (ret : Int)
    (e : BUGS_entryHandle) (hsize1 : 1 ≤ entry.data.size) (hsize : entry.data.size < 2 ^ 64)
    (hle : entry.currentOffset ≤ entry.data.size)
    (h : BUGS_ioSeek entry offset = some (ret, e)) :
    e.currentOffset ≤ entry.data.size := by
  have hcases := BUGS_ioSeek_cases entry offset ret e h
  rcases hcases.2.2.2.2.2 with h1 | h1
  · rw [h1]
    exact hle
  · rw [h1]
    unfold BUGS_ioSeek at h
    split at h
    · rename_i heq
      rw [heq]
      exact hle
    · split at h
      · simp only [Option.some.injEq, Prod.mk.injEq] at h
        rw [← h.2] at h1
        rw [← h1]
        exact hle
      · rename_i hrej
        have hm : (entry.data.size + UINT64_MOD - 1) % UINT64_MOD = entry.data.size - 1 := by
          unfold UINT64_MOD
          have : entry.data.size + 18446744073709551616 - 1
              = (entry.data.size - 1) + 18446744073709551616 := by omega
          rw [this, Nat.add_mod_right]
          exact Nat.mod_eq_of_lt (by omega)
        rw [hm] at hrej
        omega

/-- The cursor bound is kept by every call. -/
theorem runCalls_offset_le (g : BUGS_archiveData) :
    ∀ (calls : List IoCall) (entry e : BUGS_entryHandle),
      1 ≤ entry.data.size → entry.data.size < 2 ^ 64 →
      entry.currentOffset ≤ entry.data.size →
      runCalls g entry calls = some e → e.currentOffset ≤ entry.data.size := by
  intro calls
  induction calls with
  | nil =>
    intro entry e _ _ hle h
    simp only [runCalls, Option.some.injEq] at h
    rw [← h]
    exact hle
  | cons call calls ih =>
    intro entry e h1 h2 hle h
    rw [runCalls] at h
    cases hc : call.apply g entry with
    | none => rw [hc] at h; simp at h
    | some e1 =>
      rw [hc] at h
      have hd : e1.data = entry.data := (runCalls_frame g [call] entry e1 (by
        simp [runCalls, hc])).1
      have hle1 : e1.currentOffset ≤ entry.data.size := by
        cases call with
        | read len d1 d2 =>
          simp only [IoCall.apply, Option.some.injEq] at hc
          rw [← hc]
          exact BUGS_ioRead_offset_le g entry len d1 d2 h2 hle
        | seek offset =>
          simp only [IoCall.apply, Option.map_eq_some'] at hc
          obtain ⟨r, hr, rfl⟩ := hc
          exact BUGS_ioSeek_offset_le entry offset r.1 r.2 h1 h2 hle hr
      have := ih e1 e (by rw [hd]; exact h1) (by rw [hd]; exact h2) (by rw [hd]; exact hle1) h
      rw [hd] at this
      exact this

/-- C33. The cursor stays inside the entry: for every entry with `size >= 1` (a
`uint64_t`), every handle state reached from a freshly opened handle by any sequence
of reads and seeks has `currentOffset <= size`, so the unsigned subtraction
`size - currentOffset` of `BUGS_ioRead` does not wrap and `toRead` is
`min(size - currentOffset, len)`. -/
theorem C33_cursor_stays_inside (g : BUGS_archiveData) (data : BUGS_entryData)
    (archIo : PHYSFS_Io) (calls : List IoCall) (e : BUGS_entryHandle)
    (hsize1 : 1 ≤ data.size) (hsize : data.size < 2 ^ 64)
    (h : runCalls g (BUGS_entryHandle.ctor data archIo) calls = some e) :
    e.data = data
    ∧ e.currentOffset ≤ data.size
    ∧ (e.data.size + UINT64_MOD - e.currentOffset) % UINT64_MOD
        = data.size - e.currentOffset
    ∧ ∀ len, toReadOf e len = min (data.size - e.currentOffset) len := by
  have hd : e.data = data := (runCalls_frame g calls _ e h).1
  have hle : e.currentOffset ≤ data.size :=
    runCalls_offset_le g calls (BUGS_entryHandle.ctor data archIo) e hsize1 hsize
      (Nat.zero_le _) h
  have hsub : (e.data.size + UINT64_MOD - e.currentOffset) % UINT64_MOD
      = data.size - e.currentOffset := by
    rw [hd]
    unfold UINT64_MOD
    have : data.size + 18446744073709551616 - e.currentOffset
        = (data.size - e.currentOffset) + 18446744073709551616 := by omega
    rw [this, Nat.add_mod_right]
    exact Nat.mod_eq_of_lt (by omega)
  refine ⟨hd, hle, hsub, ?_⟩
  intro len
  unfold toReadOf
  rw [hsub]

/-- C33, at concrete inputs: on the 20-byte entry, a read of 15, a seek to 3, a read of
30 and a rejected seek to 25 leave the cursor at 20; so do a read of 15 and a read
of 30. -/
theorem C33_cursor_stays_inside_witness :
    (runCalls rgssKeys (BUGS_entryHandle.ctor sampleData sampleIo)
        [.read 15 0 0, .seek 3, .read 30 0 0, .seek 25]).map (fun e => e.currentOffset)
      = some 20
    ∧ (BUGS_ioRead rgssKeys
          (BUGS_ioRead rgssKeys (BUGS_entryHandle.ctor sampleData sampleIo) 15 0 0).entry
          30 0 0).entry.currentOffset ≤ sampleData.size :=
  ⟨by
      have hseek : BUGS_ioSeek (BUGS_ioRead rgssKeys (BUGS_entryHandle.ctor sampleData sampleIo)
          15 0 0).entry 3 = some (1, _) :=
        BUGS_ioSeek_inside rgssKeys rfl rfl _ 3 (by
          unfold StreamInvariant
          rw [BUGS_ioRead_magic rgssKeys _ 15 0 0 (by decide)]
          rfl) (by decide) (by decide) (by decide)
      simp only [runCalls, IoCall.apply, hseek, Option.map_some']
      rfl,
    (C33_cursor_stays_inside rgssKeys sampleData sampleIo [.read 15 0 0, .read 30 0 0] _
      (by decide) (by decide) rfl).2.1⟩

/-! ## The step count of a seek -/

theorem BUGS_ioSeek_dwordsSought_rewind (entry : BUGS_entryHandle) (offset : Nat)
    (hlt : offset < entry.currentOffset) :
    BUGS_ioSeek.dwordsSought entry offset = (offset / 4 + UINT64_MOD - 0 / 4) % UINT64_MOD := by
  unfold BUGS_ioSeek.dwordsSought
  rw [if_pos hlt]

theorem BUGS_ioSeek_dwordsSought_forward (entry : BUGS_entryHandle) (offset : Nat)
    (hlt : ¬ offset < entry.currentOffset) :
    BUGS_ioSeek.dwordsSought entry offset
      = (offset / 4 + UINT64_MOD - entry.currentOffset / 4) % UINT64_MOD := by
  unfold BUGS_ioSeek.dwordsSought
  rw [if_neg hlt]

/-- A seek that gets as far as `advanceMagicN` calls it on the state left by the rewind
block with `dwordsSought` cast to 32 bits, and returns 1 with the state the skip-ahead
leaves. -/
theorem BUGS_ioSeek_reaches (entry : BUGS_entryHandle) (offset : Nat)
    (h : BUGS_ioSeek.reaches entry offset = true) (r : Nat × Nat)
    (hr : advanceMagicN
            (if offset < entry.currentOffset then entry.data.startMagic
             else entry.currentMagic)
            (BUGS_ioSeek.dwordsSought entry offset % UINT32_MOD) = some r) :
    BUGS_ioSeek entry offset
      = some (1, { data := entry.data
                   currentMagic := r.2
                   currentOffset := offset
                   io := entry.io.seek ((entry.data.offset + offset) % UINT64_MOD)
                   patchVersion := entry.patchVersion }) := by
  unfold BUGS_ioSeek.reaches at h
  simp only [Bool.and_eq_true, Bool.not_eq_true', decide_eq_false_iff_not] at h
  obtain ⟨hne, hrej⟩ := h
  have hoff : offset < 18446744073709551616 := by
    have := Nat.mod_lt (entry.data.size + UINT64_MOD - 1) (by decide : 0 < UINT64_MOD)
    unfold UINT64_MOD at this hrej
    omega
  unfold BUGS_ioSeek
  rw [if_neg hne, if_neg hrej]
  by_cases hlt : offset < entry.currentOffset
  · have hn : (offset / 4 + UINT64_MOD - 0 / 4) % UINT64_MOD = offset / 4 := by
      unfold UINT64_MOD
      omega
    rw [BUGS_ioSeek_dwordsSought_rewind entry offset hlt, if_pos hlt, hn] at hr
    simp only [hlt, if_true, hn, hr]
  · rw [BUGS_ioSeek_dwordsSought_forward entry offset hlt, if_neg hlt] at hr
    simp only [hlt, if_false, hr]

/-- C34. The skip-ahead table index is in range for real entries: for every entry
with `1 <= size <= 2^32` and every handle with `currentOffset <= size`, a seek that
gets as far as `advanceMagicN` (its target differs from `currentOffset` and is at most
`size - 1`) passes a step count `dwordsSought` below `2^30`, which the cast to
`uint32_t` leaves as it is; the skip-ahead reads `LCG_TABLE` at positions up to 29
only, and the seek returns 1. -/
theorem C34_seek_step_count_in_range (entry : BUGS_entryHandle) (offset : Nat)
    (hsize1 : 1 ≤ entry.data.size) (hsize : entry.data.size ≤ 2 ^ 32)
    (hcur : entry.currentOffset ≤ entry.data.size)
    (hreach : BUGS_ioSeek.reaches entry offset = true) :
    offset ≠ entry.currentOffset
    ∧ offset ≤ entry.data.size - 1
    ∧ BUGS_ioSeek.dwordsSought entry offset < 2 ^ 30
    ∧ BUGS_ioSeek.dwordsSought entry offset % UINT32_MOD
        = BUGS_ioSeek.dwordsSought entry offset
    ∧ (∀ i ∈ advanceMagicN.indices (BUGS_ioSeek.dwordsSought entry offset % UINT32_MOD) 0,
        i ≤ 29)
    ∧ ∃ e, BUGS_ioSeek entry offset = some (1, e) := by
  have hr := hreach
  unfold BUGS_ioSeek.reaches at hr
  simp only [Bool.and_eq_true, Bool.not_eq_true', decide_eq_false_iff_not] at hr
  obtain ⟨hne, hrej⟩ := hr
  have hm : (entry.data.size + UINT64_MOD - 1) % UINT64_MOD = entry.data.size - 1 := by
    unfold UINT64_MOD
    omega
  rw [hm] at hrej
  have hle : offset ≤ entry.data.size - 1 := by omega
  have hd : BUGS_ioSeek.dwordsSought entry offset < 2 ^ 30 := by
    by_cases hlt : offset < entry.currentOffset
    · rw [BUGS_ioSeek_dwordsSought_rewind entry offset hlt]
      unfold UINT64_MOD
      omega
    · rw [BUGS_ioSeek_dwordsSought_forward entry offset hlt]
      unfold UINT64_MOD
      omega
  have hcast : BUGS_ioSeek.dwordsSought entry offset % UINT32_MOD
      = BUGS_ioSeek.dwordsSought entry offset := by
    unfold UINT32_MOD
    omega
  refine ⟨hne, hle, hd, hcast, ?_, ?_⟩
  · intro i hi
    rw [hcast] at hi
    have := advanceMagicN_indices_lt _ 0 30 hd i hi
    omega
  · have hadv := advanceMagicN_eq_keystream rgssKeys rfl rfl
      (if offset < entry.currentOffset then entry.data.startMagic else entry.currentMagic)
      (BUGS_ioSeek.dwordsSought entry offset) hd
    rw [← hcast] at hadv
    exact ⟨_, BUGS_ioSeek_reaches entry offset hreach _ hadv⟩

/-- C34, at a concrete input: the handle at offset 5 of the 20-byte entry sought to 13
advances by 2 words. -/
theorem C34_seek_step_count_witness :
    BUGS_ioSeek.dwordsSought sampleHandle 13 = 2
    ∧ (∀ i ∈ advanceMagicN.indices (BUGS_ioSeek.dwordsSought sampleHandle 13 % UINT32_MOD) 0,
        i ≤ 29)
    ∧ ∃ e, BUGS_ioSeek sampleHandle 13 = some (1, e) :=
  ⟨by decide,
    (C34_seek_step_count_in_range sampleHandle 13 (by decide) (by decide) (by decide)
      (by decide)).2.2.2.2.1,
    (C34_seek_step_count_in_range sampleHandle 13 (by decide) (by decide) (by decide)
      (by decide)).2.2.2.2.2⟩

/-! ## The mount driver: the leftmost digit run -/

theorem regex_search_eq_none_iff :
    ∀ path : StdString, regex_search path = none ↔ ∀ b ∈ path, isDigit b = false := by
  intro path
  induction path with
  | nil => simp [regex_search]
  | cons b rest ih =>
    cases hb : isDigit b with
    | false =>
      rw [regex_search_cons_other b rest hb, ih]
      simp [hb]
    | true =>
      rw [regex_search_cons_digit b rest hb]
      constructor
      · intro h
        simp at h
      · intro h
        have := h b (List.mem_cons_self _ _)
        rw [hb] at this
        exact absurd this (by decide)

theorem takeWhile_digits_append (run post : StdString) (hrun : ∀ b ∈ run, isDigit b = true)
    (hpost : ∀ b ∈ post.head?, isDigit b = false) :
    (run ++ post).takeWhile isDigit = run := by
  induction run with
  | nil =>
    cases post with
    | nil => rfl
    | cons c cs =>
      have hc : isDigit c = false := hpost c (by simp)
      simp [List.takeWhile_cons, hc]
  | cons b bs ih =>
    have hb : isDigit b = true := hrun b (List.mem_cons_self _ _)
    rw [List.cons_append, List.takeWhile_cons, hb]
    simp only [if_true]
    rw [ih (fun c hc => hrun c (List.mem_cons_of_mem _ hc))]

/-- The match of `\d+` in a string that starts without digits, goes on with a run of
digits and then with something that is not a digit: the run. -/
theorem regex_search_leftmost_run (pre run post : StdString)
    (hpre : ∀ b ∈ pre, isDigit b = false) (hne : run ≠ [])
    (hrun : ∀ b ∈ run, isDigit b = true) (hpost : ∀ b ∈ post.head?, isDigit b = false) :
    regex_search (pre ++ run ++ post) = some run := by
  induction pre with
  | nil =>
    obtain ⟨b, bs, rfl⟩ := List.exists_cons_of_ne_nil hne
    have hb : isDigit b = true := hrun b (List.mem_cons_self _ _)
    rw [List.nil_append, List.cons_append, regex_search_cons_digit b _ hb,
      takeWhile_digits_append bs post (fun c hc => hrun c (List.mem_cons_of_mem _ hc)) hpost]
  | cons c cs ih =>
    have hc : isDigit c = false := hpre c (List.mem_cons_self _ _)
    rw [List.cons_append, List.cons_append, regex_search_cons_other c _ hc]
    exact ih (fun b hb => hpre b (List.mem_cons_of_mem _ hb))

theorem BUGS_openArchive_of_match (g : BUGS_archiveData) (io : PHYSFS_Io)
    (path run : StdString) (claimed : Int) (hs : regex_search path = some run)
    (hfit : decimalValue run ≤ 2147483647) :
    BUGS_openArchive g io path 0 claimed
      = (.mount { archiveIo := io, patchVersion := decimalValue run, data := g }, 1) := by
  have hstoi : stoi run = some (decimalValue run : Int) := by
    unfold stoi
    rw [if_pos hfit]
  simp [BUGS_openArchive, hs, smatch_size, hstoi, toUint32_of_int_value _ hfit]

/-- C36. The mount tag is the leftmost digit run: for every mount path made of a
digit-free part, a non-empty run of decimal digits whose value fits a 32-bit signed
integer, and a rest that does not start with a digit (it may hold further runs),
`BUGS_openArchive` not for write returns a mount with `patchVersion` the decimal value
of that run, on the stream and the archive data given, and sets `*claimed`; and for
every path, the call returns null exactly when it is made for write or the path holds
no decimal digit. -/
theorem C36_mount_tag_is_leftmost_digit_run (bugsMetaInformation : BUGS_archiveData)
    (io : PHYSFS_Io) (path : StdString) (claimed : Int) :
    (∀ pre run post : StdString, path = pre ++ run ++ post →
        (∀ b ∈ pre, isDigit b = false) → run ≠ [] → (∀ b ∈ run, isDigit b = true) →
        (∀ b ∈ post.head?, isDigit b = false) → decimalValue run ≤ 2147483647 →
        BUGS_openArchive bugsMetaInformation io path 0 claimed
          = (.mount { archiveIo := io, patchVersion := decimalValue run,
                      data := bugsMetaInformation }, 1))
    ∧ (∀ forWrite : Int,
        (BUGS_openArchive bugsMetaInformation io path forWrite claimed).1 = .null
          ↔ forWrite ≠ 0 ∨ ∀ b ∈ path, isDigit b = false) := by
  constructor
  · intro pre run post hpath hpre hne hrun hpost hfit
    rw [hpath]
    exact BUGS_openArchive_of_match bugsMetaInformation io _ run claimed
      (regex_search_leftmost_run pre run post hpre hne hrun hpost) hfit
  · intro forWrite
    by_cases hw : forWrite = 0
    · subst hw
      cases hs : regex_search path with
      | none =>
        have hall := (regex_search_eq_none_iff path).1 hs
        simp only [BUGS_openArchive, hs, smatch_size]
        simp only [ne_eq, not_true_eq_false, if_false, Nat.zero_ne_one, not_false_eq_true,
          if_true, true_iff]
        exact Or.inr hall
      | some run =>
        have hnot : ¬ ∀ b ∈ path, isDigit b = false := by
          intro hall
          rw [(regex_search_eq_none_iff path).2 hall] at hs
          simp at hs
        cases hstoi : stoi run with
        | none => simp [BUGS_openArchive, hs, smatch_size, hstoi, hnot]
        | some v => simp [BUGS_openArchive, hs, smatch_size, hstoi, hnot]
    · simp [BUGS_openArchive, hw]

/-- C36, at a concrete input: in `p1v2.bugs` the leftmost run is `1`, after `p` and
before `v2.bugs`. -/
theorem C36_mount_tag_witness :
    BUGS_openArchive rgssKeys sampleIo twoRunPath 0 0
      = (.mount { archiveIo := sampleIo, patchVersion := decimalValue [49], data := rgssKeys }, 1) :=
  (C36_mount_tag_is_leftmost_digit_run rgssKeys sampleIo twoRunPath 0).1
    [112] [49] [118, 50, 46, 98, 117, 103, 115] rfl (by decide) (by decide) (by decide)
    (by decide) (by decide)

/-! ## Header parser: the bounds of the name buffer -/

theorem toInt32_cases (n : Nat) (hn : n < 4294967296) :
    (n < 2147483648 ∧ toInt32 n = (n : Int))
    ∨ (2147483648 ≤ n ∧ toInt32 n = (n : Int) - 4294967296) := by
  unfold toInt32 UINT32_MOD
  have h : n % 4294967296 = n := Nat.mod_eq_of_lt hn
  rw [h]
  by_cases h2 : n < 2147483648
  · left
    rw [if_pos h2]
    exact ⟨h2, rfl⟩
  · right
    rw [if_neg h2]
    exact ⟨by omega, rfl⟩

/-- The positions one call writes to are inside a buffer of 512 chars exactly when the
length, a `uint32_t` handed over as an `int`, is at most 511. -/
theorem writes_in_bounds_iff (io : List Nat) (n : Nat) (hn : n < 4294967296) :
    (∀ p ∈ decryptAndReadString.writes io (toInt32 n), 0 ≤ p ∧ p < 512) ↔ n ≤ 511 := by
  constructor
  · intro h
    have hlast : toInt32 n ∈ decryptAndReadString.writes io (toInt32 n) := by
      unfold decryptAndReadString.writes
      simp
    have hp := h _ hlast
    rcases toInt32_cases n hn with ⟨_, h2⟩ | ⟨_, h2⟩
    · rw [h2] at hp
      omega
    · rw [h2] at hp
      omega
  · intro hle p hp
    have hint : toInt32 n = (n : Int) := toInt32_small n (by omega)
    rw [hint] at hp
    have hmod : ((n : Int) % 18446744073709551616).toNat = n := by
      have h1 : (n : Int) % 18446744073709551616 = (n : Int) :=
        Int.emod_eq_of_lt (by omega) (by omega)
      rw [h1]
      exact Int.toNat_natCast n
    have hnat : ((n : Int)).toNat = n := Int.toNat_natCast n
    unfold decryptAndReadString.writes at hp
    simp only at hp
    rw [hmod, hnat, List.mem_append, List.mem_append] at hp
    rcases hp with (hp | hp) | hp
    · rw [List.mem_map] at hp
      obtain ⟨i, hi, rfl⟩ := hp
      rw [List.mem_range] at hi
      have := Nat.min_le_right io.length n
      show (0 : Int) ≤ (i : Int) ∧ (i : Int) < 512
      omega
    · rw [List.mem_map] at hp
      obtain ⟨i, hi, rfl⟩ := hp
      rw [List.mem_range] at hi
      show (0 : Int) ≤ (i : Int) ∧ (i : Int) < 512
      omega
    · rw [List.mem_singleton] at hp
      rw [hp]
      omega

/-- The model of `decryptAndReadString` has a result exactly when every write of the
call is inside the buffer. -/
theorem decryptAndReadString_isSome_iff (password : List Nat) (d : BUGS_archiveData) (j : Nat)
    (hk : KeyState password d j) (io buffer : List Nat) (hbuf : buffer.length = 512)
    (n : Nat) (hn : n < 4294967296) :
    (decryptAndReadString d io buffer (toInt32 n)).isSome = true ↔ n ≤ 511 := by
  constructor
  · intro h
    by_contra hgt
    have hnone : decryptAndReadString d io buffer (toInt32 n) = none := by
      unfold decryptAndReadString
      rw [if_pos]
      rw [hbuf]
      rcases toInt32_cases n hn with ⟨_, h2⟩ | ⟨_, h2⟩
      · right
        rw [h2]
        push_cast
        omega
      · left
        rw [h2]
        omega
    rw [hnone] at h
    simp at h
  · intro hle
    rw [toInt32_small n (by omega),
      decryptAndReadString_eq password d j hk io buffer n (by omega)]
    rfl

/-- The parse loop hands every decoded name length to `decryptAndReadString`: on a
record whose name-length field decodes to more than 511 it does not go to `error`, it
writes outside the buffer. -/
theorem loop_long_name (password : List Nat) (u : Indeterminate) (fuel : Nat)
    (d : BUGS_archiveData) (j : Nat) (hk : KeyState password d j)
    (offset patchVersion checksum fileSize magicKey n : Nat)
    (h0 : 0 < offset) (h1 : offset < 4294967296) (h2 : patchVersion < 4294967296)
    (h3 : checksum < 4294967296) (h4 : fileSize < 4294967296) (h5 : magicKey < 4294967296)
    (hn : n < 4294967296) (hlong : 511 < n)
    (rest fileName : List Nat) (hf : fileName.length = 512) (v : HeaderLocals) :
    BUGS_openMetaArchive.loop u (fuel + 1) d
        (encodeUint32 password j offset ++ (encodeUint32 password (j + 1) patchVersion
          ++ (encodeUint32 password (j + 2) checksum ++ (encodeUint32 password (j + 3) fileSize
          ++ (encodeUint32 password (j + 4) magicKey
          ++ (encodeUint32 password (j + 5) n ++ rest))))))
        fileName v
      = .undefined := by
  have k1 := KeyState_step password _ _ hk
  have k2 := KeyState_step password _ _ k1
  have k3 := KeyState_step password _ _ k2
  have k4 := KeyState_step password _ _ k3
  have k5 := KeyState_step password _ _ k4
  have k6 := KeyState_step password _ _ k5
  have e1 := fun rest => readUint32AndXor_encode password _ _ hk offset h1 rest u.buff v.offset
  have e2 := fun rest =>
    readUint32AndXor_encode password _ _ k1 patchVersion h2 rest u.buff v.patchVersion
  have e3 := fun rest =>
    readUint32AndXor_encode password _ _ k2 checksum h3 rest u.buff v.checksum
  have e4 := fun rest =>
    readUint32AndXor_encode password _ _ k3 fileSize h4 rest u.buff v.fileSize
  have e5 := fun rest =>
    readUint32AndXor_encode password _ _ k4 magicKey h5 rest u.buff v.magicKey
  have e6 := fun rest =>
    readUint32AndXor_encode password _ _ k5 n hn rest u.buff v.fileNameLen
  have e7 : ∀ (d2 : BUGS_archiveData) (io : List Nat),
      decryptAndReadString d2 io fileName (toInt32 n) = none := by
    intro d2 io
    unfold decryptAndReadString
    rw [if_pos]
    rw [hf]
    rcases toInt32_cases n hn with ⟨_, h2⟩ | ⟨_, h2⟩
    · right
      rw [h2]
      push_cast
      omega
    · left
      rw [h2]
      omega
  have hoff : ¬ offset ≤ 0 := by omega
  rw [BUGS_openMetaArchive.loop]
  simp only [e1, e2, e3, e4, e5, e6, MetaArchive.guard, hoff, if_false, e7]

/-- C37. Header parsing is safe exactly within its unchecked limits: with a non-empty
password, for every decoded name length `n` (a `uint32_t`, handed to
`decryptAndReadString` as an `int`), the writes of the call into the 512-byte name
buffer (the bytes read, the decoded chars, the NUL at position `n`) are all in bounds
if and only if `n <= 511`, which is also when the call has a defined result; and the
parse loop never rejects a larger length: on a record whose length field decodes to
more than 511 it goes into `decryptAndReadString`, not to `error`. -/
theorem C37_name_buffer_bounds (password : List Nat) (d : BUGS_archiveData) (j : Nat)
    (hk : KeyState password d j) (io buffer : List Nat) (hbuf : buffer.length = 512)
    (n : Nat) (hn : n < 4294967296) :
    ((∀ p ∈ decryptAndReadString.writes io (toInt32 n), 0 ≤ p ∧ p < 512) ↔ n ≤ 511)
    ∧ ((decryptAndReadString d io buffer (toInt32 n)).isSome = true ↔ n ≤ 511)
    ∧ (511 < n →
        ∀ (u : Indeterminate) (fuel : Nat) (v : HeaderLocals)
          (offset patchVersion checksum fileSize magicKey : Nat) (rest : List Nat),
          0 < offset → offset < 4294967296 → patchVersion < 4294967296 →
          checksum < 4294967296 → fileSize < 4294967296 → magicKey < 4294967296 →
          BUGS_openMetaArchive.loop u (fuel + 1) d
              (encodeUint32 password j offset ++ (encodeUint32 password (j + 1) patchVersion
                ++ (encodeUint32 password (j + 2) checksum
                ++ (encodeUint32 password (j + 3) fileSize
                ++ (encodeUint32 password (j + 4) magicKey
                ++ (encodeUint32 password (j + 5) n ++ rest))))))
              buffer v
            = .undefined) := by
  refine ⟨writes_in_bounds_iff io n hn,
    decryptAndReadString_isSome_iff password d j hk io buffer hbuf n hn, ?_⟩
  intro hlong u fuel v offset patchVersion checksum fileSize magicKey rest h0 h1 h2 h3 h4 h5
  exact loop_long_name password u fuel d j hk offset patchVersion checksum fileSize magicKey n
    h0 h1 h2 h3 h4 h5 hn hlong rest buffer hbuf v

/-- C37, at a concrete input: the password `key`, the first record of a parse, a name
length of 512: the NUL goes to position 512, past the buffer, and the parse loop has
gone on to that write. -/
theorem C37_name_buffer_bounds_witness :
    (¬ ∀ p ∈ decryptAndReadString.writes [] (toInt32 512), 0 ≤ p ∧ p < 512)
    ∧ BUGS_openMetaArchive.loop sampleIndeterminate (0 + 1)
          (BUGS_openMetaArchive.init samplePassword 7 3)
          (encodeUint32 samplePassword 0 100 ++ (encodeUint32 samplePassword (0 + 1) 1
            ++ (encodeUint32 samplePassword (0 + 2) 1
            ++ (encodeUint32 samplePassword (0 + 3) 20
            ++ (encodeUint32 samplePassword (0 + 4) 5
            ++ (encodeUint32 samplePassword (0 + 5) 512 ++ []))))))
          zeroFileName sampleIndeterminate.locals
        = .undefined :=
  ⟨fun h => absurd ((C37_name_buffer_bounds samplePassword _ 0
      (KeyState_init samplePassword 7 3 (by decide) (by decide) (by decide)) [] zeroFileName
      zeroFileName_length 512 (by decide)).1.1 h) (by decide),
    (C37_name_buffer_bounds samplePassword _ 0
      (KeyState_init samplePassword 7 3 (by decide) (by decide) (by decide)) [] zeroFileName
      zeroFileName_length 512 (by decide)).2.2 (by decide) sampleIndeterminate 0
      sampleIndeterminate.locals 100 1 1 20 5 [] (by decide) (by decide) (by decide)
      (by decide) (by decide) (by decide)⟩

/-! ## The directory index of a parsed header -/

/-- The directory index after the iteration that takes in one record whose name is a
path of valid segments. -/
theorem afterRecord_dirHash (u : Indeterminate) (d : BUGS_archiveData) (fileName : List Nat)
    (j : Nat) (r : HeaderRecord) (s : StdString) (rest : List StdString)
    (hv : ValidSegments (s :: rest)) (hname : r.fileName = joinPath (s :: rest))
    (hf : fileName.length = 512) (hlen : r.fileName.length ≤ 511) :
    (afterRecord u d fileName j r).1.dirHash
      = (dirPairsRev (s :: rest).reverse).foldl (fun h p => h.insertChild p.1 p.2)
          (d.dirHash.insertChild [] s) := by
  have hdrop : fileName.drop r.fileName.length ≠ [] := by
    intro h
    have := congrArg List.length h
    rw [List.length_drop, List.length_nil] at this
    omega
  obtain ⟨x, tail, hx⟩ := List.exists_cons_of_ne_nil hdrop
  unfold afterRecord
  rw [hx, set_append_cons, hname]
  exact processDirectories_path _ s rest hv tail

theorem mem_children_afterRecord (u : Indeterminate) (d : BUGS_archiveData)
    (fileName : List Nat) (j : Nat) (r : HeaderRecord) (segs : List StdString)
    (hne : segs ≠ []) (hv : ValidSegments segs) (hname : r.fileName = joinPath segs)
    (hf : fileName.length = 512) (hlen : r.fileName.length ≤ 511) (dir name : StdString) :
    name ∈ (afterRecord u d fileName j r).1.dirHash.children dir
      ↔ name ∈ d.dirHash.children dir
        ∨ (dir = [] ∧ segs.head? = some name)
        ∨ ∃ pre post, pre ≠ [] ∧ segs = pre ++ name :: post ∧ joinPath pre = dir := by
  obtain ⟨s, rest, rfl⟩ := List.exists_cons_of_ne_nil hne
  rw [afterRecord_dirHash u d fileName j r s rest hv hname hf hlen, mem_children_foldl,
    mem_children_insertChild, mem_dirPairsRev, List.reverse_reverse]
  simp only [List.head?_cons, Option.some.injEq]
  constructor
  · rintro ((⟨h1, h2⟩ | h3) | h4)
    · exact Or.inr (Or.inl ⟨h1, h2.symm⟩)
    · exact Or.inl h3
    · exact Or.inr (Or.inr h4)
  · rintro (h3 | ⟨h1, h2⟩ | h4)
    · exact Or.inl (Or.inr h3)
    · exact Or.inl (Or.inl ⟨h1, h2.symm⟩)
    · exact Or.inr h4

/-- The child sets after the parse of records whose names are paths of valid segments:
what was there, the first segments under the root, and under every directory the
segment that follows it in a path. -/
theorem mem_children_afterRecords (u : Indeterminate) :
    ∀ (recs : List HeaderRecord) (d : BUGS_archiveData) (fileName : List Nat) (j : Nat),
      fileName.length = 512 →
      (∀ r ∈ recs, r.fileName.length ≤ 511
        ∧ ∃ segs, segs ≠ [] ∧ ValidSegments segs ∧ r.fileName = joinPath segs) →
      ∀ (dir name : StdString),
        name ∈ (afterRecords u d fileName j recs).dirHash.children dir
          ↔ name ∈ d.dirHash.children dir
            ∨ ∃ r ∈ recs, ∃ segs, segs ≠ [] ∧ ValidSegments segs ∧ r.fileName = joinPath segs
                ∧ ((dir = [] ∧ segs.head? = some name)
                  ∨ ∃ pre post, pre ≠ [] ∧ segs = pre ++ name :: post
                      ∧ joinPath pre = dir) := by
  intro recs
  induction recs with
  | nil =>
    intro d fileName j _ _ dir name
    simp only [afterRecords, List.not_mem_nil, false_and, exists_false, or_false]
  | cons r rs ih =>
    intro d fileName j hf hp dir name
    obtain ⟨hlen, segs0, hne0, hv0, hname0⟩ := hp r (List.mem_cons_self _ _)
    have hrest : ∀ x ∈ rs, x.fileName.length ≤ 511
        ∧ ∃ segs, segs ≠ [] ∧ ValidSegments segs ∧ x.fileName = joinPath segs :=
      fun x hx => hp x (List.mem_cons_of_mem _ hx)
    rw [afterRecords, ih _ _ _ (afterRecord_length u d fileName j r hf hlen) hrest]
    constructor
    · rintro (h | ⟨r2, hr2, h⟩)
      · rcases (mem_children_afterRecord u d fileName j r segs0 hne0 hv0 hname0 hf hlen
          dir name).1 h with h1 | h2
        · exact Or.inl h1
        · exact Or.inr ⟨r, List.mem_cons_self _ _, segs0, hne0, hv0, hname0, h2⟩
      · exact Or.inr ⟨r2, List.mem_cons_of_mem _ hr2, h⟩
    · rintro (h | ⟨r2, hr2, segs, hne, hv, hname, h⟩)
      · exact Or.inl ((mem_children_afterRecord u d fileName j r segs0 hne0 hv0 hname0 hf hlen
          dir name).2 (Or.inl h))
      · rcases List.mem_cons.1 hr2 with rfl | hmem
        · exact Or.inl ((mem_children_afterRecord u d fileName j r2 segs hne hv hname hf hlen
            dir name).2 (Or.inr h))
        · exact Or.inr ⟨r2, hmem, segs, hne, hv, hname, h⟩

theorem contains_of_mem_children (h : BoostHash BoostSet) (dir name : StdString)
    (hmem : name ∈ h.children dir) : h.contains dir = true := by
  unfold BoostHash.children at hmem
  unfold BoostHash.contains
  cases hl : List.lookup dir h with
  | none =>
    rw [hl] at hmem
    simp at hmem
  | some s => rfl

theorem BUGS_stat_found (patchData : BUGS_patchData) (filename : StdString)
    (stat : PHYSFS_Stat) (errorCode : PHYSFS_ErrorCode)
    (h : patchData.data.entryHash.contains filename = true
          ∨ patchData.data.dirHash.contains filename = true) :
    (BUGS_stat patchData filename stat errorCode).1 = 1 := by
  cases hl : List.lookup filename patchData.data.entryHash with
  | some e => rw [BUGS_stat_file patchData filename stat errorCode e hl]
  | none =>
    have hf : patchData.data.entryHash.contains filename = false := by
      simp [BoostHash.contains, hl]
    rcases h with h | h
    · rw [hf] at h
      exact absurd h (by decide)
    · rw [BUGS_stat_directory patchData filename stat errorCode hf h]

/-- In the index left by the parse of records whose names are paths of valid segments,
a run of leading segments of a record's path with one more segment spells a key: of
the file index when the path ends there, of the directory index when it goes on. -/
theorem joined_is_key (u : Indeterminate) (recs : List HeaderRecord) (d : BUGS_archiveData)
    (fileName : List Nat) (j : Nat) (hf : fileName.length = 512)
    (hp : ∀ r ∈ recs, r.fileName.length ≤ 511
        ∧ ∃ segs, segs ≠ [] ∧ ValidSegments segs ∧ r.fileName = joinPath segs)
    (hempty : d.entryHash = [])
    (r : HeaderRecord) (hr : r ∈ recs) (pre post : List StdString) (c : StdString)
    (hv : ValidSegments (pre ++ c :: post)) (hname : r.fileName = joinPath (pre ++ c :: post)) :
    (afterRecords u d fileName j recs).entryHash.contains (joinPath (pre ++ [c])) = true
    ∨ (afterRecords u d fileName j recs).dirHash.contains (joinPath (pre ++ [c])) = true := by
  cases post with
  | nil =>
    left
    rw [afterRecords_entryHash, hempty]
    exact (contains_insertRecords u recs _).2 ⟨r, hr, hname⟩
  | cons t ts =>
    right
    apply contains_of_mem_children _ _ t
    rw [mem_children_afterRecords u recs d fileName j hf hp]
    refine Or.inr ⟨r, hr, pre ++ c :: t :: ts, by simp, hv, hname, Or.inr ⟨pre ++ [c], ts, by simp,
      by simp, rfl⟩⟩

/-- C35. Listings are closed under lookup: after the successful parse of records whose
paths consist of non-empty segments separated by single slashes, every directory that
has a child in the directory index is a key of it, and for every child name `c` in the
child set of a directory `dir` the joined path (`c` under the root `""`, `dir/c`
otherwise) is a key of the file index or of the directory index, so `BUGS_stat` on it
returns 1 on every mount; and every proper directory prefix of a record's path is a key
of the directory index. -/
theorem C35_listings_closed_under_lookup (password : List Nat)
    (keyMultiplier keyAdditive : Int) (u : Indeterminate) (fileName head : List Nat)
    (recs : List HeaderRecord)
    (hpos : 0 < password.length) (hlt : password.length < 2147483648)
    (hb : ∀ c ∈ password, c < 256)
    (hhead : head.length = 8) (hf : fileName.length = 512)
    (hwf : ∀ r ∈ recs, r.WellFormed)
    (hpaths : ∀ r ∈ recs, ∃ segs, segs ≠ [] ∧ ValidSegments segs ∧ r.fileName = joinPath segs) :
    ∃ d, BUGS_openMetaArchive (head ++ encodeRecords password 0 recs) password
          keyMultiplier keyAdditive u fileName = .built d []
      ∧ (∀ dir c, c ∈ d.dirHash.children dir →
          d.dirHash.contains dir = true
          ∧ (d.entryHash.contains (if dir = [] then c else dir ++ 47 :: c) = true
              ∨ d.dirHash.contains (if dir = [] then c else dir ++ 47 :: c) = true)
          ∧ ∀ (io : PHYSFS_Io) (v : Nat) (stat : PHYSFS_Stat) (errorCode : PHYSFS_ErrorCode),
              (BUGS_stat { archiveIo := io, patchVersion := v, data := d }
                (if dir = [] then c else dir ++ 47 :: c) stat errorCode).1 = 1)
      ∧ (∀ r ∈ recs, ∀ pre post : List StdString, pre ≠ [] → post ≠ [] →
          ValidSegments (pre ++ post) → r.fileName = joinPath (pre ++ post) →
          d.dirHash.contains (joinPath pre) = true) := by
  have hparse := BUGS_openMetaArchive_encoded password keyMultiplier keyAdditive u fileName
    head [] recs hpos hlt hb hhead hf hwf
  rw [List.append_nil] at hparse
  have hp : ∀ r ∈ recs, r.fileName.length ≤ 511
      ∧ ∃ segs, segs ≠ [] ∧ ValidSegments segs ∧ r.fileName = joinPath segs :=
    fun r hr => ⟨(hwf r hr).2.2.2.2.2.2.1, hpaths r hr⟩
  have hchar := mem_children_afterRecords u recs
    (BUGS_openMetaArchive.init password keyMultiplier keyAdditive) fileName 0 hf hp
  have hkey : ∀ dir c,
      c ∈ (afterRecords u (BUGS_openMetaArchive.init password keyMultiplier keyAdditive)
            fileName 0 recs).dirHash.children dir →
      (afterRecords u (BUGS_openMetaArchive.init password keyMultiplier keyAdditive)
          fileName 0 recs).entryHash.contains (if dir = [] then c else dir ++ 47 :: c) = true
      ∨ (afterRecords u (BUGS_openMetaArchive.init password keyMultiplier keyAdditive)
          fileName 0 recs).dirHash.contains (if dir = [] then c else dir ++ 47 :: c) = true := by
    intro dir c hc
    rw [hchar, children_init] at hc
    rcases hc with h | ⟨r, hr, segs, hne, hv, hname, h⟩
    · simp at h
    · rcases h with ⟨hdir, hhead2⟩ | ⟨pre, post, hpre, hsegs, hjoin⟩
      · obtain ⟨s, rest, rfl⟩ := List.exists_cons_of_ne_nil hne
        simp only [List.head?_cons, Option.some.injEq] at hhead2
        subst hhead2
        rw [if_pos hdir]
        exact joined_is_key u recs _ fileName 0 hf hp rfl r hr [] rest s hv hname
      · subst hsegs
        have hvpre : ValidSegments pre := fun x hx => hv x (List.mem_append_left _ hx)
        have hdne : dir ≠ [] := by
          rw [← hjoin]
          exact joinPath_ne_nil pre hpre hvpre
        rw [if_neg hdne, ← hjoin, ← joinPath_snoc pre c hpre]
        exact joined_is_key u recs _ fileName 0 hf hp rfl r hr pre post c hv hname
  refine ⟨_, hparse, ?_, ?_⟩
  · intro dir c hc
    exact ⟨contains_of_mem_children _ dir c hc, hkey dir c hc,
      fun io v stat errorCode => BUGS_stat_found _ _ stat errorCode (hkey dir c hc)⟩
  · intro r hr pre post hpre hpost hv hname
    obtain ⟨t, ts, rfl⟩ := List.exists_cons_of_ne_nil hpost
    apply contains_of_mem_children _ _ t
    rw [hchar]
    exact Or.inr ⟨r, hr, pre ++ t :: ts, by simp, hv, hname, Or.inr ⟨pre, ts, hpre, rfl, rfl⟩⟩

set_option maxRecDepth 100000 in
/-- C35, at the three sample records `a/b/c.txt`, `a/d.txt`, `e.txt`: the children `a`
and `e.txt` of the root and `b` of `a` stat successfully. -/
theorem C35_listings_closed_witness :
    (∃ d, BUGS_openMetaArchive (sampleHead ++ encodeRecords samplePassword 0 sampleRecords)
          samplePassword 7 3 sampleIndeterminate zeroFileName = .built d []
      ∧ (∀ dir c, c ∈ d.dirHash.children dir →
          d.dirHash.contains dir = true
          ∧ (d.entryHash.contains (if dir = [] then c else dir ++ 47 :: c) = true
              ∨ d.dirHash.contains (if dir = [] then c else dir ++ 47 :: c) = true)
          ∧ ∀ (io : PHYSFS_Io) (v : Nat) (stat : PHYSFS_Stat) (errorCode : PHYSFS_ErrorCode),
              (BUGS_stat { archiveIo := io, patchVersion := v, data := d }
                (if dir = [] then c else dir ++ 47 :: c) stat errorCode).1 = 1)
      ∧ (∀ r ∈ sampleRecords, ∀ pre post : List StdString, pre ≠ [] → post ≠ [] →
          ValidSegments (pre ++ post) → r.fileName = joinPath (pre ++ post) →
          d.dirHash.contains (joinPath pre) = true))
    ∧ sampleArchiveData.dirHash.children [97] = [[98], [100, 46, 116, 120, 116]]
    ∧ sampleArchiveData.dirHash.contains [97, 47, 98] = true
    ∧ sampleArchiveData.entryHash.contains [97, 47, 100, 46, 116, 120, 116] = true :=
  ⟨C35_listings_closed_under_lookup samplePassword 7 3 sampleIndeterminate zeroFileName
      sampleHead sampleRecords (by decide) (by decide) (by decide) (by decide)
      zeroFileName_length (by decide)
      (fun r hr => by
        simp only [sampleRecords, List.mem_cons, List.mem_singleton, List.not_mem_nil,
          or_false] at hr
        rcases hr with rfl | rfl | rfl
        · exact ⟨[[97], [98], [99, 46, 116, 120, 116]], by decide, by decide, rfl⟩
        · exact ⟨[[97], [100, 46, 116, 120, 116]], by decide, by decide, rfl⟩
        · exact ⟨[[101, 46, 116, 120, 116]], by decide, by decide, rfl⟩),
    by decide, by decide, by decide⟩

end Rgssad
